import Mathlib

/-!
# Alhambra LLVM back end: Selector and LlvmRelocator

A shallow embedding of parts of `selector_llvm.cpp` and `relocator_llvm.cpp`
(HotSpot C2 with an LLVM code generator) together with theorems about them.

Conventions of the embedding

* `unsigned`/`size_t` counters are natural numbers; none of the modelled loops
  can reach 2^32 iterations on a real signature or relocation list.
* A HotSpot `assert`/`ShouldNotReachHere` is a fatal failure of the pass and is
  modelled as a failing result (`none`, or `Res.fatal`).
* LLVM values built by the `IRBuilder` are modelled by what they denote.
-/

set_option autoImplicit false

/-! ## Part 1. Types and the calling convention (`selector_llvm.cpp`, lines 87-194) -/

/-- HotSpot `BasicType` tags (globalDefinitions.hpp). -/
inductive BasicType where
  | T_BOOLEAN | T_CHAR | T_FLOAT | T_DOUBLE | T_BYTE | T_SHORT | T_INT | T_LONG
  | T_OBJECT | T_ARRAY | T_VOID | T_ADDRESS | T_NARROWOOP | T_METADATA
  | T_NARROWKLASS | T_CONFLICT | T_ILLEGAL
  deriving DecidableEq, Repr

/-- The LLVM types that `Selector::type` can produce (`ptr` is `i8*`). -/
inductive LType where
  | i1 | i8 | i16 | i32 | i64 | float | double | void | ptr
  deriving DecidableEq, Repr

/-- The test `llvm::Type::isFloatingPointTy`, on the types above. -/
def LType.isFloatingPointTy : LType → Bool
  | .float => true
  | .double => true
  | _ => false

/-- One field of a `TypeTuple` (a function domain), seen through the two
observations the Selector makes of it: `base() == Type::Half` and
`basic_type()`. -/
structure OptoType where
  is_Half : Bool
  basic_type : BasicType
  deriving DecidableEq, Repr

/-- Well-formed domain field: `Type::Half` (the second slot of a long or a
double) is the field kind whose basic type is `T_VOID`. -/
def OptoType.wf (t : OptoType) : Prop :=
  t.is_Half = true ↔ t.basic_type = BasicType.T_VOID

instance (t : OptoType) : Decidable t.wf := by
  unfold OptoType.wf; exact inferInstance

/-- The constant `TypeFunc::Parms`: index of the first parameter field of a
domain tuple (the enum of opto/type.hpp, which is not among the sources:
Control, I_O, Memory, FramePtr, ReturnAdr, Parms). Its value plays no role in
the theorems. -/
def TypeFunc.Parms : Nat := 5

/-- The parameter fields of a domain tuple, i.e. the fields at indices
`TypeFunc::Parms .. cnt()-1`, in order. -/
abbrev Domain := List OptoType

/-- The count `domain->cnt()`. -/
def Domain.cnt (d : Domain) : Nat := TypeFunc.Parms + d.length

/-- An LLVM value as far as the calling convention is concerned: the lowered
argument `select_node(node->in(i))` of a call, with its LLVM type, or the
constant `builder().getInt64(c)`. -/
inductive Value where
  | arg (i : Nat) (ty : LType)
  | int64 (c : Nat)
  deriving DecidableEq, Repr

/-- The accessor `llvm::Value::getType`. -/
def Value.getType : Value → LType
  | .arg _ ty => ty
  | .int64 _ => LType.i64

/-- A physical parameter of the LLVM function built by `create_func`: its type
and, as ghost information, the domain index it comes from (`none` for the
extra leading word). -/
structure Param where
  ty : LType
  origin : Option Nat
  deriving DecidableEq, Repr

/-- The physical slot description of a call argument. -/
def Value.slot : Value → Param
  | .arg i ty => ⟨ty, some i⟩
  | .int64 _ => ⟨LType.i64, none⟩

namespace Selector

open BasicType

/-- The function `Selector::type` (lines 87-107); `none` is the `Unimplemented()`
default. -/
def type : BasicType → Option LType
  | T_BYTE => some LType.i8
  | T_SHORT => some LType.i16
  | T_CHAR => some LType.i16
  | T_INT => some LType.i32
  | T_NARROWOOP => some LType.i32
  | T_NARROWKLASS => some LType.i32
  | T_LONG => some LType.i64
  | T_FLOAT => some LType.float
  | T_DOUBLE => some LType.double
  | T_BOOLEAN => some LType.i1
  | T_VOID => some LType.void
  | T_OBJECT => some LType.ptr
  | T_METADATA => some LType.ptr
  | T_ADDRESS => some LType.ptr
  | _ => none

/-- The local state of the loop of `create_func`. -/
structure CreateFuncState where
  nf_cnt : Nat
  nf_pos_full : Bool
  nf_pos : List Nat
  paramTypes : List Param
  deriving DecidableEq, Repr

/-- The loop of `create_func` (lines 117-132), entered at domain index `i` with
the fields from `i` on. -/
def create_func_loop (NF_REGS : Nat) : Nat → List OptoType → CreateFuncState →
    Option CreateFuncState
  | _, [], st => some st
  | i, f :: rest, st =>
    let btype := f.basic_type
    if btype ≠ T_VOID then
      let st1 : CreateFuncState :=
        if !st.nf_pos_full && (btype ≠ T_FLOAT) && (btype ≠ T_DOUBLE) then
          { st with nf_cnt := st.nf_cnt + 1, nf_pos := st.nf_pos ++ [i] }
        else st
      match type btype with
      | none => none
      | some ty =>
        let st2 : CreateFuncState :=
          if st1.nf_cnt == NF_REGS && !st1.nf_pos_full then
            { st1 with nf_pos_full := true, paramTypes := ⟨ty, some i⟩ :: st1.paramTypes }
          else
            { st1 with paramTypes := st1.paramTypes ++ [⟨ty, some i⟩] }
        create_func_loop NF_REGS (i + 1) rest st2
    else
      create_func_loop NF_REGS (i + 1) rest st

/-- The function `Selector::create_func` (lines 109-135): the physical parameter list and
`_nf_pos`. -/
def create_func (NF_REGS : Nat) (domain : Domain) : Option (List Param × List Nat) :=
  match create_func_loop NF_REGS TypeFunc.Parms domain ⟨0, false, [], []⟩ with
  | none => none
  | some st =>
    if st.nf_cnt ≠ 0 && !st.nf_pos_full then
      some (⟨LType.i64, none⟩ :: st.paramTypes, st.nf_pos)
    else
      some (st.paramTypes, st.nf_pos)

/-- The loop of `call_args` (lines 153-158) from domain index `i` on;
`ty_of j` is the LLVM type of `select_node(node->in(j))`. -/
def call_args_loop (ty_of : Nat → LType) : Nat → List OptoType → List Value
  | _, [] => []
  | i, at_ :: rest =>
    if at_.is_Half then call_args_loop ty_of (i + 1) rest
    else Value.arg i (ty_of i) :: call_args_loop ty_of (i + 1) rest

/-- The function `Selector::call_args` (lines 150-160). -/
def call_args (ty_of : Nat → LType) (d : Domain) : List Value :=
  call_args_loop ty_of TypeFunc.Parms d

/-- The loop of `callconv_adjust` (lines 164-173): `seen` are the arguments
already passed, in order; the result is the final `nf_cnt` and, when the
`NF_REGS`-th non-floating argument was met, the list after
`erase`/`insert(begin)`. -/
def callconv_scan (NF_REGS : Nat) : Nat → List Value → List Value → Nat × Option (List Value)
  | nf_cnt, _, [] => (nf_cnt, none)
  | nf_cnt, seen, a :: rest =>
    if a.getType.isFloatingPointTy then callconv_scan NF_REGS nf_cnt (seen ++ [a]) rest
    else if nf_cnt + 1 == NF_REGS then (nf_cnt + 1, some (a :: (seen ++ rest)))
    else callconv_scan NF_REGS (nf_cnt + 1) (seen ++ [a]) rest

/-- The function `Selector::callconv_adjust` (lines 162-177). -/
def callconv_adjust (NF_REGS : Nat) (args : List Value) : List Value :=
  match callconv_scan NF_REGS 0 [] args with
  | (_, some adjusted) => adjusted
  | (nf_cnt, none) => if nf_cnt ≠ 0 then Value.int64 0 :: args else args

/-- The function `Selector::param_to_arg` (lines 179-194), given `_nf_pos` as left by
`create_func`. -/
def param_to_arg (NF_REGS : Nat) (nf_pos : List Nat) (domain : Domain) (param_num : Nat) : Nat :=
  if param_num ∈ nf_pos then
    (1 + nf_pos.indexOf param_num) % NF_REGS
  else if domain.cnt = TypeFunc.Parms then 0
  else
    let arg_num := if nf_pos.length > 0 ∧ nf_pos.length < NF_REGS then 1 else 0
    arg_num + ((domain.take (param_num - TypeFunc.Parms)).filter (fun at_ => !at_.is_Half)).length

/-- The index of the physical parameter that comes from domain index `i`. -/
def slot_of (params : List Param) (i : Nat) : Option Nat :=
  let k := params.findIdx (fun p => p.origin == some i)
  if k < params.length then some k else none

/-- The hypothesis on the fields of a signature from domain index `i` on: each
field is well-formed, and the lowered argument of a non-Half field has the LLVM
type of the field's basic type (the call is type-correct for the signature). -/
def FieldsTyped (ty_of : Nat → LType) : Nat → List OptoType → Prop
  | _, [] => True
  | i, f :: rest =>
    f.wf ∧ (f.is_Half = false → type f.basic_type = some (ty_of i)) ∧
      FieldsTyped ty_of (i + 1) rest

instance FieldsTyped.decide (ty_of : Nat → LType) :
    ∀ (i : Nat) (fs : List OptoType), Decidable (FieldsTyped ty_of i fs)
  | _, [] => isTrue trivial
  | i, f :: rest =>
    have := FieldsTyped.decide ty_of (i + 1) rest
    by unfold FieldsTyped; exact inferInstance

/-- The packing rule in the words of the spec: every general (non-floating)
argument after the first `N` general ones is dropped from the list and
collapsed into the single overflow word `w`, which is put at the front;
floating-point arguments keep their slots. `cnt` counts the general arguments
already passed. -/
def overflow_keep (N : Nat) : Nat → List Value → List Value
  | _, [] => []
  | cnt, a :: rest =>
    if a.getType.isFloatingPointTy then a :: overflow_keep N cnt rest
    else if cnt < N then a :: overflow_keep N (cnt + 1) rest
    else overflow_keep N (cnt + 1) rest

/-- The argument list the spec's wording describes (see `overflow_keep`). -/
def overflow_pack (N : Nat) (w : Value) (args : List Value) : List Value :=
  w :: overflow_keep N 0 args

/-- Number of general (non-floating) arguments of a list. -/
def nf_count (args : List Value) : Nat :=
  (args.filter (fun a => !a.getType.isFloatingPointTy)).length

/-- Six integer arguments `a0 .. a5`. -/
def six_ints : List Value := (List.range 6).map (fun k => Value.arg k LType.i32)

/-- A signature `(float, int)`. -/
def sig_float_int : Domain := [⟨false, T_FLOAT⟩, ⟨false, T_INT⟩]

/-- A signature `(int, float, int)`. -/
def sig_int_float_int : Domain := [⟨false, T_INT⟩, ⟨false, T_FLOAT⟩, ⟨false, T_INT⟩]

/-- A signature `(int, float, long)`; the long takes two fields. -/
def sig_int_float_long : Domain :=
  [⟨false, T_INT⟩, ⟨false, T_FLOAT⟩, ⟨false, T_LONG⟩, ⟨true, T_VOID⟩]

/-- The LLVM types of the lowered arguments of a call with `sig_int_float_long`. -/
def tys_int_float_long (i : Nat) : LType :=
  if i = 5 then LType.i32 else if i = 6 then LType.float else LType.i64

end Selector

/-! ## Part 2. Compressed pointers (`selector_llvm.cpp`, lines 675-758)

The IR that `decode_heap_oop` and `encode_heap_oop` emit is modelled by the
function it denotes on bit patterns: a value of an LLVM integer or pointer
type of width `w` is a natural number below `2^w`. The provenance tags
(`oop_info`, `mark_mptr`, `mark_nptr`) belong to the IR value, not to what it
denotes, and are outside this part. -/

namespace LLVM

/-- The instruction `shl` at width `w` (a shift amount of `w` or more is poison in LLVM;
the theorems only use smaller amounts). -/
def shl (w x s : Nat) : Nat := (x * 2 ^ s) % 2 ^ w

/-- The instruction `ashr` at width `w`, for `x < 2^w`: the logical shift, with the
vacated high bits filled with ones when the sign bit of `x` is set. -/
def ashr (w x s : Nat) : Nat :=
  x / 2 ^ s + (if 2 ^ (w - 1) ≤ x then 2 ^ w - 2 ^ (w - s) else 0)

/-- The instruction `trunc` to width `w`. -/
def trunc (w x : Nat) : Nat := x % 2 ^ w

/-- The instruction `sub` at width `w` (wrapping). -/
def sub (w a b : Nat) : Nat := (a + (2 ^ w - b % 2 ^ w)) % 2 ^ w

/-- The instruction `select`. -/
def select (pred : Bool) (a b : Nat) : Nat := if pred then a else b

end LLVM

/-- The narrow-pointer configuration that the host runtime supplies
(`Universe::narrow_oop_base()`, `Universe::narrow_oop_shift()`,
`Universe::narrow_klass_base()`; address 0 is `NULL`) and the pointer width of
the module's data layout (`pointer_size()`). -/
structure Config where
  narrow_oop_base : Nat
  narrow_oop_shift : Nat
  narrow_klass_base : Nat
  pointer_size : Nat
  deriving DecidableEq, Repr

namespace Selector

/-- The flag `_is_fast_compression`, as the constructor sets it (line 16). -/
def is_fast_compression (c : Config) : Bool :=
  c.narrow_oop_base == 0 && c.narrow_oop_shift == 0

/-- The function `Selector::gep(base, offset)` (lines 80-85): byte address arithmetic at
pointer width. -/
def gep (c : Config) (base offset : Nat) : Nat := (base + offset) % 2 ^ c.pointer_size

/-- The function `Selector::get_ptr(ptr, ty)` (lines 317-320): the constant of
pointer width converted to a pointer. -/
def get_ptr (c : Config) (ptr : Nat) : Nat := ptr % 2 ^ c.pointer_size

/-- The function `Selector::decode_heap_oop` (lines 675-720) on denotations. `none` is
a fatal outcome: the failed assertion "unsupported compression mode", or, on
the may-be-null path of a heap-based configuration, the read `oop->getType()`
of line 707, which goes through the local pointer `oop` (declared without an
initialiser at line 690) before anything is assigned to it. -/
def decode_heap_oop (c : Config) (narrow_oop : Nat) (not_null : Bool) : Option Nat :=
  if is_fast_compression c then
    some narrow_oop
  else if c.narrow_oop_shift = 0 then
    none
  else
    let narrow_oop_shift_ := c.narrow_oop_shift
    let narrow_oop_base_ := get_ptr c c.narrow_klass_base
    if c.narrow_oop_base = 0 then
      some (LLVM.shl c.pointer_size narrow_oop narrow_oop_shift_)
    else if not_null then
      some (gep c narrow_oop_base_ (LLVM.shl c.pointer_size narrow_oop narrow_oop_shift_))
    else
      none

/-- The function `Selector::encode_heap_oop` (lines 722-758) on denotations. `none` is
the failed assertion "unsupported compression mode". -/
def encode_heap_oop (c : Config) (oop : Nat) (not_null : Bool) : Option Nat :=
  if is_fast_compression c then
    some oop
  else
    let narrow_oop := oop % 2 ^ c.pointer_size
    if c.narrow_oop_shift = 0 then
      none
    else
      let narrow_oop_shift_ := c.narrow_oop_shift
      let narrow_oop_base_ := c.narrow_klass_base % 2 ^ c.pointer_size
      let narrow_oop :=
        if c.narrow_oop_base ≠ 0 then
          if not_null then
            LLVM.sub c.pointer_size narrow_oop narrow_oop_base_
          else
            let zero_ := 0
            let pred := decide (narrow_oop = zero_)
            LLVM.select pred zero_ (LLVM.sub c.pointer_size narrow_oop narrow_oop_base_)
        else narrow_oop
      let narrow_oop := LLVM.ashr c.pointer_size narrow_oop narrow_oop_shift_
      some (LLVM.trunc 32 narrow_oop)

/-- A supported configuration: either the fast mode or a non-zero shift (the
other case is rejected by the assertion of both functions), narrow values
shifted by the configured amount fit the pointer width, and the range of
addresses `base .. base + (2^32 << shift)` reached from either configured base
lies inside the address space. -/
def Supported (c : Config) : Prop :=
  (is_fast_compression c = true ∨ 0 < c.narrow_oop_shift) ∧
    32 + c.narrow_oop_shift ≤ c.pointer_size ∧
    c.narrow_klass_base + 2 ^ (32 + c.narrow_oop_shift) ≤ 2 ^ c.pointer_size ∧
    c.narrow_oop_base + 2 ^ (32 + c.narrow_oop_shift) ≤ 2 ^ c.pointer_size

instance (c : Config) : Decidable (Supported c) := by
  unfold Supported; exact inferInstance

/-- A heap-based configuration: base at 32 GB, shift 3, 64-bit pointers, the
klass base equal to the oop base. -/
def cfg_heap_based : Config := ⟨0x800000000, 3, 0x800000000, 64⟩

/-- A zero-based configuration: no base, shift 3, 64-bit pointers. -/
def cfg_zero_based : Config := ⟨0, 3, 0, 64⟩

/-- A zero-based configuration whose klass base is not zero: no oop base,
shift 3, klass base at 32 GB, 64-bit pointers. -/
def cfg_zero_based_klass : Config := ⟨0, 3, 0x800000000, 64⟩

end Selector

namespace Selector

/-- The round trip `decode_heap_oop(encode_heap_oop(P))` with one `not_null` flag. -/
def decode_after_encode (c : Config) (oop : Nat) (not_null : Bool) : Option Nat :=
  (encode_heap_oop c oop not_null).bind (fun n => decode_heap_oop c n not_null)

/-- The round trip `encode_heap_oop(decode_heap_oop(N))` with one `not_null` flag. -/
def encode_after_decode (c : Config) (narrow_oop : Nat) (not_null : Bool) : Option Nat :=
  (decode_heap_oop c narrow_oop not_null).bind (fun p => encode_heap_oop c p not_null)

end Selector

/-! ## Part 3. The relocator (`relocator_llvm.cpp`)

Float and double payloads are carried as opaque bit patterns. Address 0 is
`NULL`/`nullptr`. -/

namespace LlvmRelocator

/-- The call kinds of `HotspotRelocInfo` that the relocator uses. -/
inductive HotspotRelocInfo where
  | RelocOptVirtualCall | RelocStaticCall | RelocRuntimeCall
  deriving DecidableEq, Repr

/-- The relocation specs handed to `CodeSection::relocate`. -/
inductive RelocationHolder where
  | opt_virtual_call
  | static_call
  | runtime_call
  | virtual_call (IC_addr : Nat)
  | internal_word (target : Nat)
  | internal_word_type
  | oop (oop_index : Nat)
  deriving DecidableEq, Repr

/-- A pending relocation record. `VirtualCallReloc` is a `CallReloc`, and the
float, double and oop records are `ConstReloc`s, as `apply_relocs` tests them;
`IC_addr` and `con_addr` are 0 until set. -/
inductive Reloc where
  | CallReloc (kind : HotspotRelocInfo) (offset : Nat)
  | VirtualCallReloc (offset : Nat) (IC_addr : Nat)
  | FloatReloc (offset : Nat) (con : Nat) (con_addr : Nat)
  | DoubleReloc (offset : Nat) (con : Nat) (con_addr : Nat)
  | OopReloc (offset : Nat) (con : Nat) (con_addr : Nat)
  | InternalReloc (offset : Nat)
  deriving DecidableEq, Repr

/-- The accessor `Reloc::offset()`. -/
def Reloc.offset : Reloc → Nat
  | .CallReloc _ o => o
  | .VirtualCallReloc o _ => o
  | .FloatReloc o _ _ => o
  | .DoubleReloc o _ _ => o
  | .OopReloc o _ _ => o
  | .InternalReloc o => o

/-- The method `getHolder` of each record class (lines 10-31); `none` is a failed
assertion "address not set". -/
def Reloc.getHolder : Reloc → Option RelocationHolder
  | .CallReloc .RelocOptVirtualCall _ => some .opt_virtual_call
  | .CallReloc .RelocStaticCall _ => some .static_call
  | .CallReloc .RelocRuntimeCall _ => some .runtime_call
  | .VirtualCallReloc _ ic => if ic ≠ 0 then some (.virtual_call ic) else none
  | .FloatReloc _ _ a => if a ≠ 0 then some (.internal_word a) else none
  | .DoubleReloc _ _ a => if a ≠ 0 then some (.internal_word a) else none
  | .OopReloc _ _ a => if a ≠ 0 then some (.internal_word a) else none
  | .InternalReloc _ => some .internal_word_type

/-- The record as `add`, `add_float` or `add_double` pushed it: the address
that `apply_relocs` sets later (`IC_addr`, `con_addr`) is not set. -/
def Reloc.pending : Reloc → Reloc
  | .CallReloc kind o => .CallReloc kind o
  | .VirtualCallReloc o _ => .VirtualCallReloc o 0
  | .FloatReloc o con _ => .FloatReloc o con 0
  | .DoubleReloc o con _ => .DoubleReloc o con 0
  | .OopReloc o con _ => .OopReloc o con 0
  | .InternalReloc o => .InternalReloc o

/-- What `add` reads of a `DebugInfo`: its type and, for a static call, the
target method (`NULL`, or whether it is static); for an oop, the constant. -/
inductive DebugInfo where
  | DynamicCall
  | StaticCall (method : Option Bool)
  | Rethrow
  | Oop (con : Nat)
  | OrigPC
  | Other
  deriving DecidableEq, Repr

/-- The method `LlvmRelocator::add` (lines 33-60): the new record is pushed at
the back of `relocs`; `none` is `ShouldNotReachHere`. -/
def add (relocs : List Reloc) (di : DebugInfo) (offset : Nat) : Option (List Reloc) :=
  match di with
  | .DynamicCall => some (relocs ++ [.VirtualCallReloc offset 0])
  | .StaticCall method =>
    let reloc_info :=
      match method with
      | none => HotspotRelocInfo.RelocRuntimeCall
      | some is_static =>
        if is_static then HotspotRelocInfo.RelocStaticCall
        else HotspotRelocInfo.RelocOptVirtualCall
    some (relocs ++ [.CallReloc reloc_info offset])
  | .Rethrow => some (relocs ++ [.CallReloc .RelocRuntimeCall offset])
  | .Oop con => some (relocs ++ [.OopReloc offset con 0])
  | .OrigPC => some (relocs ++ [.InternalReloc offset])
  | .Other => none

/-- The method `LlvmRelocator::add_float` (lines 62-65). -/
def add_float (relocs : List Reloc) (offset : Nat) (con : Nat) : List Reloc :=
  relocs ++ [.FloatReloc offset con 0]

/-- The method `LlvmRelocator::add_double` (lines 67-70). -/
def add_double (relocs : List Reloc) (offset : Nat) (con : Nat) : List Reloc :=
  relocs ++ [.DoubleReloc offset con 0]

/-- The primitives of the host's `MacroAssembler`, `OopRecorder` and
`CodeSection` that `apply_relocs` calls, over an abstract buffer state. -/
structure MasmOps (σ : Type) where
  float_constant : σ → Nat → Nat × σ
  double_constant : σ → Nat → Nat × σ
  address_constant : σ → Nat → Nat × σ
  allocate_oop_index : σ → Nat → Nat × σ
  consts_relocate : σ → Nat → RelocationHolder → σ
  addr_at : σ → Int → Nat
  insts_relocate : σ → Nat → RelocationHolder → σ
  instruction_size : Nat

/-- The comparator passed to `std::sort` (line 76). -/
def offset_less (a b : Reloc) : Bool := decide (a.offset < b.offset)

/-- The contract of `std::sort` with the comparator of line 76: the result is a
permutation of the input and no later element compares less than an earlier
one. The order of records with equal offsets is left open by the contract. -/
def StdSortContract (sort : List Reloc → List Reloc) : Prop :=
  ∀ l, (sort l).Perm l ∧ (sort l).Pairwise (fun a b => offset_less b a = false)

/-- Insertion of one record into a sorted list, after the records that compare
less than it. -/
def sort_insert (x : Reloc) : List Reloc → List Reloc
  | [] => [x]
  | y :: ys => if offset_less y x then y :: sort_insert x ys else x :: y :: ys

/-- A model of `std::sort` (C++ library): insertion sort, which is what
libstdc++ and libc++ run on short ranges; it keeps records with equal offsets
in their order of insertion. -/
def std_sort (l : List Reloc) : List Reloc := l.foldr sort_insert []

/-- The body of the loop of `apply_relocs` (lines 78-102) for one record: the
buffer state after the record's patch and the record with its address set. -/
def apply_reloc {σ : Type} (ops : MasmOps σ) (m : σ) (rel : Reloc) : Option (σ × Reloc) :=
  let step : σ × Reloc :=
    match rel with
    | .FloatReloc o con _ =>
      let (con_addr, m1) := ops.float_constant m con
      (m1, .FloatReloc o con con_addr)
    | .DoubleReloc o con _ =>
      let (con_addr, m1) := ops.double_constant m con
      (m1, .DoubleReloc o con con_addr)
    | .OopReloc o con _ =>
      let (oop_index, m1) := ops.allocate_oop_index m con
      let (con_addr, m2) := ops.address_constant m1 con
      let m3 := ops.consts_relocate m2 con_addr (.oop oop_index)
      (m3, .OopReloc o con con_addr)
    | .VirtualCallReloc o _ =>
      (m, .VirtualCallReloc o (ops.addr_at m ((o : Int) - (ops.instruction_size : Int))))
    | .CallReloc k o => (m, .CallReloc k o)
    | .InternalReloc o => (m, .InternalReloc o)
  let addr := ops.addr_at step.1 (step.2.offset : Int)
  match step.2.getHolder with
  | none => none
  | some holder => some (ops.insts_relocate step.1 addr holder, step.2)

/-- The loop of `apply_relocs` over the sorted records. -/
def apply_loop {σ : Type} (ops : MasmOps σ) : σ → List Reloc → Option (σ × List Reloc)
  | m, [] => some (m, [])
  | m, rel :: rest =>
    match apply_reloc ops m rel with
    | none => none
    | some (m1, rel1) =>
      match apply_loop ops m1 rest with
      | none => none
      | some (m2, rest1) => some (m2, rel1 :: rest1)

/-- The order in which the loop of `apply_relocs` visits the pending records. -/
def patch_order (sort : List Reloc → List Reloc) (relocs : List Reloc) : List Reloc :=
  sort relocs

/-- The method `LlvmRelocator::apply_relocs` (lines 72-104): the final buffer state
and the records, in the order patched. -/
def apply_relocs {σ : Type} (ops : MasmOps σ) (sort : List Reloc → List Reloc) (m : σ)
    (relocs : List Reloc) : Option (σ × List Reloc) :=
  apply_loop ops m (patch_order sort relocs)

/-- A code buffer as far as relocation is concerned: the constants placed in
the constant region with their addresses, the end of that region, the oop
recorder, and the relocations recorded on the two sections. -/
structure Buffer where
  insts_start : Nat
  consts : List (Nat × Nat)
  consts_end : Nat
  oops : List Nat
  consts_relocs : List (Nat × RelocationHolder)
  insts_relocs : List (Nat × RelocationHolder)
  deriving DecidableEq, Repr

/-- Append-only placement of a constant of `size` bytes, aligned to its size. -/
def Buffer.place (b : Buffer) (size con : Nat) : Nat × Buffer :=
  let addr := (b.consts_end + size - 1) / size * size
  (addr, { b with consts := b.consts ++ [(addr, con)], consts_end := addr + size })

/-- Modelled from the spec: the host primitives (`MacroAssembler`,
`OopRecorder`, `CodeSection`) are not in the sources; the constant region is
append-only, an oop index is the next free index of the recorder, and
`relocate` records the address with its spec. -/
def bufferOps : MasmOps Buffer where
  float_constant := fun b con => b.place 4 con
  double_constant := fun b con => b.place 8 con
  address_constant := fun b con => b.place 8 con
  allocate_oop_index := fun b con => (b.oops.length, { b with oops := b.oops ++ [con] })
  consts_relocate := fun b addr h => { b with consts_relocs := b.consts_relocs ++ [(addr, h)] }
  addr_at := fun b pos => (b.insts_start + pos).toNat
  insts_relocate := fun b addr h => { b with insts_relocs := b.insts_relocs ++ [(addr, h)] }
  instruction_size := 10

/-- An empty buffer: instructions at 0x1000, constant region from 0x100. -/
def empty_buffer : Buffer := ⟨0x1000, [], 0x100, [], [], []⟩

end LlvmRelocator

namespace LlvmRelocator

/-- Four pending records with pairwise distinct offsets, in an unsorted order of
insertion. -/
def relocs_distinct : List Reloc :=
  [.FloatReloc 28 222 0, .OopReloc 8 111 0, .VirtualCallReloc 16 0, .CallReloc .RelocStaticCall 4]

/-- The records of `relocs_distinct`, inserted in another order. -/
def relocs_shuffled : List Reloc :=
  [.VirtualCallReloc 16 0, .FloatReloc 28 222 0, .CallReloc .RelocStaticCall 4, .OopReloc 8 111 0]

/-- Two float records added at one and the same offset 8. -/
def relocs_collision : List Reloc := [.FloatReloc 8 111 0, .FloatReloc 8 222 0]

end LlvmRelocator

/-! ## Part 4. Memoized lowering (`selector_llvm.cpp`, lines 41-64 and 205-213)

A node is identified by its `_idx`, a lowered `llvm::Value*` by a number. The
lowering `node->select(this)` of a node kind is code of the machine
description, not of the Selector; it is modelled by a `Lowering`: the requests
for the lowered values of other nodes that it sends to `select_node`, each
continuation depending on the values received, and the value it returns. -/

namespace Selector

/-- The record `CacheEntry`: `hit` and `val`. -/
structure CacheEntry where
  hit : Bool
  val : Nat
  deriving DecidableEq, Repr

/-- What one call of `node->select(this)` does, as seen from `select_node`. -/
inductive Lowering where
  | done (v : Nat)
  | select_input (node : Nat) (k : Nat → Lowering)

/-- Ghost events recorded by the instrumented `select_node`: the lowering of a
node is invoked, the lowering of a node returned a value, a call of
`select_node` on a node returned a value. -/
inductive Event where
  | invoke (node : Nat)
  | lowered (node : Nat) (v : Nat)
  | returned (node : Nat) (v : Nat)
  deriving DecidableEq, Repr

/-- The vector `_cache` together with the ghost trace. -/
structure SelectState where
  cache : List CacheEntry
  trace : List Event
  deriving DecidableEq, Repr

/-- The state after the first loop of `Selector::select` (lines 42-44): one
fresh entry for each of the `unique` nodes. -/
def SelectState.init (unique : Nat) : SelectState :=
  ⟨List.replicate unique ⟨false, 0⟩, []⟩

mutual

/-- The function `Selector::select_node` (lines 205-213), instrumented with the
ghost trace. `sel node` is the lowering of `node`; `fuel` bounds the depth of
the recursion; `none` is returned when the fuel runs out or when `_idx` is
outside `_cache`. -/
def select_node (sel : Nat → Lowering) : Nat → Nat → SelectState → Option (Nat × SelectState)
  | 0, _, _ => none
  | fuel + 1, node, st =>
    match st.cache[node]? with
    | none => none
    | some entry =>
      if !entry.hit then
        match run sel fuel (sel node) { st with trace := st.trace ++ [Event.invoke node] } with
        | none => none
        | some (v, st1) =>
          some (v, { cache := st1.cache.set node ⟨true, v⟩,
                     trace := st1.trace ++ [Event.lowered node v, Event.returned node v] })
      else
        some (entry.val, { st with trace := st.trace ++ [Event.returned node entry.val] })

/-- Running a lowering, or any other client code that calls `select_node` (the
loop of `Selector::select`, for one), against the cache. -/
def run (sel : Nat → Lowering) : Nat → Lowering → SelectState → Option (Nat × SelectState)
  | 0, _, _ => none
  | _ + 1, Lowering.done v, st => some (v, st)
  | fuel + 1, Lowering.select_input node k, st =>
    match select_node sel fuel node st with
    | none => none
    | some (v, st1) => run sel fuel (k v) st1

end

/-- Every node that a lowering asks `select_node` for, whatever values it
receives, satisfies `ok`. -/
def Lowering.CallsWithin (ok : Nat → Prop) : Lowering → Prop
  | .done _ => True
  | .select_input node k => ok node ∧ ∀ v, (k v).CallsWithin ok

/-- The dependency order of the lowerings: the lowering of a node asks only for
nodes of smaller rank, all of them inside the cache. -/
def DependencyOrder (sel : Nat → Lowering) (rank : Nat → Nat) (unique : Nat) : Prop :=
  ∀ n, (sel n).CallsWithin (fun m => rank m < rank n ∧ m < unique)

/-- The client code that calls `select_node` on each node of a list in turn, as
the loop of `Selector::select` does, and returns the last value. -/
def select_all : List Nat → Nat → Lowering
  | [], last => Lowering.done last
  | n :: rest, _ => Lowering.select_input n (fun v => select_all rest v)

/-- A sample lowering over three nodes: node 0 is a constant, nodes 1 and 2 each
use the node below them twice. -/
def sample_sel (n : Nat) : Lowering :=
  if n = 0 ∨ 3 ≤ n then Lowering.done (100 + n)
  else Lowering.select_input (n - 1) (fun v =>
    Lowering.select_input (n - 1) (fun w => Lowering.done (v + w + 1)))

end Selector

namespace Selector

/-- The cache entry of node `x` is marked `hit`. -/
def Hit (st : SelectState) (x : Nat) : Prop := ∃ e, st.cache[x]? = some e ∧ e.hit = true

/-- The invariant of the instrumented cache. -/
structure Inv (st : SelectState) : Prop where
  once : ∀ n, st.trace.count (Event.invoke n) ≤ 1
  hit_lowered : ∀ n e, st.cache[n]? = some e → e.hit = true → Event.lowered n e.val ∈ st.trace
  returned_cached : ∀ n v, Event.returned n v ∈ st.trace → st.cache[n]? = some ⟨true, v⟩
  lowered_cached : ∀ n v, Event.lowered n v ∈ st.trace → st.cache[n]? = some ⟨true, v⟩

/-- What a completed run leaves unchanged. -/
structure Frame (st st' : SelectState) : Prop where
  length_eq : st'.cache.length = st.cache.length
  kept : ∀ x, (Hit st x ∨ Event.invoke x ∈ st.trace) → st'.cache[x]? = st.cache[x]?
  trace_sub : ∀ e, e ∈ st.trace → e ∈ st'.trace
  no_new_busy : ∀ x, Event.invoke x ∈ st'.trace → ¬ Hit st' x →
    Event.invoke x ∈ st.trace ∧ ¬ Hit st x

/-- The value that a lowering, or any other client of `select_node`, ends with
when each of its requests is answered with the value of the node's cache
entry; `none` when it asks for a node whose entry is not marked `hit`. -/
def answered (cache : List CacheEntry) : Lowering → Option Nat
  | .done v => some v
  | .select_input node k =>
    match cache[node]? with
    | none => none
    | some entry => if entry.hit then answered cache (k entry.val) else none

/-- What is left of a lowering once the requests that the cache answers are
served: the lowering from its first request for a node not marked `hit` on. -/
def resume (cache : List CacheEntry) : Lowering → Lowering
  | .done v => .done v
  | .select_input node k =>
    match cache[node]? with
    | none => .select_input node k
    | some entry => if entry.hit then resume cache (k entry.val) else .select_input node k

/-- The lowering of node `x` has been invoked and has not returned yet. -/
def Busy (st : SelectState) (x : Nat) : Prop := Event.invoke x ∈ st.trace ∧ ¬ Hit st x

/-- Every entry marked `hit` holds the value that the lowering of its node
gives on the cached values of the nodes it asks for, and that lowering has
been invoked. -/
def Answers (sel : Nat → Lowering) (st : SelectState) : Prop :=
  ∀ (n : Nat) (e : CacheEntry), st.cache[n]? = some e → e.hit = true →
    answered st.cache (sel n) = some e.val ∧ Event.invoke n ∈ st.trace

/-- The entries marked `hit` in `cache` are the same in `cache1`. -/
def HitsKept (cache cache1 : List CacheEntry) : Prop :=
  ∀ (x : Nat) (e : CacheEntry), cache[x]? = some e → e.hit = true → cache1[x]? = some e

/-- While the code `s` runs: every lowering in progress is either the one that
`s` is the rest of, or waits for the value of a node whose lowering is in
progress. -/
def WaitsRun (sel : Nat → Lowering) (st : SelectState) (s : Lowering) : Prop :=
  ∀ b, Busy st b → resume st.cache (sel b) = resume st.cache s ∨
    ∃ m k, Busy st m ∧ resume st.cache (sel b) = Lowering.select_input m k

/-- On a call of `select_node` for `n`: every lowering in progress waits for
the value of `n` or of a node whose lowering is in progress. -/
def WaitsSel (sel : Nat → Lowering) (st : SelectState) (n : Nat) : Prop :=
  ∀ b, Busy st b → ∃ m k, resume st.cache (sel b) = Lowering.select_input m k ∧
    (Busy st m ∨ m = n)

/-- A client that asks for node 2 twice and for node 1 in between, and ends
with 1 if the two values it got for node 2 are the same, with 0 if not. -/
def client_twice : Lowering :=
  Lowering.select_input 2 (fun a =>
    Lowering.select_input 1 (fun _ =>
      Lowering.select_input 2 (fun b => Lowering.done (if a = b then 1 else 0))))

end Selector

/-! ## Part 5. Derived-pointer bases (`selector_llvm.cpp`, lines 564-647)

A node is identified by its `_idx`, which is its index in the node arena of
the compilation; `new (C) PhiNode` appends to the arena. The control input
`in(0)` is never followed by `find_derived_base`, only copied. -/

namespace Selector

/-- Result of a run with bounded recursion depth: a value, a fatal failure
(failed assertion, access through a dangling or null pointer), or the fuel ran
out. -/
inductive Res (α : Type) where
  | ok (a : α)
  | fatal
  | out_of_fuel
  deriving DecidableEq, Repr

/-- What `find_derived_base` reads of a node's `bottom_type()`: a narrow oop
with the offset of its pointer type, a pointer type (`isa_ptr()` is non-null)
with its `_offset`, or some other type. -/
inductive NodeType where
  | narrowoop (offset : Int)
  | ptr (offset : Int)
  | other (tag : Nat)
  deriving DecidableEq, Repr

/-- The assertion "sanity" of lines 575-576. -/
def NodeType.sanity : NodeType → Bool
  | .narrowoop offset => offset == 0
  | _ => true

/-- The test `tj == NULL || tj->_offset == 0` of line 579, `tj` being
`isa_ptr()`. -/
def NodeType.is_base : NodeType → Bool
  | .ptr offset => offset == 0
  | _ => true

/-- A node of the program graph, as far as `find_derived_base` reads it. -/
structure Node where
  is_Phi : Bool
  is_Con : Bool
  is_AddP : Bool
  bottom_type : NodeType
  ins : List Nat
  deriving DecidableEq, Repr

/-- A basic block: its nodes, and the number of projections that follow its end
node (so that `end_idx()` is the index of the end node). -/
structure Block where
  nodes : List Nat
  num_tail : Nat
  deriving DecidableEq, Repr

/-- The accessor `Block::end_idx()` (opto/block.hpp, not among the sources): the
index of the block's end node. -/
def Block.end_idx (b : Block) : Nat := b.nodes.length - 1 - b.num_tail

/-- The state that `find_derived_base` reads and writes: the node arena, the
blocks, the node-to-block map of the CFG, the matcher's `mach_null()` node and
the memo `_derived_base`. -/
structure Graph where
  nodes : List Node
  blocks : List Block
  node_to_block : List (Nat × Nat)
  mach_null : Nat
  derived_base : List (Nat × Nat)
  deriving DecidableEq, Repr

/-- Modelled from the spec: the accessor `derived_base(node)` and the map
`_derived_base` are declared in the header, which is not among the sources;
the spec calls the map a memoized function from a derived-pointer node to its
base. The lookup yields `none` (`NULL`) for a node without an entry. -/
def map_find (k : Nat) : List (Nat × Nat) → Option Nat
  | [] => none
  | (a, b) :: rest => if a = k then some b else map_find k rest

/-- The call `insert(std::make_pair(k, v))` of the standard map containers: an
existing key keeps its value. -/
def map_insert (m : List (Nat × Nat)) (k v : Nat) : List (Nat × Nat) :=
  match map_find k m with
  | some _ => m
  | none => (k, v) :: m

/-- The statement `_derived_base.insert(std::make_pair(derived, base))`. -/
def Graph.memoize (g : Graph) (derived base : Nat) : Graph :=
  { g with derived_base := map_insert g.derived_base derived base }

/-- The loop of lines 604-607 over the inputs `in(2) ..`: `true` when it went
to the end without finding a different base. `rec` is the recursive call. -/
def phi_scan (rec : Graph → Nat → Res (Nat × Graph)) (base : Nat) :
    List Nat → Graph → Res (Bool × Graph)
  | [], g => .ok (true, g)
  | x :: rest, g =>
    match rec g x with
    | .ok (b, g1) => if base ≠ b then .ok (false, g1) else phi_scan rec base rest g1
    | .fatal => .fatal
    | .out_of_fuel => .out_of_fuel

/-- The loop of lines 617-620 over the inputs `in(1) ..`: the bases that become
the inputs of the base Phi. -/
def phi_bases (rec : Graph → Nat → Res (Nat × Graph)) :
    List Nat → Graph → Res (List Nat × Graph)
  | [], g => .ok ([], g)
  | x :: rest, g =>
    match rec g x with
    | .ok (b, g1) =>
      match phi_bases rec rest g1 with
      | .ok (bs, g2) => .ok (b :: bs, g2)
      | .fatal => .fatal
      | .out_of_fuel => .out_of_fuel
    | .fatal => .fatal
    | .out_of_fuel => .out_of_fuel

/-- The inner loop of lines 634-637 from `j = 1` on: `some true` when all inputs
match, `none` on an access outside the inputs or the arena. -/
def inputs_match (nodes : List Node) : List Nat → List Nat → Option Bool
  | _, [] => some true
  | [], _ :: _ => none
  | p :: ps, b :: bs =>
    if p ≠ b then
      match nodes[p]?, nodes[b]? with
      | some pn, some bn =>
        if pn.is_Con && bn.is_Con then inputs_match nodes ps bs else some false
      | _, _ => none
    else inputs_match nodes ps bs

/-- Outcome of the search of lines 625-642. -/
inductive Search where
  | insert_at (i : Nat)
  | existing (phi : Nat)
  | not_found
  deriving DecidableEq, Repr

/-- The loop of lines 625-642 from index `i` on, over the block's nodes from
index `i`; `base_ins` are the inputs `in(1) ..` of the created base Phi. -/
def search_block (nodes : List Node) (end_idx : Nat) (base_ins : List Nat) :
    Nat → List Nat → Option Search
  | i, [] => if i ≤ end_idx then none else some .not_found
  | i, phi :: rest =>
    if i ≤ end_idx then
      match nodes[phi]? with
      | none => none
      | some pn =>
        if !pn.is_Phi then some (.insert_at i)
        else
          match inputs_match nodes (pn.ins.drop 1) base_ins with
          | none => none
          | some true => some (.existing phi)
          | some false => search_block nodes end_idx base_ins (i + 1) rest
    else some .not_found

/-- The `bottom_type()` of each node of a list; `none` on a dangling node. -/
def types_of (nodes : List Node) : List Nat → Option (List NodeType)
  | [] => some []
  | x :: rest =>
    match nodes[x]?, types_of nodes rest with
    | some n, some ts => some (n.bottom_type :: ts)
    | _, _ => none

/-- Lines 614-646: create the base Phi over the bases found, look for a
matching Phi among the leading Phis of the block of `derived`, insert the
created one when there is none, and memoize. `meet` is `Type::meet`. -/
def make_base_phi (meet : NodeType → NodeType → NodeType) (g : Graph) (derived : Nat)
    (region : Nat) (base : Nat) (bases : List Nat) : Res (Nat × Graph) :=
  match g.nodes[base]?, types_of g.nodes bases with
  | some bn, some ts =>
    let t := ts.foldl meet bn.bottom_type
    let new_phi := g.nodes.length
    let g1 : Graph :=
      { g with nodes := g.nodes ++ [⟨true, false, false, t, region :: bases⟩] }
    match map_find derived g1.node_to_block with
    | none => .fatal
    | some bi =>
      match g1.blocks[bi]? with
      | none => .fatal
      | some b =>
        match search_block g1.nodes b.end_idx bases 1 (b.nodes.drop 1) with
        | none => .fatal
        | some (.insert_at i) =>
          let b1 : Block := { b with nodes := b.nodes.take i ++ new_phi :: b.nodes.drop i }
          let g2 : Graph :=
            { g1 with blocks := g1.blocks.set bi b1,
                      node_to_block := (new_phi, bi) :: g1.node_to_block }
          .ok (new_phi, g2.memoize derived new_phi)
        | some (.existing phi) => .ok (phi, g1.memoize derived phi)
        | some .not_found => .ok (new_phi, g1.memoize derived new_phi)
  | _, _ => .fatal

/-- The function `Selector::find_derived_base` (lines 564-647). `fuel` bounds the depth
of the recursion. -/
def find_derived_base (meet : NodeType → NodeType → NodeType) :
    Nat → Graph → Nat → Res (Nat × Graph)
  | 0, _, _ => .out_of_fuel
  | fuel + 1, g, derived =>
    match map_find derived g.derived_base with
    | some base => .ok (base, g)
    | none =>
      match g.nodes[derived]? with
      | none => .fatal
      | some d =>
        if !d.bottom_type.sanity then .fatal
        else if d.bottom_type.is_base then .ok (derived, g.memoize derived derived)
        else if d.is_Con then .ok (g.mach_null, g.memoize derived g.mach_null)
        else if !d.is_Phi then
          if !d.is_AddP then .fatal
          else
            match d.ins[1]? with
            | none => .fatal
            | some base => .ok (base, g.memoize derived base)
        else
          match d.ins[0]?, d.ins[1]? with
          | some region, some in1 =>
            match find_derived_base meet fuel g in1 with
            | .ok (base, g1) =>
              match phi_scan (find_derived_base meet fuel) base (d.ins.drop 2) g1 with
              | .ok (true, g2) => .ok (base, g2.memoize derived base)
              | .ok (false, g2) =>
                match phi_bases (find_derived_base meet fuel) (d.ins.drop 1) g2 with
                | .ok (bases, g3) => make_base_phi meet g3 derived region base bases
                | .fatal => .fatal
                | .out_of_fuel => .out_of_fuel
              | .fatal => .fatal
              | .out_of_fuel => .out_of_fuel
            | .fatal => .fatal
            | .out_of_fuel => .out_of_fuel
          | _, _ => .fatal

/-- A later state: one reached by any number of further completed calls of
`find_derived_base`. -/
inductive Later (meet : NodeType → NodeType → NodeType) : Graph → Graph → Prop where
  | refl (g : Graph) : Later meet g g
  | step {g g1 g2 : Graph} (fuel x b : Nat) :
      Later meet g g1 → find_derived_base meet fuel g1 x = .ok (b, g2) → Later meet g g2

/-- A stand-in for `Type::meet` on the observed part of a type. -/
def sample_meet (a _b : NodeType) : NodeType := a

/-- Two nested loops that advance a derived pointer: nodes 0 and 1 are the loop
heads, node 2 is an object, node 3 the address `obj + 16` (an AddP with the
inputs control, base, address, offset), node 4 the Phi of the outer loop (fed
by node 3 on entry and by the inner Phi around the loop), node 5 the Phi of
the inner loop (fed by the outer Phi on entry and by node 6 around the loop),
node 6 the address computed from node 5; nodes 7 and 8 end the two blocks and
node 9 is the constant offset. -/
def nested_loop_graph : Graph where
  nodes :=
    [⟨false, false, false, .other 0, []⟩,
     ⟨false, false, false, .other 0, []⟩,
     ⟨false, false, false, .ptr 0, [0]⟩,
     ⟨false, false, true, .ptr 16, [0, 2, 2, 9]⟩,
     ⟨true, false, false, .ptr 16, [0, 3, 5]⟩,
     ⟨true, false, false, .ptr 16, [1, 4, 6]⟩,
     ⟨false, false, true, .ptr 16, [1, 2, 5, 9]⟩,
     ⟨false, false, false, .other 1, [0]⟩,
     ⟨false, false, false, .other 1, [1]⟩,
     ⟨false, true, false, .other 2, [0]⟩]
  blocks := [⟨[], 0⟩, ⟨[0, 4, 7], 0⟩, ⟨[1, 5, 6, 8], 0⟩]
  node_to_block := [(0, 1), (4, 1), (7, 1), (1, 2), (5, 2), (6, 2), (8, 2)]
  mach_null := 0
  derived_base := []

/-- Two ways into a block: node 0 is the region, nodes 1 and 2 are two objects
`a` and `b`, node 3 is the Phi of the derived pointers `a + 16` (node 4) and
`b + 16` (node 5), node 6 ends the block and node 7 is the constant offset. -/
def merge_graph : Graph where
  nodes :=
    [⟨false, false, false, .other 0, []⟩,
     ⟨false, false, false, .ptr 0, [0]⟩,
     ⟨false, false, false, .ptr 0, [0]⟩,
     ⟨true, false, false, .ptr 16, [0, 4, 5]⟩,
     ⟨false, false, true, .ptr 16, [0, 1, 1, 7]⟩,
     ⟨false, false, true, .ptr 16, [0, 2, 2, 7]⟩,
     ⟨false, false, false, .other 1, [0]⟩,
     ⟨false, true, false, .other 2, [0]⟩]
  blocks := [⟨[], 0⟩, ⟨[0, 3, 6], 0⟩]
  node_to_block := [(0, 1), (3, 1), (6, 1)]
  mach_null := 0
  derived_base := []

end Selector

namespace Selector

/-- The conditions under which `find_derived_base` takes the Phi path of lines
601-646 on a node. -/
def Node.phi_path (d : Node) : Prop :=
  d.bottom_type.sanity = true ∧ d.bottom_type.is_base = false ∧ d.is_Con = false ∧
    d.is_Phi = true

/-- The states before and after a sequence of completed calls of `rec` on the
nodes of a list, in order. -/
inductive CallSeq (rec : Graph → Nat → Res (Nat × Graph)) : List Nat → Graph → Graph → Prop where
  | nil (g : Graph) : CallSeq rec [] g g
  | cons {y b : Nat} {ys : List Nat} {g g1 g2 : Graph} :
      rec g y = .ok (b, g1) → CallSeq rec ys g1 g2 → CallSeq rec (y :: ys) g g2

/-- The later graph keeps every node and every memo entry of the earlier one. -/
structure Ext (a b : Graph) : Prop where
  nodes : ∀ (i : Nat) (n : Node), a.nodes[i]? = some n → b.nodes[i]? = some n
  memo : ∀ k v, map_find k a.derived_base = some v → map_find k b.derived_base = some v

/-- The nodes of `S` are not memoized, are on the Phi path, and each has an input
`in(1) ..` in `S`. -/
def Sinv (S : Nat → Prop) (g : Graph) : Prop :=
  ∀ x, S x → map_find x g.derived_base = none ∧
    ∃ d, g.nodes[x]? = some d ∧ d.phi_path ∧ ∃ y ∈ d.ins.drop 1, S y

/-- A chain of not memoized Phi-path nodes, each an input of the one before, that
leads from `x` to `D`. -/
inductive ChainTo (g : Graph) (D : Nat) : Nat → Prop where
  | here : ChainTo g D D
  | step {x y : Nat} {d : Node} :
      map_find x g.derived_base = none → g.nodes[x]? = some d → d.phi_path →
      y ∈ d.ins.drop 1 → ChainTo g D y → ChainTo g D x

/-- The statement proved by induction on the fuel: a completed call that memoizes
`D` contains a completed call on `D` itself, reached through a chain of
not memoized Phi-path nodes. -/
def MemoBy (meet : NodeType → NodeType → NodeType) (fuel : Nat) : Prop :=
  ∀ (g : Graph) (x b : Nat) (g' : Graph) (D : Nat),
    find_derived_base meet fuel g x = .ok (b, g') →
    map_find D g.derived_base = none → map_find D g'.derived_base ≠ none →
    ∃ (gs : Graph) (fs : Nat) (r : Nat × Graph), Ext g gs ∧ Ext gs g' ∧
      map_find D gs.derived_base = none ∧ find_derived_base meet fs gs D = .ok r ∧
      ChainTo gs D x

instance (d : Node) : Decidable d.phi_path := by
  unfold Node.phi_path; exact inferInstance

/-- The inputs `in(1) ..` of every Phi-path node are nodes of the arena and have a
smaller rank than the node: no derived Phi reaches itself through Phi inputs. -/
def PhiInputsDescend (g : Graph) (rank : Nat → Nat) : Prop :=
  ∀ p ∈ g.nodes.enum, p.2.phi_path →
    ∀ y ∈ p.2.ins.drop 1, y < g.nodes.length ∧ rank y < rank p.1

instance (g : Graph) (rank : Nat → Nat) : Decidable (PhiInputsDescend g rank) := by
  unfold PhiInputsDescend; exact inferInstance

/-- A call halts: from some fuel on, its result is one and the same and is not
`out_of_fuel`. -/
def Halts (meet : NodeType → NodeType → NodeType) (g : Graph) (x : Nat) : Prop :=
  ∃ (fuel : Nat) (r : Res (Nat × Graph)), r ≠ Res.out_of_fuel ∧
    ∀ fuel', fuel ≤ fuel' → find_derived_base meet fuel' g x = r

/-- The graph keeps the nodes of `g0`. -/
def Keeps (g0 g : Graph) : Prop :=
  ∀ (i : Nat) (n : Node), g0.nodes[i]? = some n → g.nodes[i]? = some n

/-- The rank of the nodes of `merge_graph`: the Phi above its inputs. -/
def merge_rank (x : Nat) : Nat := if x = 3 then 1 else 0

/-- The state of `merge_graph` after the base of its Phi was found. -/
def merge_graph_done : Graph :=
  match find_derived_base sample_meet 3 merge_graph 3 with
  | .ok (_, g) => g
  | _ => merge_graph

end Selector

/-! ## Part 1, continued. The general parameters of a signature -/

namespace Selector

open BasicType

/-- A signature of six `int` parameters. -/
def sig_six_ints : Domain := List.replicate 6 ⟨false, T_INT⟩

/-- A signature `(long, int, int, float, int, int, int)`; the long takes two
fields. -/
def sig_long_ints : Domain :=
  [⟨false, T_LONG⟩, ⟨true, T_VOID⟩, ⟨false, T_INT⟩, ⟨false, T_INT⟩, ⟨false, T_FLOAT⟩,
    ⟨false, T_INT⟩, ⟨false, T_INT⟩, ⟨false, T_INT⟩]

/-- The physical parameters that `create_func` builds for `sig_long_ints` with
a quota of 4: the fourth general parameter (domain index 10) at the front. -/
def params_long_ints : List Param :=
  [⟨LType.i32, some 10⟩, ⟨LType.i64, some 5⟩, ⟨LType.i32, some 7⟩, ⟨LType.i32, some 8⟩,
    ⟨LType.float, some 9⟩, ⟨LType.i32, some 11⟩, ⟨LType.i32, some 12⟩]

/-- The domain indices, from `i` on, of the general parameters of a signature:
the fields that are neither void (the second half of a long or double) nor
`float` nor `double`. -/
def general_params : Nat → List OptoType → List Nat
  | _, [] => []
  | i, f :: rest =>
    if f.basic_type ≠ T_VOID ∧ f.basic_type ≠ T_FLOAT ∧ f.basic_type ≠ T_DOUBLE then
      i :: general_params (i + 1) rest
    else general_params (i + 1) rest

/-- The domain indices, from `i` on, of the fields that get a physical
parameter in `create_func`: the fields whose basic type is not void. -/
def param_fields : Nat → List OptoType → List Nat
  | _, [] => []
  | i, f :: rest =>
    if f.basic_type ≠ T_VOID then i :: param_fields (i + 1) rest
    else param_fields (i + 1) rest

end Selector

/-! ## Parts 2 and 3, continued -/

namespace Selector

/-- A heap-based configuration whose klass base differs from the oop base: oop
base at 64 GB, shift 3, klass base at 32 GB, 64-bit pointers. -/
def cfg_klass_apart : Config := ⟨0x1000000000, 3, 0x800000000, 64⟩

/-- The statements of the may-be-null path of `decode_heap_oop` around the read
of line 707 (lines 706 and 708-711), on denotations, for a given constant
`zero`: what the emitted `select` denotes. -/
def decode_heap_oop_select (c : Config) (narrow_oop zero_ : Nat) : Nat :=
  let narrow_oop_shift_ := c.narrow_oop_shift
  let narrow_oop_base_ := get_ptr c c.narrow_klass_base
  let narrow_zero := 0
  let pred := decide (narrow_oop = narrow_zero)
  let oop := LLVM.shl c.pointer_size narrow_oop narrow_oop_shift_
  let oop := gep c narrow_oop_base_ oop
  LLVM.select pred zero_ oop

end Selector

namespace LlvmRelocator

/-- A buffer state in which every address that `bufferOps` hands out is
non-null: the constant region does not start at address 0 and the instructions
start beyond one instruction size. -/
def Buffer.Placed (b : Buffer) : Prop :=
  0 < b.consts_end ∧ bufferOps.instruction_size < b.insts_start

instance (b : Buffer) : Decidable b.Placed := by
  unfold Buffer.Placed; exact inferInstance

end LlvmRelocator

/-! ## Part 6. Provenance tags (`selector_llvm.cpp`, lines 536-562)

An `llvm::Value*` is identified by a number. -/

/-- Modelled from the spec: the class `OopInfo` is declared in
`selector_llvm.hpp`, which is not among the sources. A record carries one flag
for each provenance tag (managed, narrow, derived), so that nothing in the
record itself keeps two tags apart; a new record has no tag. -/
structure OopInfo where
  managed : Bool
  narrow : Bool
  derived : Bool
  deriving DecidableEq, Repr

namespace OopInfo

/-- A record as `std::make_unique<OopInfo>()` creates it. -/
def fresh : OopInfo := ⟨false, false, false⟩

/-- The test `isManagedPtr`. -/
def isManagedPtr (i : OopInfo) : Bool := i.managed

/-- The test `isNarrowPtr`. -/
def isNarrowPtr (i : OopInfo) : Bool := i.narrow

/-- The test `isDerivedPtr`. -/
def isDerivedPtr (i : OopInfo) : Bool := i.derived

/-- The method `markManagedPtr`. -/
def markManagedPtr (i : OopInfo) : OopInfo := { i with managed := true }

/-- The method `markNarrowPtr`. -/
def markNarrowPtr (i : OopInfo) : OopInfo := { i with narrow := true }

/-- The method `markDerivedPtr`. -/
def markDerivedPtr (i : OopInfo) : OopInfo := { i with derived := true }

end OopInfo

/-- The map `_oop_info` from values to their records. -/
abbrev OopInfoMap := Nat → Option OopInfo

namespace Selector

/-- The map `_oop_info` of a new Selector. -/
def oop_info_empty : OopInfoMap := fun _ => none

/-- The call `_oop_info.insert(std::make_pair(v, std::make_unique<OopInfo>()))`:
a map insertion, which leaves an existing entry as it is. -/
def oop_info_insert (m : OopInfoMap) (v : Nat) : OopInfoMap :=
  fun k => if k = v then (match m v with | some i => some i | none => some OopInfo.fresh) else m k

/-- Modelled from the spec: the accessor `oop_info(v)` is defined in
`selector_llvm.hpp`, which is not among the sources; it gives the record of
`v`, or `NULL` (here `none`) when `v` has none. -/
def oop_info (m : OopInfoMap) (v : Nat) : Option OopInfo := m v

/-- A write through the record pointer of `v`. -/
def oop_info_store (m : OopInfoMap) (v : Nat) (i : OopInfo) : OopInfoMap :=
  fun k => if k = v then some i else m k

/-- The method `Selector::mark_mptr` (lines 536-541). `ASSERT` tells whether
the build defines `ASSERT`: a HotSpot `assert` is checked in such a build only
and is compiled out of a product build. `none` is the failed assertion. -/
def mark_mptr (ASSERT : Bool) (m : OopInfoMap) (oop : Nat) : Option OopInfoMap :=
  let m1 := oop_info_insert m oop
  match oop_info m1 oop with
  | none => none
  | some oop_info_ =>
    if ASSERT && oop_info_.isNarrowPtr then none
    else some (oop_info_store m1 oop oop_info_.markManagedPtr)

/-- The method `Selector::mark_nptr` (lines 543-554); `none` is a failed
assertion of a build with `ASSERT`. -/
def mark_nptr (ASSERT : Bool) (UseCompressedOops : Bool) (c : Config) (m : OopInfoMap)
    (oop : Nat) : Option OopInfoMap :=
  if ASSERT && !UseCompressedOops then none
  else if is_fast_compression c then mark_mptr ASSERT m oop
  else
    let m1 := oop_info_insert m oop
    match oop_info m1 oop with
    | none => none
    | some oop_info_ =>
      if ASSERT && oop_info_.isManagedPtr then none
      else some (oop_info_store m1 oop oop_info_.markNarrowPtr)

/-- The method `Selector::mark_dptr` (lines 556-562); `none` is a failed
assertion of a build with `ASSERT`. Without `ASSERT` the record of `base` is
fetched and not looked at. -/
def mark_dptr (ASSERT : Bool) (m : OopInfoMap) (ptr base : Nat) : Option OopInfoMap :=
  let m1 := oop_info_insert m ptr
  match oop_info m1 ptr with
  | none => none
  | some ptr_info =>
    let base_ok :=
      match oop_info m1 base with
      | none => false
      | some base_info => base_info.isManagedPtr
    if ASSERT && !base_ok then none
    else some (oop_info_store m1 ptr ptr_info.markDerivedPtr)

/-- One call of a mark function. -/
inductive MarkCall where
  | mptr (oop : Nat)
  | nptr (oop : Nat)
  | dptr (ptr base : Nat)
  deriving DecidableEq, Repr

/-- One call, on the map. -/
def mark (ASSERT : Bool) (UseCompressedOops : Bool) (c : Config) (m : OopInfoMap) :
    MarkCall → Option OopInfoMap
  | .mptr oop => mark_mptr ASSERT m oop
  | .nptr oop => mark_nptr ASSERT UseCompressedOops c m oop
  | .dptr ptr base => mark_dptr ASSERT m ptr base

/-- A sequence of calls, from the first on; `none` as soon as one of them fails. -/
def mark_all (ASSERT : Bool) (UseCompressedOops : Bool) (c : Config) : OopInfoMap →
    List MarkCall → Option OopInfoMap
  | m, [] => some m
  | m, call :: rest =>
    match mark ASSERT UseCompressedOops c m call with
    | none => none
    | some m1 => mark_all ASSERT UseCompressedOops c m1 rest

/-- No value of the map is tagged both managed and narrow. -/
def TagsApart (m : OopInfoMap) : Prop :=
  ∀ (v : Nat) (i : OopInfo), m v = some i → ¬ (i.isManagedPtr = true ∧ i.isNarrowPtr = true)

/-- A sequence of calls that completes: a decoded oop, a narrow oop, and a
pointer derived from the first. -/
def sample_marks : List MarkCall := [.mptr 1, .nptr 2, .dptr 3 1, .mptr 1]

/-- The managed tag and then the narrow tag asked for one and the same value. -/
def marks_both : List MarkCall := [.mptr 1, .nptr 1]

end Selector

/-! ## Part 7. Comparisons and branches (`selector_llvm.cpp`, lines 326-395)

An integer operand is a bit pattern below `2^w` with its width `w`; the
condition that `select_condition` builds is modelled by the truth value it
denotes, and an LLVM basic block by the CFG block it was created for. -/

namespace LLVM

/-- The signed reading of a bit pattern of width `w`. -/
def toInt (w x : Nat) : Int := if x < 2 ^ (w - 1) then (x : Int) else (x : Int) - 2 ^ w

/-- The integer comparison predicates that `select_condition` uses. -/
inductive ICmp where
  | eq | ne | slt | sle | sgt | sge | ult | ule | ugt | uge
  deriving DecidableEq, Repr

/-- The instruction `icmp` at width `w`. -/
def icmp (p : ICmp) (w a b : Nat) : Bool :=
  match p with
  | .eq => decide (a = b)
  | .ne => decide (a ≠ b)
  | .slt => decide (toInt w a < toInt w b)
  | .sle => decide (toInt w a ≤ toInt w b)
  | .sgt => decide (toInt w a > toInt w b)
  | .sge => decide (toInt w a ≥ toInt w b)
  | .ult => decide (a < b)
  | .ule => decide (a ≤ b)
  | .ugt => decide (a > b)
  | .uge => decide (a ≥ b)

/-- A floating-point operand as a comparison sees it: NaN, or a number, which
is given by its place in the order of the numbers (the two zeros share one
place, the infinities are the extreme places). -/
inductive FP where
  | nan
  | num (v : Int)
  deriving DecidableEq, Repr

/-- The test for NaN. -/
def FP.isNaN : FP → Bool
  | .nan => true
  | .num _ => false

/-- The floating-point comparison predicates that `select_condition` uses, all
of them of the unordered kind. -/
inductive FCmp where
  | ueq | une | ult | ule | ugt | uge
  deriving DecidableEq, Repr

/-- The ordered comparison of two numbers behind an unordered predicate. -/
def FCmp.ordered (p : FCmp) (x y : Int) : Bool :=
  match p with
  | .ueq => decide (x = y)
  | .une => decide (x ≠ y)
  | .ult => decide (x < y)
  | .ule => decide (x ≤ y)
  | .ugt => decide (x > y)
  | .uge => decide (x ≥ y)

/-- The instruction `fcmp` with an unordered predicate: true when an operand is
NaN, and the ordered comparison otherwise. -/
def fcmp (p : FCmp) (a b : FP) : Bool :=
  match a, b with
  | .num x, .num y => p.ordered x y
  | _, _ => true

end LLVM

/-- An operand of a comparison: an integer of some width or a floating-point
value. -/
inductive Operand where
  | int (w : Nat) (x : Nat)
  | fp (x : LLVM.FP)
  deriving DecidableEq, Repr

/-- The opcode of an output of a branch node, as far as `select_if` tells them
apart. -/
inductive Opcode where
  | Op_IfTrue | Op_IfFalse | Op_other
  deriving DecidableEq, Repr

/-- An output of a branch node: its opcode and the CFG block of its own first
output, `C->cfg()->get_block_for_node(proj->raw_out(0))`. -/
structure IfProj where
  Opcode : Opcode
  next_block : Nat
  deriving DecidableEq, Repr

/-- The instruction built by `CreateCondBr(pred, target_bb, fallthr_bb)`: control goes to
`target_bb` when `pred` is true and to `fallthr_bb` when it is false. -/
structure CondBr where
  pred : Bool
  target_bb : Nat
  fallthr_bb : Nat
  deriving DecidableEq, Repr

/-- The block that a conditional branch transfers control to. -/
def CondBr.taken (br : CondBr) : Nat := if br.pred then br.target_bb else br.fallthr_bb

namespace Selector

open LLVM

/-- The function `Selector::select_condition` (lines 326-375). `outcnt` is
`cmp->outcnt()` and `ccode` the condition code of the one consumer of `cmp`.
`none` is a fatal outcome: a failed assertion, `ShouldNotReachHere`, or
operands that the `IRBuilder` rejects for the instruction (an integer
instruction on floating-point operands, operands of two widths, and the
like). -/
def select_condition (outcnt ccode : Nat) (a b : Operand) (is_and flt : Bool) : Option Bool :=
  if outcnt ≠ 1 then none
  else if is_and && flt then none
  else if flt then
    match a, b with
    | .fp x, .fp y =>
      match ccode with
      | 0x0 => some (fcmp .ueq x y)
      | 0x1 => some (fcmp .une x y)
      | 0x2 => some (fcmp .ult x y)
      | 0x3 => some (fcmp .ule x y)
      | 0x4 => some (fcmp .ugt x y)
      | 0x5 => some (fcmp .uge x y)
      | _ => none
    | _, _ => none
  else
    match a, b with
    | .int w x, .int w' y =>
      if w ≠ w' then none
      else if is_and then
        let a_and_b := x &&& y
        let zero_ := 0
        match ccode with
        | 0x0 => some (icmp .eq w a_and_b zero_)
        | 0x1 => some (icmp .ne w a_and_b zero_)
        | 0x2 => some (icmp .slt w a_and_b zero_)
        | 0x3 => some (icmp .sle w a_and_b zero_)
        | 0x4 => some (icmp .sgt w a_and_b zero_)
        | 0x5 => some (icmp .sge w a_and_b zero_)
        | _ => none
      else
        match ccode with
        | 0x0 => some (icmp .eq w x y)
        | 0x1 => some (icmp .ne w x y)
        | 0x2 => some (icmp .slt w x y)
        | 0x3 => some (icmp .sle w x y)
        | 0x4 => some (icmp .sgt w x y)
        | 0x5 => some (icmp .sge w x y)
        | 0x6 => some (icmp .ult w x y)
        | 0x7 => some (icmp .ule w x y)
        | 0x8 => some (icmp .ugt w x y)
        | 0x9 => some (icmp .uge w x y)
        | _ => none
    | _, _ => none

/-- The function `Selector::select_if` (lines 377-395). `raw_out` are the outputs of the
branch node, in order. `none` is a fatal outcome: the failed assertion "illegal
Node type", or an output that does not exist. -/
def select_if (pred : Bool) (raw_out : List IfProj) : Option CondBr :=
  match raw_out[0]? with
  | none => none
  | some if_node =>
    let idx : Option (Nat × Nat) :=
      if if_node.Opcode = Opcode.Op_IfFalse then some (1, 0)
      else if if_node.Opcode = Opcode.Op_IfTrue then some (0, 1)
      else none
    match idx with
    | none => none
    | some (true_idx, false_idx) =>
      match raw_out[true_idx]?, raw_out[false_idx]? with
      | some t, some f => some ⟨pred, t.next_block, f.next_block⟩
      | _, _ => none

/-- The block that control goes to from a branch lowered by `select_if` on the
condition built by `select_condition`. -/
def branch_edge (outcnt ccode : Nat) (a b : Operand) (is_and flt : Bool)
    (raw_out : List IfProj) : Option Nat :=
  ((select_condition outcnt ccode a b is_and flt).bind
    (fun pred => select_if pred raw_out)).map CondBr.taken

/-- The outputs of a branch node whose `IfFalse` projection comes first: the
true successor is block 7, the false successor block 3. -/
def outs_false_first : List IfProj := [⟨.Op_IfFalse, 3⟩, ⟨.Op_IfTrue, 7⟩]

end Selector

/-! ## Part 8. Calls (`selector_llvm.cpp`, lines 431-504)

The call instruction itself (callee, arguments, stack map) plays no role in
the control flow that `Selector::call` builds and is left out of the model. -/

/-- A basic block of the LLVM function: the block that `create_blocks` made for
a CFG block, or a block that `Selector::call` creates while lowering the call
of CFG block `b` (named after it, with the suffix `_result` or
`_handler<k>`). -/
inductive BasicBlock where
  | of_block (b : Nat)
  | result (b : Nat)
  | handler (b : Nat) (k : Nat)
  deriving DecidableEq, Repr

/-- The test for a block with the suffix `_handler<k>`. -/
def BasicBlock.is_handler : BasicBlock → Bool
  | .handler _ _ => true
  | _ => false

/-- The instructions that `Selector::call` emits. -/
inductive Inst where
  | landingpad
  | statepoint_invoke (normal unwind : BasicBlock)
  | statepoint_call
  | gc_result
  | stackmap
  | icmp_eq
  | br (dest : BasicBlock)
  | condbr (t f : BasicBlock)
  deriving DecidableEq, Repr

/-- The blocks an instruction can transfer control to. -/
def Inst.succs : Inst → List BasicBlock
  | .statepoint_invoke normal unwind => [normal, unwind]
  | .br dest => [dest]
  | .condbr t f => [t, f]
  | _ => []

/-- What a call of `Selector::call` adds to the function: the blocks created by
`llvm::BasicBlock::Create`, in order, and the instructions emitted, in order,
each with the block the builder inserted it into. -/
structure Emitted where
  created : List BasicBlock
  insts : List (BasicBlock × Inst)
  deriving DecidableEq, Repr

namespace Emitted

/-- The comparison blocks created for the handler chain. -/
def comparison_blocks (e : Emitted) : List BasicBlock :=
  e.created.filter BasicBlock.is_handler

/-- The control transfers emitted, as edges between blocks. -/
def edges (e : Emitted) : List (BasicBlock × BasicBlock) :=
  e.insts.flatMap (fun p => p.2.succs.map (fun d => (p.1, d)))

/-- A path over the emitted control transfers. -/
inductive Path (e : Emitted) : BasicBlock → BasicBlock → Prop where
  | here (a : BasicBlock) : Path e a a
  | step {a b c : BasicBlock} : Path e a b → (b, c) ∈ e.edges → Path e a c

end Emitted

/-- An output of the `Catch` node that ends a block: the field `_con` and the
CFG block of its own first output. -/
structure CatchProj where
  con : Int
  next_block : Nat
  deriving DecidableEq, Repr

/-- The constant `CatchProjNode::fall_through_index` (the enum of
opto/cfgnode.hpp, which is not among the sources). -/
def CatchProjNode.fall_through_index : Int := 0

/-- What `Selector::call` reads of the call node and of its block: the block,
the outputs of the `Catch` node that ends it (as many as `_num_succs`; `none`
when the block does not end in a `Catch`), three node tests, the first
non-connector successor, and whether the return type is void. -/
structure CallSite where
  block : Nat
  catch_outs : Option (List CatchProj)
  is_MachCallJava : Bool
  end_is_MachReturn : Bool
  end_is_MachGoto : Bool
  non_connector_successor : Nat
  ret_void : Bool
  deriving DecidableEq, Repr

namespace Selector

open BasicBlock

/-- The loop of lines 449-457: the fall-through block, if any, and the handler
blocks, in order. -/
def catch_scan : List CatchProj → Option Nat × List Nat → Option Nat × List Nat
  | [], acc => acc
  | cp :: rest, (next_block, handler_blocks) =>
    if cp.con = CatchProjNode.fall_through_index then
      catch_scan rest (some cp.next_block, handler_blocks)
    else
      catch_scan rest (next_block, handler_blocks ++ [cp.next_block])

/-- The function `Selector::mark_inblock` (lines 402-408). -/
def mark_inblock (has_exceptions : Bool) (at_ : BasicBlock) : List (BasicBlock × Inst) :=
  if has_exceptions then [(at_, Inst.stackmap)] else []

/-- The loop of lines 482-488 from the handler at index `idx + 1` down to the
handler at index 1 (`idx + 1` iterations): every iteration creates a comparison
block `right_bb`, whose conditional branch goes to the handler under the
iterator and to the handler before it in the iteration. The result is the
last `right_bb`, or `none` for an access outside `handler_blocks`. -/
def handler_chain (has_exceptions : Bool) (b : Nat) (handler_blocks : List Nat) :
    Nat → Emitted × BasicBlock → Option (Emitted × BasicBlock)
  | 0, acc => some acc
  | idx + 1, (e, _) =>
    match handler_blocks[idx + 1]?, handler_blocks[idx + 2]? with
    | some it, some it_prev =>
      let right_bb := handler b (handler_blocks.length - 2 - (idx + 1))
      let insts := mark_inblock has_exceptions right_bb ++
        [(right_bb, Inst.icmp_eq), (right_bb, Inst.condbr (of_block it) (of_block it_prev))]
      handler_chain has_exceptions b handler_blocks idx
        (⟨e.created ++ [right_bb], e.insts ++ insts⟩, right_bb)
    | _, _ => none

/-- The function `Selector::call` (lines 431-504): the blocks and instructions it adds.
`none` is a fatal outcome: the failed assertion "unexpected num_succs", or an
access outside `handler_blocks`. -/
def call (has_exceptions : Bool) (s : CallSite) : Option Emitted :=
  let bb := of_block s.block
  match s.catch_outs with
  | some outs =>
    let num_succs := outs.length
    match catch_scan outs (none, []) with
    | (some next_block, handler_blocks) =>
      if num_succs ≠ 2 then none
      else
        match handler_blocks[0]? with
        | none => none
        | some h0 =>
          let next_bb := of_block next_block
          let handler_bb := of_block h0
          let lp := (handler_bb, Inst.landingpad)
          if s.ret_void then
            some ⟨[], [lp, (bb, Inst.statepoint_invoke next_bb handler_bb)]⟩
          else
            let result_bb := result s.block
            some ⟨[result_bb], [lp, (bb, Inst.statepoint_invoke result_bb handler_bb),
              (result_bb, Inst.gc_result), (result_bb, Inst.br next_bb)]⟩
    | (none, handler_blocks) =>
      match handler_blocks[1]? with
      | none => none
      | some h1 =>
        match handler_chain has_exceptions s.block handler_blocks (handler_blocks.length - 2)
            (⟨[], [(bb, Inst.statepoint_call)]⟩, of_block h1) with
        | none => none
        | some (e, right_bb) =>
          match handler_blocks[0]? with
          | none => none
          | some h0 =>
            some ⟨e.created, e.insts ++ [(bb, Inst.icmp_eq),
              (bb, Inst.condbr (of_block h0) right_bb)]⟩
  | none =>
    let next_bb := of_block s.non_connector_successor
    let br := if s.is_MachCallJava && !s.end_is_MachReturn && !s.end_is_MachGoto then
      [(bb, Inst.br next_bb)] else []
    let res := if s.ret_void then [] else [(bb, Inst.gc_result)]
    some ⟨[], [(bb, Inst.statepoint_call)] ++ br ++ res⟩

/-- A call that is not a Java call (a runtime call), in block 1, which ends
neither in a `Catch` nor in a return or goto; block 2 is its first
non-connector successor. -/
def site_runtime_call : CallSite := ⟨1, none, false, false, false, 2, true⟩

/-- A catch block 1 without a fall-through successor and with the handlers
`hs`, in order; the call returns nothing. -/
def site_handlers (hs : List Nat) : CallSite :=
  ⟨1, some (hs.map (fun h => ⟨1, h⟩)), true, false, false, 0, true⟩

end Selector

/-! ## Parts 2 and 3, continued. Constants -/

namespace LlvmRelocator

/-- The constant that a constant-carrying record (float, double, oop) holds. -/
def Reloc.con? : Reloc → Option Nat
  | .FloatReloc _ con _ => some con
  | .DoubleReloc _ con _ => some con
  | .OopReloc _ con _ => some con
  | _ => none

/-- The field `_con_addr` of a constant-carrying record (0 for the others). -/
def Reloc.con_addr : Reloc → Nat
  | .FloatReloc _ _ a => a
  | .DoubleReloc _ _ a => a
  | .OopReloc _ _ a => a
  | _ => 0

/-- The entry of the constant region that belongs to a patched record: the
address the record holds, with its constant. -/
def Reloc.placed? (r : Reloc) : Option (Nat × Nat) :=
  r.con?.map (fun con => (r.con_addr, con))

end LlvmRelocator

namespace Selector

/-- The case `T_NARROWOOP` of `Selector::select_oper` (lines 283-292), on
denotations. `con` is `ty->is_narrowoop()->get_con()`, the address of the cell
that holds the object's pointer (0 for the null constant), and `load` reads the
64-bit word at an address. The 64-bit result of the shift is given to a
constant of the 32-bit type, which keeps its low 32 bits. -/
def select_oper_narrowoop (c : Config) (load : Nat → Nat) (con : Nat) : Nat :=
  let con := if con ≠ 0 then (load con % 2 ^ 64) / 2 ^ c.narrow_oop_shift else con
  LLVM.trunc 32 con

/-- A heap-based configuration with the base at 28 GB, shift 3, 64-bit
pointers, the klass base equal to the oop base. -/
def cfg_heap_28g : Config := ⟨0x700000000, 3, 0x700000000, 64⟩

/-- A memory in which the cell at address `0x5000` holds the pointer
`0x700000008` of an object, the second 8-byte slot of the heap of
`cfg_heap_28g`. -/
def sample_load (addr : Nat) : Nat := if addr = 0x5000 then 0x700000008 else 0

end Selector

/-! ## Part 9. Completion of the phi nodes (`selector_llvm.cpp`, lines 760-800)

A basic block of the LLVM function is identified with the CFG block it was
created for, a node with its `_idx`. The pass runs after `select()`; the
lowered value `select_node(n)` of an input is taken from the cache, and the
builder, which is only ever positioned by `SetInsertPoint(block)`, appends to
the end of its block. -/

/-- An LLVM type as far as `complete_phi_node` tells types apart. -/
inductive IRType where
  | integer (bits : Nat)
  | pointer (pointee : Nat)
  | other (tag : Nat)
  deriving DecidableEq, Repr

/-- The test `llvm::Type::isIntegerTy`. -/
def IRType.isIntegerTy : IRType → Bool
  | .integer _ => true
  | _ => false

/-- The test `llvm::Type::isPointerTy`. -/
def IRType.isPointerTy : IRType → Bool
  | .pointer _ => true
  | _ => false

/-- A lowered value: its identity, its type, and whether it is an
`llvm::Constant`. -/
structure Lowered where
  id : Nat
  ty : IRType
  is_constant : Bool
  deriving DecidableEq, Repr

/-- The value attached to a phi instruction: a lowered value, or a cast of
one. -/
inductive IRValue where
  | lowered (v : Lowered)
  | inttoptr (v : Lowered) (ty : IRType)
  | pointer_cast (v : Lowered) (ty : IRType)
  deriving DecidableEq, Repr

/-- An instruction of a basic block, as far as the pass is concerned. -/
inductive IRInst where
  | inttoptr (operand : Nat) (ty : IRType)
  | pointer_cast (operand : Nat) (ty : IRType)
  | terminator (tag : Nat)
  | other (tag : Nat)
  deriving DecidableEq, Repr

/-- The test `llvm::Instruction::isTerminator`. -/
def IRInst.isTerminator : IRInst → Bool
  | .terminator _ => true
  | _ => false

/-- An entry added by `phi_inst->addIncoming(value, block)`. -/
structure Incoming where
  phi : Nat
  value : IRValue
  block : Nat
  deriving DecidableEq, Repr

/-- The state that the pass changes: the instructions of each basic block, the
block the builder appends to, and the incoming entries added so far. -/
structure PhiState where
  insts : List (List IRInst)
  insert_block : Nat
  incoming : List Incoming
  deriving DecidableEq, Repr

/-- A block of the CFG as the pass reads it: the connector flag, the blocks of
its predecessors `pred(1) .. pred(num_preds() - 1)`, and its head node. -/
structure CfgBlock where
  is_connector : Bool
  preds : List Nat
  head : Nat
  deriving DecidableEq, Repr

/-- A pending pair of `_phiNodeMap`: of the phi node its block, its region and
its inputs `in(1) .. in(req() - 1)`, of the phi instruction its identity and
its type. -/
structure PendingPhi where
  block : Nat
  region : Nat
  ins : List Nat
  phi_inst : Nat
  ty : IRType
  deriving DecidableEq, Repr

/-- The surroundings of the pass: the blocks of the CFG, the block of each
node (`get_block_for_node`), and the cached lowered value of each node. -/
structure PhiCfg where
  blocks : List CfgBlock
  block_of : Nat → Nat
  lowered : Nat → Lowered

namespace Selector

/-- An instruction created through `builder()`: appended to the builder's
block. `none` when that block does not exist. -/
def builder_insert (st : PhiState) (i : IRInst) : Option PhiState :=
  match st.insts[st.insert_block]? with
  | none => none
  | some l => some { st with insts := st.insts.set st.insert_block (l ++ [i]) }

/-- The call `inst->insertBefore(bb->getTerminator())`. `none` is a fatal
outcome: the block has no terminator (`getTerminator()` is null when the last
instruction of the block is not a terminator). -/
def insert_before_terminator (st : PhiState) (bb : Nat) (i : IRInst) : Option PhiState :=
  match st.insts[bb]? with
  | none => none
  | some l =>
    match l.getLast? with
    | none => none
    | some t =>
      if t.isTerminator then some { st with insts := st.insts.set bb (l.dropLast ++ [i, t]) }
      else none

/-- Lines 789-798 of `complete_phi_node`: the value to attach for the input
`case_val` of a phi of type `phiTy`, and the state after the cast, if any, was
placed. `CreateIntToPtr` on a constant is folded by the builder into a
constant and inserts no instruction. `none` is a fatal outcome: a failed
assertion of `CastInst::CreatePointerCast` (the value is no pointer, or the
target neither pointer nor integer), or a block without terminator. -/
def phi_case (cfg : PhiCfg) (st : PhiState) (case_val : Nat) (phiTy : IRType) :
    Option (IRValue × PhiState) :=
  let phi_case := cfg.lowered case_val
  if phi_case.ty.isIntegerTy && phiTy.isPointerTy then
    if phi_case.is_constant then some (.inttoptr phi_case phiTy, st)
    else
      (builder_insert st (.inttoptr phi_case.id phiTy)).map
        (fun st1 => (.inttoptr phi_case phiTy, st1))
  else if phi_case.ty ≠ phiTy then
    let bb := cfg.block_of case_val
    if phi_case.ty.isPointerTy && (phiTy.isPointerTy || phiTy.isIntegerTy) then
      (insert_before_terminator st bb (.pointer_cast phi_case.id phiTy)).map
        (fun st1 => (.pointer_cast phi_case phiTy, st1))
    else none
  else some (.lowered phi_case, st)

/-- The loop of lines 781-784 over the predecessors of a connector block;
`rec` is the recursive call. -/
def complete_preds (rec : PhiState → Nat → Res PhiState) : List Nat → PhiState → Res PhiState
  | [], st => .ok st
  | p :: rest, st =>
    match rec st p with
    | .ok st1 => complete_preds rec rest st1
    | .fatal => .fatal
    | .out_of_fuel => .out_of_fuel

/-- The function `Selector::complete_phi_node` (lines 779-800). `fuel` bounds the depth
of the recursion through connector blocks. -/
def complete_phi_node (cfg : PhiCfg) (case_val : Nat) (phi : PendingPhi) :
    Nat → PhiState → Nat → Res PhiState
  | 0, _, _ => .out_of_fuel
  | fuel + 1, st, case_block =>
    match cfg.blocks[case_block]? with
    | none => .fatal
    | some b =>
      if b.is_connector then
        complete_preds (complete_phi_node cfg case_val phi fuel) b.preds st
      else
        match phi_case cfg st case_val phi.ty with
        | none => .fatal
        | some (v, st1) =>
          .ok { st1 with incoming := st1.incoming ++ [⟨phi.phi_inst, v, case_block⟩] }

/-- The loop of lines 771-775 over the inputs of a phi, from the input with
index `j + 1` on; `preds` are the predecessors of the phi's block. -/
def complete_slots (cfg : PhiCfg) (fuel : Nat) (phi : PendingPhi) (preds : List Nat) :
    Nat → List Nat → PhiState → Res PhiState
  | _, [], st => .ok st
  | j, case_val :: rest, st =>
    match preds[j]? with
    | none => .fatal
    | some case_block =>
      match complete_phi_node cfg case_val phi fuel st case_block with
      | .ok st1 => complete_slots cfg fuel phi preds (j + 1) rest st1
      | .fatal => .fatal
      | .out_of_fuel => .out_of_fuel

/-- The function `Selector::complete_phi_nodes` (lines 764-777) over the pending pairs.
Every call of `complete_phi_node` gets the recursion depth `fuel`. -/
def complete_phi_nodes (cfg : PhiCfg) (fuel : Nat) : List PendingPhi → PhiState → Res PhiState
  | [], st => .ok st
  | phi :: rest, st =>
    match cfg.blocks[phi.block]? with
    | none => .fatal
    | some phi_block =>
      if phi_block.head ≠ phi.region then .fatal
      else
        match complete_slots cfg fuel phi phi_block.preds 0 phi.ins st with
        | .ok st1 => complete_phi_nodes cfg fuel rest st1
        | .fatal => .fatal
        | .out_of_fuel => .out_of_fuel

/-- A way from a block back through connector blocks only to a block that is
not a connector. -/
inductive ConnectorPath (cfg : PhiCfg) : Nat → Nat → Prop where
  | stop {b : Nat} {blk : CfgBlock} :
      cfg.blocks[b]? = some blk → blk.is_connector = false → ConnectorPath cfg b b
  | pass {b q p : Nat} {blk : CfgBlock} :
      cfg.blocks[b]? = some blk → blk.is_connector = true → q ∈ blk.preds →
      ConnectorPath cfg q p → ConnectorPath cfg b p

/-- The ends of the ways of depth below `fuel` from a block back through
connector blocks only, one entry for each way, in the order of the
predecessors. -/
def connector_leaves (cfg : PhiCfg) : Nat → Nat → List Nat
  | 0, _ => []
  | fuel + 1, b =>
    match cfg.blocks[b]? with
    | none => []
    | some blk =>
      if blk.is_connector then blk.preds.flatMap (connector_leaves cfg fuel) else [b]

/-- The value that `complete_phi_node` attaches for an input, by the types of
the lowered value and of the phi. -/
def phi_value (cfg : PhiCfg) (case_val : Nat) (phiTy : IRType) : IRValue :=
  let v := cfg.lowered case_val
  if v.ty.isIntegerTy && phiTy.isPointerTy then .inttoptr v phiTy
  else if v.ty ≠ phiTy then .pointer_cast v phiTy
  else .lowered v

/-- The entries that one pending phi is to receive: for each input, one entry
for each way from the input's predecessor back through connector blocks. -/
def expected_incoming (cfg : PhiCfg) (fuel : Nat) (phi : PendingPhi) : List Incoming :=
  match cfg.blocks[phi.block]? with
  | none => []
  | some phi_block =>
    (phi.ins.zip phi_block.preds).flatMap (fun slot =>
      (connector_leaves cfg fuel slot.2).map
        (fun b => ⟨phi.phi_inst, phi_value cfg slot.1 phi.ty, b⟩))

/-- The predecessors of every connector block are blocks of the CFG and have
a smaller rank than the block: no cycle consists of connector blocks only. -/
def ConnectorsDescend (cfg : PhiCfg) (rank : Nat → Nat) : Prop :=
  ∀ p ∈ cfg.blocks.enum, p.2.is_connector = true →
    ∀ q ∈ p.2.preds, q < cfg.blocks.length ∧ rank q < rank p.1

instance (cfg : PhiCfg) (rank : Nat → Nat) : Decidable (ConnectorsDescend cfg rank) := by
  unfold ConnectorsDescend; exact inferInstance

/-- The pending phis pass the assertion "check phi block", each input has a
predecessor block of the CFG, and the lowered value of each input has the
type of the phi, so that no cast is needed. -/
def PhisPlain (cfg : PhiCfg) (phis : List PendingPhi) : Prop :=
  ∀ phi ∈ phis, ∃ pb, cfg.blocks[phi.block]? = some pb ∧ pb.head = phi.region ∧
    phi.ins.length ≤ pb.preds.length ∧ (∀ q ∈ pb.preds, q < cfg.blocks.length) ∧
    ∀ v ∈ phi.ins, (cfg.lowered v).ty = phi.ty

/-- A CFG with a diamond of connector blocks: block 0 holds the phi and has
the connector block 3 as its predecessor; block 3 has the connector blocks 2
and 4 as predecessors, and both have block 1, which is no connector. Node 7
is produced in block 1 as a 64-bit integer. -/
def diamond_cfg : PhiCfg where
  blocks := [⟨false, [3], 100⟩, ⟨false, [], 101⟩, ⟨true, [1], 102⟩, ⟨true, [2, 4], 103⟩,
    ⟨true, [1], 104⟩]
  block_of := fun _ => 1
  lowered := fun n => ⟨n, .integer 64, false⟩

/-- The rank of the blocks of `diamond_cfg`. -/
def diamond_rank (b : Nat) : Nat := if b = 3 then 2 else if b = 2 ∨ b = 4 then 1 else 0

/-- A phi of 64-bit integer type in block 0 of `diamond_cfg`, with the one
input node 7. -/
def diamond_phi : PendingPhi := ⟨0, 100, [7], 50, .integer 64⟩

/-- Five blocks, each with one instruction and a terminator, the builder at the
end of the last one, no incoming entries. -/
def five_blocks : PhiState :=
  ⟨(List.range 5).map (fun b => [.other b, .terminator b]), 4, []⟩

/-- A CFG without connector blocks: block 0 holds the phi and has block 2 as
its predecessor; node 7 is produced in block 1 as a 64-bit integer that is no
constant, node 8 is produced in block 1 as a pointer of another type than the
phi's. -/
def cast_cfg : PhiCfg where
  blocks := [⟨false, [2], 100⟩, ⟨false, [], 101⟩, ⟨false, [1], 102⟩, ⟨false, [2], 103⟩,
    ⟨false, [3], 104⟩]
  block_of := fun _ => 1
  lowered := fun n => if n = 7 then ⟨7, .integer 64, false⟩ else ⟨n, .pointer 1, false⟩

/-- A phi of pointer type in block 0 of `cast_cfg`, with an input `n`. -/
def cast_phi (n : Nat) : PendingPhi := ⟨0, 100, [n], 50, .pointer 0⟩

end Selector

/-! ## Part 5, continued. The base of a derived phi -/

namespace Selector

/-- The inputs `ps` of a phi agree with the inputs `bs` of the created base
phi as the loop of lines 634-637 compares them: in every place the same node,
or two constants. -/
def SameUpToConstants (nodes : List Node) (ps bs : List Nat) : Prop :=
  List.Forall₂ (fun p b => p = b ∨ ∃ pn bn, nodes[p]? = some pn ∧ nodes[b]? = some bn ∧
    pn.is_Con = true ∧ bn.is_Con = true) (ps.take bs.length) bs

/-- A phi of the block that the search of lines 625-642 passes over: its
inputs do not match those of the created base phi. -/
def PassedOver (nodes : List Node) (bases : List Nat) (phi : Nat) : Prop :=
  ∃ pn, nodes[phi]? = some pn ∧ pn.is_Phi = true ∧
    inputs_match nodes (pn.ins.drop 1) bases = some false

/-- The call `b->insert_node(n, i)`: the node `n` is put at index `i` of the
block, in front of the node that was there. -/
def Block.insert_node (b : Block) (n i : Nat) : Block :=
  { b with nodes := b.nodes.take i ++ n :: b.nodes.drop i }

/-- The node arena after `new (C) PhiNode(derived->in(0), t)` and the
`init_req` calls of lines 616-621: the base phi with the region and the bases
as inputs is its last node. -/
def with_base_phi (g : Graph) (t : NodeType) (region : Nat) (bases : List Nat) : List Node :=
  g.nodes ++ [⟨true, false, false, t, region :: bases⟩]

/-- Two ways into a block, one of them with a null pointer: node 0 is the
region, nodes 1 and 2 are two null constants, node 3 is an object, node 4 is a
phi of the block with the inputs null (node 1) and the object; node 5 is the
phi of the derived pointers `null + 16` (node 6, from the other null constant,
node 2) and `object + 16` (node 7); node 8 ends the block and node 9 is the
constant offset. -/
def null_merge_graph : Graph where
  nodes :=
    [⟨false, false, false, .other 0, []⟩,
     ⟨false, true, false, .ptr 0, [0]⟩,
     ⟨false, true, false, .ptr 0, [0]⟩,
     ⟨false, false, false, .ptr 0, [0]⟩,
     ⟨true, false, false, .ptr 0, [0, 1, 3]⟩,
     ⟨true, false, false, .ptr 16, [0, 6, 7]⟩,
     ⟨false, false, true, .ptr 16, [0, 2, 2, 9]⟩,
     ⟨false, false, true, .ptr 16, [0, 3, 3, 9]⟩,
     ⟨false, false, false, .other 1, [0]⟩,
     ⟨false, true, false, .other 2, [0]⟩]
  blocks := [⟨[], 0⟩, ⟨[0, 4, 5, 8], 0⟩]
  node_to_block := [(0, 1), (4, 1), (5, 1), (8, 1)]
  mach_null := 1
  derived_base := []

/-- The graph `merge_graph` followed by a second block: node 8 is its region,
node 9 a phi both inputs of which are the derived phi of the first block
(node 3), node 10 ends the block. -/
def nested_merge_graph : Graph where
  nodes := merge_graph.nodes ++
    [⟨false, false, false, .other 0, []⟩,
     ⟨true, false, false, .ptr 16, [8, 3, 3]⟩,
     ⟨false, false, false, .other 1, [8]⟩]
  blocks := merge_graph.blocks ++ [⟨[8, 9, 10], 0⟩]
  node_to_block := merge_graph.node_to_block ++ [(8, 2), (9, 2), (10, 2)]
  mach_null := 0
  derived_base := []

/-- The state of `null_merge_graph` after the base of its derived phi was
found. -/
def null_merge_done : Graph :=
  match find_derived_base sample_meet 2 null_merge_graph 5 with
  | .ok (_, g) => g
  | _ => null_merge_graph

/-- The state of `nested_merge_graph` after the base of the phi of its second
block was found. -/
def nested_merge_done : Graph :=
  match find_derived_base sample_meet 3 nested_merge_graph 9 with
  | .ok (_, g) => g
  | _ => nested_merge_graph

end Selector

/-! # Theorems -/

/-! ## Part 1. The calling convention -/

namespace Selector

open BasicType

theorem FieldsTyped.tail {ty_of : Nat → LType} {i : Nat} {f : OptoType} {fs : List OptoType}
    (h : FieldsTyped ty_of i (f :: fs)) : FieldsTyped ty_of (i + 1) fs := h.2.2

theorem FieldsTyped.head {ty_of : Nat → LType} {i : Nat} {f : OptoType} {fs : List OptoType}
    (h : FieldsTyped ty_of i (f :: fs)) :
    f.wf ∧ (f.is_Half = false → type f.basic_type = some (ty_of i)) := ⟨h.1, h.2.1⟩

theorem type_isFloatingPointTy {bt : BasicType} {ty : LType} (h : type bt = some ty) :
    ty.isFloatingPointTy = (decide (bt = T_FLOAT) || decide (bt = T_DOUBLE)) := by
  cases bt <;> simp [type] at h <;> subst h <;> rfl

theorem create_func_loop_full (NF_REGS : Nat) (ty_of : Nat → LType) :
    ∀ (fs : List OptoType) (i : Nat) (st : CreateFuncState),
      FieldsTyped ty_of i fs → st.nf_pos_full = true →
      ∃ st', create_func_loop NF_REGS i fs st = some st' ∧ st'.nf_pos_full = true ∧
        st'.nf_pos = st.nf_pos ∧
        st'.paramTypes = st.paramTypes ++ (call_args_loop ty_of i fs).map Value.slot := by
  intro fs
  induction fs with
  | nil => intro i st _ hfull; exact ⟨st, rfl, hfull, rfl, by simp [call_args_loop]⟩
  | cons f rest ih =>
    intro i st hty hfull
    obtain ⟨hwf, htyp⟩ := hty.head
    by_cases hv : f.basic_type = T_VOID
    · have hh : f.is_Half = true := hwf.mpr hv
      obtain ⟨st', h1, h2, h3, h4⟩ := ih (i + 1) st hty.tail hfull
      refine ⟨st', ?_, h2, h3, ?_⟩
      · simp [create_func_loop, hv, h1]
      · simp [call_args_loop, hh, h4]
    · have hh : f.is_Half = false := by
        cases h : f.is_Half
        · rfl
        · exact absurd (hwf.mp h) hv
      have ht := htyp hh
      obtain ⟨st', h1, h2, h3, h4⟩ := ih (i + 1)
        { st with paramTypes := st.paramTypes ++ [⟨ty_of i, some i⟩] } hty.tail hfull
      simp only [hfull] at h1
      refine ⟨st', ?_, h2, h3, ?_⟩
      · simp [create_func_loop, hv, ht, hfull, h1]
      · simp [call_args_loop, hh, h4, Value.slot]

theorem create_func_loop_open (NF_REGS : Nat) (ty_of : Nat → LType) :
    ∀ (fs : List OptoType) (i : Nat) (st : CreateFuncState) (seen : List Value),
      FieldsTyped ty_of i fs → st.nf_pos_full = false → st.nf_cnt < NF_REGS →
      st.paramTypes = seen.map Value.slot →
      ∃ st', create_func_loop NF_REGS i fs st = some st' ∧
        ((∃ c r, callconv_scan NF_REGS st.nf_cnt seen (call_args_loop ty_of i fs) = (c, some r) ∧
            st'.nf_pos_full = true ∧ st'.paramTypes = r.map Value.slot) ∨
         (callconv_scan NF_REGS st.nf_cnt seen (call_args_loop ty_of i fs) = (st'.nf_cnt, none) ∧
            st'.nf_pos_full = false ∧
            st'.paramTypes = (seen ++ call_args_loop ty_of i fs).map Value.slot)) := by
  intro fs
  induction fs with
  | nil =>
    intro i st seen _ hfull _ hp
    exact ⟨st, rfl, Or.inr ⟨by simp [call_args_loop, callconv_scan], hfull, by simp [call_args_loop, hp]⟩⟩
  | cons f rest ih =>
    intro i st seen hty hfull hlt hp
    obtain ⟨hwf, htyp⟩ := hty.head
    by_cases hv : f.basic_type = T_VOID
    · have hh : f.is_Half = true := hwf.mpr hv
      obtain ⟨st', h1, h2⟩ := ih (i + 1) st seen hty.tail hfull hlt hp
      refine ⟨st', by simp [create_func_loop, hv, h1], ?_⟩
      simpa [call_args_loop, hh] using h2
    · have hh : f.is_Half = false := by
        cases h : f.is_Half
        · rfl
        · exact absurd (hwf.mp h) hv
      have ht := htyp hh
      have hfp := type_isFloatingPointTy ht
      by_cases hflt : f.basic_type = T_FLOAT ∨ f.basic_type = T_DOUBLE
      · -- a floating-point parameter: appended on both sides
        have hfp' : (ty_of i).isFloatingPointTy = true := by
          rw [hfp]; rcases hflt with h | h <;> simp [h]
        have hne : ¬ st.nf_cnt = NF_REGS := by omega
        obtain ⟨st', h1, h2⟩ := ih (i + 1)
          { st with paramTypes := st.paramTypes ++ [⟨ty_of i, some i⟩] }
          (seen ++ [Value.arg i (ty_of i)]) hty.tail hfull hlt (by simp [hp, Value.slot])
        simp only [hfull] at h1
        refine ⟨st', ?_, ?_⟩
        · have hcond : (!st.nf_pos_full && decide (f.basic_type ≠ T_FLOAT) && decide (f.basic_type ≠ T_DOUBLE)) = false := by
            rcases hflt with h | h <;> simp [h]
          simp only [create_func_loop, hv, ne_eq, not_false_eq_true, ↓reduceIte, hcond, ht]
          simp [hne, hfull, h1]
        · simpa [call_args_loop, hh, callconv_scan, Value.getType, hfp'] using h2
      · -- a general parameter
        push_neg at hflt
        have hfp' : (ty_of i).isFloatingPointTy = false := by
          rw [hfp]; simp [hflt.1, hflt.2]
        have hcond : (!st.nf_pos_full && decide (f.basic_type ≠ T_FLOAT) && decide (f.basic_type ≠ T_DOUBLE)) = true := by
          simp [hfull, hflt.1, hflt.2]
        by_cases hq : st.nf_cnt + 1 = NF_REGS
        · -- the quota is reached: moved to the front on both sides
          obtain ⟨st', h1, h2, h3, h4⟩ := create_func_loop_full NF_REGS ty_of rest (i + 1)
            { nf_cnt := st.nf_cnt + 1, nf_pos_full := true, nf_pos := st.nf_pos ++ [i],
              paramTypes := ⟨ty_of i, some i⟩ :: st.paramTypes } hty.tail rfl
          simp only [hq] at h1
          refine ⟨st', ?_, Or.inl ⟨st.nf_cnt + 1, Value.arg i (ty_of i) :: (seen ++ call_args_loop ty_of (i + 1) rest), ?_, h2, ?_⟩⟩
          · simp only [create_func_loop, hv, ne_eq, not_false_eq_true, ↓reduceIte, hcond, ht]
            simp [hq, hfull, h1]
          · simp [call_args_loop, hh, callconv_scan, Value.getType, hfp', hq]
          · simp [h4, hp, Value.slot]
        · have hlt' : st.nf_cnt + 1 < NF_REGS := by omega
          obtain ⟨st', h1, h2⟩ := ih (i + 1)
            { nf_cnt := st.nf_cnt + 1, nf_pos_full := false, nf_pos := st.nf_pos ++ [i],
              paramTypes := st.paramTypes ++ [⟨ty_of i, some i⟩] }
            (seen ++ [Value.arg i (ty_of i)]) hty.tail rfl hlt' (by simp [hp, Value.slot])
          refine ⟨st', ?_, ?_⟩
          · simp only [create_func_loop, hv, ne_eq, not_false_eq_true, ↓reduceIte, hcond, ht]
            simp [hq, hfull, h1]
          · simpa [call_args_loop, hh, callconv_scan, Value.getType, hfp', hq] using h2

/-- Claim C9. For every signature whose fields are well-formed and every call of
that signature whose lowered arguments have the LLVM types of the fields, the
physical parameter list built by `create_func` is, element by element, the
list of slots of `callconv_adjust (call_args ..)`: the same parameter is moved
to the front or the same extra 64-bit word is inserted at the front on both
sides; in particular the two type lists are equal. -/
theorem C9_create_func_matches_call (NF_REGS : Nat) (hN : 0 < NF_REGS) (d : Domain)
    (ty_of : Nat → LType) (hty : FieldsTyped ty_of TypeFunc.Parms d) :
    ∃ params nf_pos, create_func NF_REGS d = some (params, nf_pos) ∧
      params = (callconv_adjust NF_REGS (call_args ty_of d)).map Value.slot ∧
      params.map Param.ty = (callconv_adjust NF_REGS (call_args ty_of d)).map Value.getType := by
  obtain ⟨st', h1, h2⟩ := create_func_loop_open NF_REGS ty_of d TypeFunc.Parms ⟨0, false, [], []⟩ []
    hty rfl hN rfl
  have key : ∃ params nf_pos, create_func NF_REGS d = some (params, nf_pos) ∧
      params = (callconv_adjust NF_REGS (call_args ty_of d)).map Value.slot := by
    rcases h2 with ⟨c, r, hs, hfull, hp⟩ | ⟨hs, hfull, hp⟩
    · refine ⟨st'.paramTypes, st'.nf_pos, ?_, ?_⟩
      · simp [create_func, h1, hfull]
      · simp only [callconv_adjust, call_args]
        simp only [] at hs
        rw [hs]; exact hp
    · simp only [] at hs
      by_cases hc : st'.nf_cnt = 0
      · refine ⟨st'.paramTypes, st'.nf_pos, ?_, ?_⟩
        · simp [create_func, h1, hc]
        · simp only [callconv_adjust, call_args]
          rw [hs]; simpa [hc] using hp
      · refine ⟨⟨LType.i64, none⟩ :: st'.paramTypes, st'.nf_pos, ?_, ?_⟩
        · simp [create_func, h1, hc, hfull]
        · simp only [callconv_adjust, call_args]
          rw [hs]; simpa [hc, Value.slot] using hp
  obtain ⟨params, nf_pos, hc, hp⟩ := key
  refine ⟨params, nf_pos, hc, hp, ?_⟩
  rw [hp, List.map_map]
  apply List.map_congr_left
  intro v _
  cases v <;> rfl

/-- Witness of the C9 theorem at the signature `(int, float, long)`. -/
theorem C9_witness :
    ∃ params nf_pos, create_func 2 sig_int_float_long = some (params, nf_pos) ∧
      params = (callconv_adjust 2 (call_args tys_int_float_long sig_int_float_long)).map Value.slot ∧
      params.map Param.ty =
        (callconv_adjust 2 (call_args tys_int_float_long sig_int_float_long)).map Value.getType :=
  C9_create_func_matches_call 2 (by decide) sig_int_float_long tys_int_float_long (by decide)

/-- Claim C1, evaluated. For the signature `(float, int)` with `NF_REGS = 6`,
`create_func` places the `int` parameter (domain index 6) in physical slot 2,
behind the extra leading word and the float, while `param_to_arg` answers 1,
the slot of the float. For the same signature with `NF_REGS = 1` the `int` is
moved to the front, the float (domain index 5) is in slot 1 and `param_to_arg`
answers 0. For `(int, float, int)` with `NF_REGS = 2`, the second `int` fills
the quota and is moved to the front, the float (domain index 6) lands in slot
2, and `param_to_arg` answers 1, the slot of the first `int`. -/
theorem C1_param_to_arg_misses_float_before_general :
    (create_func 6 sig_float_int =
        some ([⟨LType.i64, none⟩, ⟨LType.float, some 5⟩, ⟨LType.i32, some 6⟩], [6]) ∧
      slot_of [⟨LType.i64, none⟩, ⟨LType.float, some 5⟩, ⟨LType.i32, some 6⟩] 6 = some 2 ∧
      param_to_arg 6 [6] sig_float_int 6 = 1) ∧
    (create_func 1 sig_float_int =
        some ([⟨LType.i32, some 6⟩, ⟨LType.float, some 5⟩], [6]) ∧
      slot_of [⟨LType.i32, some 6⟩, ⟨LType.float, some 5⟩] 5 = some 1 ∧
      param_to_arg 1 [6] sig_float_int 5 = 0) ∧
    (create_func 2 sig_int_float_int =
        some ([⟨LType.i32, some 7⟩, ⟨LType.i32, some 5⟩, ⟨LType.float, some 6⟩], [5, 7]) ∧
      slot_of [⟨LType.i32, some 7⟩, ⟨LType.i32, some 5⟩, ⟨LType.float, some 6⟩] 6 = some 2 ∧
      param_to_arg 2 [5, 7] sig_int_float_int 6 = 1) := by
  decide

theorem nf_count_cons (a : Value) (l : List Value) :
    nf_count (a :: l) = (if a.getType.isFloatingPointTy then 0 else 1) + nf_count l := by
  unfold nf_count
  cases h : a.getType.isFloatingPointTy <;> simp [List.filter, h]; omega

theorem callconv_scan_move (NF_REGS : Nat) :
    ∀ (rest : List Value) (nf : Nat) (seen : List Value),
      nf < NF_REGS → NF_REGS ≤ nf + nf_count rest →
      ∃ pre a post, rest = pre ++ a :: post ∧ a.getType.isFloatingPointTy = false ∧
        nf + nf_count pre + 1 = NF_REGS ∧
        callconv_scan NF_REGS nf seen rest = (NF_REGS, some (a :: (seen ++ pre ++ post))) := by
  intro rest
  induction rest with
  | nil => intro nf seen h1 h2; simp [nf_count] at h2; omega
  | cons x xs ih =>
    intro nf seen h1 h2
    rw [nf_count_cons] at h2
    cases hx : x.getType.isFloatingPointTy
    · simp only [hx] at h2
      by_cases hq : nf + 1 = NF_REGS
      · refine ⟨[], x, xs, rfl, hx, by simpa [nf_count] using hq, ?_⟩
        simp [callconv_scan, hx, hq]
      · obtain ⟨pre, a, post, e, ha, hc, hs⟩ := ih (nf + 1) (seen ++ [x]) (by omega) (by simp at h2; omega)
        refine ⟨x :: pre, a, post, by simp [e], ha, ?_, ?_⟩
        · rw [nf_count_cons]; simp only [hx]; simp; omega
        · simp [callconv_scan, hx, hq, hs]
    · simp only [hx] at h2
      obtain ⟨pre, a, post, e, ha, hc, hs⟩ := ih nf (seen ++ [x]) h1 (by simpa using h2)
      refine ⟨x :: pre, a, post, by simp [e], ha, ?_, ?_⟩
      · rw [nf_count_cons]; simp only [hx]; simp; omega
      · simp [callconv_scan, hx, hs]

/-- Claim C10, amended. When an argument list has at least `NF_REGS` general
(non-floating) arguments, `callconv_adjust` moves the `NF_REGS`-th general
argument to the front and keeps every other argument, general or floating, in
its own slot and in its original order: nothing is collapsed. For six integer
arguments and a quota of 4 the result is `a3, a0, a1, a2, a4, a5`. -/
theorem C10_callconv_adjust_moves_quota_argument (NF_REGS : Nat) (hN : 0 < NF_REGS)
    (args : List Value) (h : NF_REGS ≤ nf_count args) :
    (∃ pre a post, args = pre ++ a :: post ∧ a.getType.isFloatingPointTy = false ∧
        nf_count pre + 1 = NF_REGS ∧ callconv_adjust NF_REGS args = a :: (pre ++ post)) ∧
      callconv_adjust 4 six_ints =
        [.arg 3 .i32, .arg 0 .i32, .arg 1 .i32, .arg 2 .i32, .arg 4 .i32, .arg 5 .i32] := by
  refine ⟨?_, by decide⟩
  obtain ⟨pre, a, post, e, ha, hc, hs⟩ := callconv_scan_move NF_REGS args 0 [] hN (by omega)
  refine ⟨pre, a, post, e, ha, by omega, ?_⟩
  simp [callconv_adjust, hs]

/-- Witness of the C10 theorem at six integer arguments and a quota of 4. -/
theorem C10_witness :
    (∃ pre a post, six_ints = pre ++ a :: post ∧ a.getType.isFloatingPointTy = false ∧
        nf_count pre + 1 = 4 ∧ callconv_adjust 4 six_ints = a :: (pre ++ post)) ∧
      callconv_adjust 4 six_ints =
        [.arg 3 .i32, .arg 0 .i32, .arg 1 .i32, .arg 2 .i32, .arg 4 .i32, .arg 5 .i32] :=
  C10_callconv_adjust_moves_quota_argument 4 (by decide) six_ints (by decide)

/-- Claim C10 fails as stated: for six integer arguments and a quota of 4 the
adjusted list still has six slots, the 5th and the 6th argument each keep a
slot of their own, and the list is not the spec's overflow packing for any
overflow word. -/
theorem C10_counterexample :
    (callconv_adjust 4 six_ints).length = 6 ∧
      Value.arg 4 .i32 ∈ callconv_adjust 4 six_ints ∧
      Value.arg 5 .i32 ∈ callconv_adjust 4 six_ints ∧
      ∀ w, callconv_adjust 4 six_ints ≠ overflow_pack 4 w six_ints := by
  refine ⟨by decide, by decide, by decide, ?_⟩
  intro w h
  have hl := congrArg List.length h
  have h6 : (callconv_adjust 4 six_ints).length = 6 := by decide
  have h5 : (overflow_pack 4 w six_ints).length = 5 := rfl
  omega

end Selector

/-! ## Part 2. Compressed pointers -/

namespace Selector

theorem pow_split {W s : Nat} (h : 32 + s ≤ W) : 2 ^ W = 2 ^ 32 * 2 ^ (W - s - 32) * 2 ^ s := by
  rw [← pow_add, ← pow_add]; congr 1; omega

theorem shifted_lt {n s : Nat} (hn : n < 2 ^ 32) : n * 2 ^ s < 2 ^ (32 + s) := by
  rw [pow_add]; exact Nat.mul_lt_mul_of_pos_right hn (by positivity)

/-- Shifting a 32-bit value left and arithmetically right again, then truncating,
gives the value back. -/
theorem trunc_ashr_shifted {W s n : Nat} (h : 32 + s ≤ W) (hn : n < 2 ^ 32) :
    LLVM.trunc 32 (LLVM.ashr W (n * 2 ^ s) s) = n := by
  unfold LLVM.trunc LLVM.ashr
  have hdiv : n * 2 ^ s / 2 ^ s = n := Nat.mul_div_cancel n (by positivity)
  rw [hdiv]
  split
  · have e : 2 ^ W - 2 ^ (W - s) = 2 ^ 32 * (2 ^ (W - s - 32) * (2 ^ s - 1)) := by
      have h1 : 2 ^ (W - s) = 2 ^ 32 * 2 ^ (W - s - 32) := by
        rw [← pow_add]; congr 1; omega
      rw [pow_split h, h1, Nat.mul_sub, Nat.mul_one, mul_assoc, Nat.mul_sub]
    rw [e, Nat.add_mul_mod_self_left]
    exact Nat.mod_eq_of_lt hn
  · simpa using Nat.mod_eq_of_lt hn

theorem shl_shifted {W s n : Nat} (h : 32 + s ≤ W) (hn : n < 2 ^ 32) :
    LLVM.shl W n s = n * 2 ^ s := by
  unfold LLVM.shl
  apply Nat.mod_eq_of_lt
  calc n * 2 ^ s < 2 ^ (32 + s) := shifted_lt hn
    _ ≤ 2 ^ W := Nat.pow_le_pow_right (by decide) h

theorem sub_base {W K y : Nat} (h : K + y < 2 ^ W) : LLVM.sub W (K + y) (K % 2 ^ W) = y := by
  unfold LLVM.sub
  have hK : K < 2 ^ W := by omega
  rw [Nat.mod_eq_of_lt hK, Nat.mod_eq_of_lt hK]
  have : K + y + (2 ^ W - K) = y + 2 ^ W := by omega
  rw [this, Nat.add_mod_right]
  exact Nat.mod_eq_of_lt (by omega)

theorem gep_base {c : Config} {K y : Nat} (h : K + y < 2 ^ c.pointer_size) :
    gep c (get_ptr c K) y = K + y := by
  unfold gep get_ptr
  have hK : K < 2 ^ c.pointer_size := by omega
  rw [Nat.mod_eq_of_lt hK, Nat.mod_eq_of_lt h]

theorem ashr_zero (W s : Nat) : LLVM.ashr W 0 s = 0 := by
  unfold LLVM.ashr
  have : ¬ 2 ^ (W - 1) ≤ 0 := by
    have : 0 < 2 ^ (W - 1) := by positivity
    omega
  simp [this]

/-- Round trip from the narrow side on every path of `decode_heap_oop` that
assigns `oop` before using it: in a supported configuration and for every
32-bit `N`, zero included, `encode_heap_oop(decode_heap_oop(N))` denotes `N`
when `not_null` is asserted, and also when it is not in a configuration without
a base. -/
theorem encode_decode_roundtrip (c : Config) (hc : Supported c) (N : Nat)
    (hN : N < 2 ^ 32) (not_null : Bool)
    (hpath : not_null = true ∨ c.narrow_oop_base = 0) :
    encode_after_decode c N not_null = some N := by
  obtain ⟨hmode, hw, hK, _⟩ := hc
  unfold encode_after_decode decode_heap_oop encode_heap_oop
  by_cases hfast : is_fast_compression c = true
  · simp [hfast]
  · have hs : c.narrow_oop_shift ≠ 0 := by
      rcases hmode with h | h
      · exact absurd h hfast
      · omega
    have hlt : N * 2 ^ c.narrow_oop_shift < 2 ^ (32 + c.narrow_oop_shift) := shifted_lt hN
    have hlt' : N * 2 ^ c.narrow_oop_shift < 2 ^ c.pointer_size :=
      lt_of_lt_of_le hlt (Nat.pow_le_pow_right (by decide) hw)
    have hsum : c.narrow_klass_base + N * 2 ^ c.narrow_oop_shift < 2 ^ c.pointer_size := by omega
    simp only [hfast, hs, Bool.false_eq_true, ↓reduceIte, shl_shifted hw hN]
    by_cases hb : c.narrow_oop_base = 0
    · simp [hb, Nat.mod_eq_of_lt hlt', trunc_ashr_shifted hw hN]
    · have hnn : not_null = true := by
        rcases hpath with h | h
        · exact h
        · exact absurd h hb
      subst hnn
      simp only [hb, ↓reduceIte, ne_eq, not_false_eq_true, gep_base hsum]
      simp [Nat.mod_eq_of_lt hsum, sub_base hsum, trunc_ashr_shifted hw hN]

/-- Claim C3, the code at the failing input. In the heap-based configuration
(base 32 GB, shift 3) `decode_heap_oop(1, not_null = false)` has no value: the
may-be-null path reads through `oop` before assigning it, so
`encode_heap_oop(decode_heap_oop(1))` does not denote `1`, whereas the
asserted path of the same configuration gives `1` back. -/
theorem C3_decode_may_be_null_reads_unassigned_oop :
    Supported cfg_heap_based ∧
      decode_heap_oop cfg_heap_based 1 false = none ∧
      encode_after_decode cfg_heap_based 1 false ≠ some 1 ∧
      encode_after_decode cfg_heap_based 1 true = some 1 := by
  decide

/-- Claim C2, amended. In every supported configuration in which the base that
the emitted arithmetic uses is the oop base wherever a base is used at all
(the heap-based configurations; fast and zero-based ones use none), and for
every 32-bit `n`: `decode_heap_oop(encode_heap_oop(P))` denotes `P` for
`P = base + (n << shift)` when non-null is asserted; in a configuration without
a base it also does so when non-null is not asserted, the null pointer
(`n = 0`) included. -/
theorem C2_decode_encode_roundtrip (c : Config) (hc : Supported c)
    (hbase : c.narrow_oop_base ≠ 0 → c.narrow_klass_base = c.narrow_oop_base)
    (n : Nat) (hn : n < 2 ^ 32) :
    decode_after_encode c (c.narrow_oop_base + n * 2 ^ c.narrow_oop_shift) true =
        some (c.narrow_oop_base + n * 2 ^ c.narrow_oop_shift) ∧
      (c.narrow_oop_base = 0 →
        decode_after_encode c (n * 2 ^ c.narrow_oop_shift) false =
          some (n * 2 ^ c.narrow_oop_shift)) := by
  obtain ⟨hmode, hw, hK, _⟩ := hc
  unfold decode_after_encode decode_heap_oop encode_heap_oop
  by_cases hfast : is_fast_compression c = true
  · simp [hfast]
  · have hs : c.narrow_oop_shift ≠ 0 := by
      rcases hmode with h | h
      · exact absurd h hfast
      · omega
    have hlt : n * 2 ^ c.narrow_oop_shift < 2 ^ (32 + c.narrow_oop_shift) := shifted_lt hn
    have hlt' : n * 2 ^ c.narrow_oop_shift < 2 ^ c.pointer_size :=
      lt_of_lt_of_le hlt (Nat.pow_le_pow_right (by decide) hw)
    have hsum : c.narrow_klass_base + n * 2 ^ c.narrow_oop_shift < 2 ^ c.pointer_size := by omega
    simp only [hfast, hs, Bool.false_eq_true, ↓reduceIte]
    by_cases hb : c.narrow_oop_base = 0
    · simp [hb, Nat.mod_eq_of_lt hlt', trunc_ashr_shifted hw hn, shl_shifted hw hn]
    · refine ⟨?_, fun h => absurd h hb⟩
      have hbe := hbase hb
      rw [← hbe] at hb ⊢
      simp [hb, Nat.mod_eq_of_lt hsum, sub_base hsum, trunc_ashr_shifted hw hn,
        shl_shifted hw hn, gep_base hsum]

/-- Witness of the C2 theorem in a zero-based configuration whose klass base is
not zero, at `n = 5`, where both conjuncts speak. -/
theorem C2_witness :
    decode_after_encode cfg_zero_based_klass
        (cfg_zero_based_klass.narrow_oop_base + 5 * 2 ^ cfg_zero_based_klass.narrow_oop_shift)
        true =
        some (cfg_zero_based_klass.narrow_oop_base +
          5 * 2 ^ cfg_zero_based_klass.narrow_oop_shift) ∧
      (cfg_zero_based_klass.narrow_oop_base = 0 →
        decode_after_encode cfg_zero_based_klass
            (5 * 2 ^ cfg_zero_based_klass.narrow_oop_shift) false =
          some (5 * 2 ^ cfg_zero_based_klass.narrow_oop_shift)) :=
  C2_decode_encode_roundtrip cfg_zero_based_klass (by decide) (by decide) 5 (by decide)

/-- Claim C2 fails as stated: in the heap-based configuration (base 32 GB,
shift 3) the null pointer, encoded and decoded with non-null asserted, comes
back as the heap base, not as null. -/
theorem C2_counterexample :
    Supported cfg_heap_based ∧
      decode_after_encode cfg_heap_based 0 true = some 0x800000000 ∧
      decode_after_encode cfg_heap_based 0 true ≠ some 0 := by
  decide

end Selector

/-! ## Part 3. The relocator -/

namespace LlvmRelocator

theorem offset_less_false_iff (a b : Reloc) : offset_less b a = false ↔ a.offset ≤ b.offset := by
  simp [offset_less]

theorem sort_insert_perm (x : Reloc) : ∀ l : List Reloc, (sort_insert x l).Perm (x :: l) := by
  intro l
  induction l with
  | nil => exact List.Perm.refl _
  | cons y ys ih =>
    unfold sort_insert
    split
    · exact (List.Perm.cons y ih).trans (List.Perm.swap x y ys)
    · exact List.Perm.refl _

theorem std_sort_perm : ∀ l : List Reloc, (std_sort l).Perm l := by
  intro l
  induction l with
  | nil => exact List.Perm.refl _
  | cons x xs ih =>
    show (sort_insert x (std_sort xs)).Perm (x :: xs)
    exact (sort_insert_perm x _).trans (List.Perm.cons x ih)

theorem sort_insert_sorted (x : Reloc) : ∀ l : List Reloc,
    l.Pairwise (fun a b => a.offset ≤ b.offset) →
    (sort_insert x l).Pairwise (fun a b => a.offset ≤ b.offset) := by
  intro l
  induction l with
  | nil => intro _; simp [sort_insert]
  | cons y ys ih =>
    intro h
    have hy := List.pairwise_cons.mp h
    unfold sort_insert
    split
    · rename_i hlt
      have hlt' : y.offset < x.offset := by simpa [offset_less] using hlt
      refine List.pairwise_cons.mpr ⟨?_, ih hy.2⟩
      intro z hz
      have hz' := (sort_insert_perm x ys).subset hz
      rcases List.mem_cons.mp hz' with e | e
      · subst e; omega
      · exact hy.1 z e
    · rename_i hlt
      have hge : x.offset ≤ y.offset := by simpa [offset_less] using hlt
      refine List.pairwise_cons.mpr ⟨?_, h⟩
      intro z hz
      rcases List.mem_cons.mp hz with e | e
      · subst e; exact hge
      · exact le_trans hge (hy.1 z e)

theorem std_sort_sorted : ∀ l : List Reloc,
    (std_sort l).Pairwise (fun a b => a.offset ≤ b.offset) := by
  intro l
  induction l with
  | nil => simp [std_sort]
  | cons x xs ih => exact sort_insert_sorted x _ ih

/-- The insertion sort model meets the contract of `std::sort`. -/
theorem std_sort_contract : StdSortContract std_sort := by
  intro l
  refine ⟨std_sort_perm l, ?_⟩
  exact (std_sort_sorted l).imp (fun {a b} h => (offset_less_false_iff a b).mpr h)

/-- With pairwise distinct offsets a sorted list is strictly sorted. -/
theorem strict_of_nodup {l : List Reloc} (hs : l.Pairwise (fun a b => a.offset ≤ b.offset))
    (hn : (l.map Reloc.offset).Nodup) : l.Pairwise (fun a b => a.offset < b.offset) := by
  induction l with
  | nil => exact List.Pairwise.nil
  | cons x xs ih =>
    have hs' := List.pairwise_cons.mp hs
    have hn' : x.offset ∉ xs.map Reloc.offset ∧ (xs.map Reloc.offset).Nodup := by
      simpa using hn
    refine List.pairwise_cons.mpr ⟨?_, ih hs'.2 hn'.2⟩
    intro z hz
    have h1 := hs'.1 z hz
    have h2 : x.offset ≠ z.offset := by
      intro e
      exact hn'.1 (List.mem_map.mpr ⟨z, hz, e.symm⟩)
    omega

/-- Two strictly sorted lists with the same records are the same list. -/
theorem eq_of_perm_of_strict : ∀ (l₁ l₂ : List Reloc), l₁.Perm l₂ →
    l₁.Pairwise (fun a b => a.offset < b.offset) →
    l₂.Pairwise (fun a b => a.offset < b.offset) → l₁ = l₂ := by
  intro l₁
  induction l₁ with
  | nil => intro l₂ hp _ _; exact (List.Perm.nil_eq hp)
  | cons a t₁ ih =>
    intro l₂ hp h1 h2
    cases l₂ with
    | nil => exact absurd hp.length_eq (by simp)
    | cons b t₂ =>
      have h1' := List.pairwise_cons.mp h1
      have h2' := List.pairwise_cons.mp h2
      have hab : a = b := by
        have ha : a ∈ b :: t₂ := hp.subset (List.mem_cons_self a t₁)
        have hb : b ∈ a :: t₁ := hp.symm.subset (List.mem_cons_self b t₂)
        rcases List.mem_cons.mp ha with e | e
        · exact e
        · rcases List.mem_cons.mp hb with e' | e'
          · exact e'.symm
          · have x1 := h1'.1 b e'
            have x2 := h2'.1 a e
            omega
      subst hab
      rw [ih t₂ (List.Perm.cons_inv hp) h1'.2 h2'.2]

/-- Claim C6, amended. When the pending records have pairwise distinct offsets,
the outcome of `apply_relocs` (buffer state and patched records) is the same
for every order of insertion of the same records, in particular for an order
and its reverse. -/
theorem C6_apply_relocs_order_independent {σ : Type} (ops : MasmOps σ)
    (sort : List Reloc → List Reloc) (hsort : StdSortContract sort) (m : σ)
    (relocs relocs' : List Reloc) (hperm : relocs'.Perm relocs)
    (hdistinct : (relocs.map Reloc.offset).Nodup) :
    apply_relocs ops sort m relocs' = apply_relocs ops sort m relocs ∧
      apply_relocs ops sort m relocs.reverse = apply_relocs ops sort m relocs := by
  have key : ∀ l : List Reloc, l.Perm relocs → sort l = sort relocs := by
    intro l hl
    obtain ⟨hp1, hs1⟩ := hsort l
    obtain ⟨hp2, hs2⟩ := hsort relocs
    have hs1' : (sort l).Pairwise (fun a b => a.offset ≤ b.offset) :=
      hs1.imp (fun {a b} h => (offset_less_false_iff a b).mp h)
    have hs2' : (sort relocs).Pairwise (fun a b => a.offset ≤ b.offset) :=
      hs2.imp (fun {a b} h => (offset_less_false_iff a b).mp h)
    have hn2 : ((sort relocs).map Reloc.offset).Nodup :=
      (List.Perm.nodup_iff (hp2.map Reloc.offset)).mpr hdistinct
    have hn1 : ((sort l).map Reloc.offset).Nodup :=
      (List.Perm.nodup_iff ((hp1.trans hl).map Reloc.offset)).mpr hdistinct
    exact eq_of_perm_of_strict _ _ ((hp1.trans hl).trans hp2.symm)
      (strict_of_nodup hs1' hn1) (strict_of_nodup hs2' hn2)
  unfold apply_relocs patch_order
  rw [key relocs' hperm, key relocs.reverse (List.reverse_perm relocs)]
  exact ⟨rfl, rfl⟩

/-- Witness of the C6 theorem at four records, another order of insertion of
them, and their reverse. -/
theorem C6_witness :
    apply_relocs bufferOps std_sort empty_buffer relocs_shuffled =
        apply_relocs bufferOps std_sort empty_buffer relocs_distinct ∧
      apply_relocs bufferOps std_sort empty_buffer relocs_distinct.reverse =
        apply_relocs bufferOps std_sort empty_buffer relocs_distinct :=
  C6_apply_relocs_order_independent bufferOps std_sort std_sort_contract empty_buffer
    relocs_distinct relocs_shuffled (by decide) (by decide)

/-- Claim C6 fails as stated: two float records added at the same offset 8 in
one order and in the reverse order leave different constant regions. -/
theorem C6_counterexample :
    add_float (add_float [] 8 111) 8 222 = relocs_collision ∧
      add_float (add_float [] 8 222) 8 111 = relocs_collision.reverse ∧
      apply_relocs bufferOps std_sort empty_buffer relocs_collision.reverse ≠
        apply_relocs bufferOps std_sort empty_buffer relocs_collision := by
  decide

end LlvmRelocator

/-! ## Part 4. Memoized lowering -/

namespace Selector

theorem Frame.frame_refl (st : SelectState) : Frame st st :=
  ⟨rfl, fun _ _ => rfl, fun _ h => h, fun _ h1 h2 => ⟨h1, h2⟩⟩

theorem Frame.hit {st st' : SelectState} (h : Frame st st') {x : Nat} (hx : Hit st x) :
    Hit st' x := by
  obtain ⟨e, he, hh⟩ := hx
  exact ⟨e, by rw [h.kept x (Or.inl ⟨e, he, hh⟩)]; exact he, hh⟩

theorem Frame.frame_trans {a b c : SelectState} (h1 : Frame a b) (h2 : Frame b c) : Frame a c := by
  refine ⟨h2.length_eq.trans h1.length_eq, ?_, fun e he => h2.trace_sub e (h1.trace_sub e he), ?_⟩
  · intro x hx
    have hb : Hit b x ∨ Event.invoke x ∈ b.trace := by
      rcases hx with hx | hx
      · exact Or.inl (h1.hit hx)
      · exact Or.inr (h1.trace_sub _ hx)
    rw [h2.kept x hb, h1.kept x hx]
  · intro x hx hn
    obtain ⟨hx1, hn1⟩ := h2.no_new_busy x hx hn
    exact h1.no_new_busy x hx1 hn1

theorem inv_init (unique : Nat) : Inv (SelectState.init unique) := by
  refine ⟨fun n => by simp [SelectState.init], ?_, ?_, ?_⟩
  · intro n e he hh
    simp only [SelectState.init, List.getElem?_replicate] at he
    split at he
    · cases he; simp at hh
    · cases he
  · intro n v h; simp [SelectState.init] at h
  · intro n v h; simp [SelectState.init] at h

/-- The step of `select_node` on a cache hit. -/
theorem select_node_hit_step (st : SelectState) (hI : Inv st) (n : Nat) (entry : CacheEntry)
    (he : st.cache[n]? = some entry) (hh : entry.hit = true) :
    Inv { st with trace := st.trace ++ [Event.returned n entry.val] } ∧
      Frame st { st with trace := st.trace ++ [Event.returned n entry.val] } := by
  refine ⟨⟨?_, ?_, ?_, ?_⟩, ⟨rfl, fun _ _ => rfl, ?_, ?_⟩⟩
  · intro m
    have := hI.once m
    simpa [List.count_append, List.count_cons] using this
  · intro m e hm hhit
    exact List.mem_append_left _ (hI.hit_lowered m e hm hhit)
  · intro m v hm
    rcases List.mem_append.mp hm with h | h
    · exact hI.returned_cached m v h
    · simp only [List.mem_singleton, Event.returned.injEq] at h
      obtain ⟨rfl, rfl⟩ := h
      show st.cache[m]? = _
      rw [he]
      cases entry
      simp_all
  · intro m v hm
    rcases List.mem_append.mp hm with h | h
    · exact hI.lowered_cached m v h
    · simp at h
  · intro e h; exact List.mem_append_left _ h
  · intro x hx hn
    refine ⟨?_, hn⟩
    rcases List.mem_append.mp hx with h | h
    · exact h
    · simp at h

/-- Entering the lowering of a node that is neither hit nor in progress. -/
theorem select_node_enter_step (st : SelectState) (hI : Inv st) (n : Nat)
    (hfresh : Event.invoke n ∉ st.trace) :
    Inv { st with trace := st.trace ++ [Event.invoke n] } := by
  refine ⟨?_, ?_, ?_, ?_⟩
  · intro m
    have := hI.once m
    by_cases hm : m = n
    · subst hm
      have h0 : List.count (Event.invoke m) st.trace = 0 := List.count_eq_zero.mpr hfresh
      simp [List.count_append, h0]
    · have hne : (Event.invoke n == Event.invoke m) = false := by
        simp; exact fun h => hm h.symm
      simpa [List.count_append, List.count_cons, hne] using this
  · intro m e hm hhit
    exact List.mem_append_left _ (hI.hit_lowered m e hm hhit)
  · intro m v hm
    rcases List.mem_append.mp hm with h | h
    · exact hI.returned_cached m v h
    · simp at h
  · intro m v hm
    rcases List.mem_append.mp hm with h | h
    · exact hI.lowered_cached m v h
    · simp at h

/-- Leaving the lowering of node `n` with value `v`: the entry is written. -/
theorem select_node_leave_step (st1 : SelectState) (hI : Inv st1) (n v : Nat)
    (entry : CacheEntry) (he : st1.cache[n]? = some entry) (hmiss : entry.hit = false) :
    Inv { cache := st1.cache.set n ⟨true, v⟩,
          trace := st1.trace ++ [Event.lowered n v, Event.returned n v] } := by
  have hlen : n < st1.cache.length := by
    by_contra hc
    rw [List.getElem?_eq_none (by omega)] at he
    cases he
  have hself : (st1.cache.set n ⟨true, v⟩)[n]? = some ⟨true, v⟩ := by
    simp [List.getElem?_set_self hlen]
  have hnohit : ∀ w, st1.cache[n]? ≠ some ⟨true, w⟩ := by
    intro w hw
    rw [he] at hw
    cases hw
    simp at hmiss
  refine ⟨?_, ?_, ?_, ?_⟩
  · intro m
    have := hI.once m
    simpa [List.count_append, List.count_cons] using this
  · intro m e hm hhit
    by_cases hmn : n = m
    · subst hmn
      show Event.lowered n e.val ∈ st1.trace ++ [Event.lowered n v, Event.returned n v]
      have hm' : (st1.cache.set n ⟨true, v⟩)[n]? = some e := hm
      rw [hself] at hm'
      cases hm'
      simp
    · have hm' : (st1.cache.set n ⟨true, v⟩)[m]? = some e := hm
      rw [List.getElem?_set_ne hmn] at hm'
      exact List.mem_append_left _ (hI.hit_lowered m e hm' hhit)
  · intro m w hm
    show (st1.cache.set n ⟨true, v⟩)[m]? = _
    rcases List.mem_append.mp hm with h | h
    · have hc := hI.returned_cached m w h
      by_cases hmn : n = m
      · subst hmn; exact absurd hc (hnohit w)
      · rw [List.getElem?_set_ne hmn]; exact hc
    · simp only [List.mem_cons, List.mem_singleton, Event.returned.injEq, List.mem_nil_iff,
        or_false, false_or, reduceCtorEq] at h
      obtain ⟨rfl, rfl⟩ := h
      exact hself
  · intro m w hm
    show (st1.cache.set n ⟨true, v⟩)[m]? = _
    rcases List.mem_append.mp hm with h | h
    · have hc := hI.lowered_cached m w h
      by_cases hmn : n = m
      · subst hmn; exact absurd hc (hnohit w)
      · rw [List.getElem?_set_ne hmn]; exact hc
    · simp only [List.mem_cons, List.mem_singleton, Event.lowered.injEq, List.mem_nil_iff,
        or_false, reduceCtorEq] at h
      obtain ⟨rfl, rfl⟩ := h
      exact hself


theorem answered_hit {cache : List CacheEntry} {m : Nat} {e : CacheEntry}
    (he : cache[m]? = some e) (hh : e.hit = true) (k : Nat → Lowering) :
    answered cache (Lowering.select_input m k) = answered cache (k e.val) := by
  rw [answered]
  simp [he, hh]

theorem answered_miss_none {cache : List CacheEntry} {m : Nat}
    (h : ∀ e, cache[m]? = some e → e.hit = false) (k : Nat → Lowering) :
    answered cache (Lowering.select_input m k) = none := by
  rw [answered]
  cases he : cache[m]? with
  | none => rfl
  | some e => simp [h e he]

theorem resume_hit {cache : List CacheEntry} {m : Nat} {e : CacheEntry}
    (he : cache[m]? = some e) (hh : e.hit = true) (k : Nat → Lowering) :
    resume cache (Lowering.select_input m k) = resume cache (k e.val) := by
  rw [resume]
  simp [he, hh]

theorem resume_nohit {cache : List CacheEntry} {m : Nat}
    (h : ∀ e, cache[m]? = some e → e.hit = false) (k : Nat → Lowering) :
    resume cache (Lowering.select_input m k) = Lowering.select_input m k := by
  rw [resume]
  cases he : cache[m]? with
  | none => rfl
  | some e => simp [h e he]

theorem answered_kept {cache cache1 : List CacheEntry} (hk : HitsKept cache cache1) :
    ∀ (s : Lowering) (v : Nat), answered cache s = some v → answered cache1 s = some v := by
  intro s
  induction s with
  | done w => intro v h; rw [answered] at h ⊢; exact h
  | select_input m k ih =>
    intro v h
    cases he : cache[m]? with
    | none =>
      rw [answered_miss_none (fun e h' => by rw [he] at h'; cases h')] at h
      cases h
    | some e =>
      cases hh : e.hit with
      | false =>
        rw [answered_miss_none (fun e' h' => by rw [he] at h'; cases h'; exact hh)] at h
        cases h
      | true =>
        rw [answered_hit he hh] at h
        rw [answered_hit (hk m e he hh) hh]
        exact ih e.val v h

theorem resume_kept {cache cache1 : List CacheEntry} (hk : HitsKept cache cache1) :
    ∀ s : Lowering, resume cache1 (resume cache s) = resume cache1 s := by
  intro s
  induction s with
  | done w => rw [resume]
  | select_input m k ih =>
    cases he : cache[m]? with
    | none =>
      rw [resume_nohit (fun e h => by rw [he] at h; cases h)]
    | some e =>
      cases hh : e.hit with
      | false =>
        rw [resume_nohit (fun e' h => by rw [he] at h; cases h; exact hh)]
      | true =>
        rw [resume_hit he hh, resume_hit (hk m e he hh) hh]
        exact ih e.val

theorem resume_miss {st : SelectState} {m : Nat} (h : ¬ Hit st m) (k : Nat → Lowering) :
    resume st.cache (Lowering.select_input m k) = Lowering.select_input m k := by
  apply resume_nohit
  intro e he
  cases hh : e.hit with
  | false => rfl
  | true => exact absurd ⟨e, he, hh⟩ h

theorem Frame.hitsKept {st st' : SelectState} (h : Frame st st') :
    HitsKept st.cache st'.cache := by
  unfold HitsKept
  intro x e he hh
  rw [h.kept x (Or.inl ⟨e, he, hh⟩)]
  exact he

theorem Frame.busy {st st' : SelectState} (h : Frame st st') {x : Nat} (hx : Busy st x) :
    Busy st' x := by
  refine ⟨h.trace_sub _ hx.1, ?_⟩
  rintro ⟨e, he, hh⟩
  rw [h.kept x (Or.inr hx.1)] at he
  exact hx.2 ⟨e, he, hh⟩

theorem select_node_outside (sel : Nat → Lowering) (fuel n : Nat) (st : SelectState)
    (h : st.cache[n]? = none) : select_node sel fuel n st = none := by
  cases fuel <;> simp [select_node, h]

/-- A call of `select_node` for a node whose lowering is in progress does not
return: when every node of a set `S` has no value yet and its lowering, served
from the cache, first asks for a node of `S` again, no amount of fuel lets a
call for a node of `S` return. -/
theorem blocked_none (sel : Nat → Lowering) (cache : List CacheEntry) (S : Nat → Prop)
    (hS : ∀ b, S b → (∀ e, cache[b]? = some e → e.hit = false) ∧
      ∃ m k, resume cache (sel b) = Lowering.select_input m k ∧ S m) :
    ∀ fuel : Nat,
      (∀ (s : Lowering) (st : SelectState), st.cache = cache →
        (∃ m k, resume cache s = Lowering.select_input m k ∧ S m) →
        run sel fuel s st = none) ∧
      (∀ (n : Nat) (st : SelectState), st.cache = cache → S n →
        select_node sel fuel n st = none) := by
  intro fuel
  induction fuel with
  | zero =>
    refine ⟨?_, ?_⟩
    · intro s st _ _; cases s <;> simp [run]
    · intro n st _ _; simp [select_node]
  | succ f ih =>
    obtain ⟨ihA, ihB⟩ := ih
    refine ⟨?_, ?_⟩
    · intro s st hc hres
      obtain ⟨m, k, hr, hm⟩ := hres
      cases s with
      | done w => rw [resume] at hr; cases hr
      | select_input m' k' =>
        simp only [run]
        cases he : cache[m']? with
        | none =>
          rw [select_node_outside sel f m' st (by rw [hc]; exact he)]
        | some e =>
          cases hh : e.hit with
          | false =>
            rw [resume_nohit (fun e' h => by rw [he] at h; cases h; exact hh)] at hr
            simp only [Lowering.select_input.injEq] at hr
            rw [ihB m' st hc (by rw [hr.1]; exact hm)]
          | true =>
            rw [resume_hit he hh] at hr
            cases f with
            | zero => simp [select_node]
            | succ g =>
              have hs : select_node sel (g + 1) m' st =
                  some (e.val, { st with trace := st.trace ++ [Event.returned m' e.val] }) := by
                simp [select_node, hc, he, hh]
              rw [hs]
              exact ihA (k' e.val) _ hc ⟨m, k, hr, hm⟩
    · intro n st hc hn
      simp only [select_node]
      cases he : st.cache[n]? with
      | none => rfl
      | some e =>
        have hmiss : e.hit = false := (hS n hn).1 e (by rw [← hc]; exact he)
        simp only [hmiss, Bool.not_false, ↓reduceIte]
        rw [ihA (sel n) { st with trace := st.trace ++ [Event.invoke n] } hc (hS n hn).2]

theorem answers_init (sel : Nat → Lowering) (unique : Nat) :
    Answers sel (SelectState.init unique) := by
  intro n e he hh
  simp only [SelectState.init, List.getElem?_replicate] at he
  split at he
  · cases he; simp at hh
  · cases he

theorem waitsRun_init (sel : Nat → Lowering) (unique : Nat) (s : Lowering) :
    WaitsRun sel (SelectState.init unique) s := by
  intro b hb
  have := hb.1
  simp [SelectState.init] at this

/-- The invariant, the frame and the values across every completed run of a
lowering and of `select_node`, whatever the lowerings ask for. -/
theorem run_select_memo (sel : Nat → Lowering) :
    ∀ fuel : Nat,
      (∀ (s : Lowering) (st : SelectState) (v : Nat) (st' : SelectState),
        Inv st → Answers sel st → WaitsRun sel st s → run sel fuel s st = some (v, st') →
        Inv st' ∧ Answers sel st' ∧ Frame st st' ∧ answered st'.cache s = some v) ∧
      (∀ (n : Nat) (st : SelectState) (v : Nat) (st' : SelectState),
        Inv st → Answers sel st → (¬ Hit st n → WaitsSel sel st n) →
        select_node sel fuel n st = some (v, st') →
        Inv st' ∧ Answers sel st' ∧ Frame st st' ∧ st'.cache[n]? = some ⟨true, v⟩) := by
  intro fuel
  induction fuel with
  | zero =>
    refine ⟨?_, ?_⟩
    · intro s st v st' _ _ _ h
      cases s <;> simp [run] at h
    · intro n st v st' _ _ _ h
      simp [select_node] at h
  | succ f ih =>
    obtain ⟨ihA, ihB⟩ := ih
    refine ⟨?_, ?_⟩
    · intro s st v st' hI hA hW h
      cases s with
      | done w =>
        simp only [run, Option.some.injEq, Prod.mk.injEq] at h
        obtain ⟨rfl, rfl⟩ := h
        exact ⟨hI, hA, Frame.frame_refl _, rfl⟩
      | select_input m k =>
        simp only [run] at h
        cases h1 : select_node sel f m st with
        | none => simp [h1] at h
        | some r =>
          obtain ⟨v1, st1⟩ := r
          simp only [h1] at h
          have hsel : ¬ Hit st m → WaitsSel sel st m := by
            intro hnh b hb
            rcases hW b hb with h' | ⟨m', k', hbm, hr⟩
            · exact ⟨m, k, h'.trans (resume_miss hnh k), Or.inr rfl⟩
            · exact ⟨m', k', hr, Or.inl hbm⟩
          obtain ⟨hI1, hA1, hF1, hc1⟩ := ihB m st v1 st1 hI hA hsel h1
          have hk1 := hF1.hitsKept
          have hstep : resume st1.cache (Lowering.select_input m k) = resume st1.cache (k v1) :=
            resume_hit hc1 rfl k
          have hW1 : WaitsRun sel st1 (k v1) := by
            intro b hb1
            have hb : Busy st b := hF1.no_new_busy b hb1.1 hb1.2
            rcases hW b hb with h' | ⟨m', k', hbm, hr⟩
            · left
              rw [← resume_kept hk1 (sel b), h', resume_kept hk1, hstep]
            · right
              have hbm1 := hF1.busy hbm
              refine ⟨m', k', hbm1, ?_⟩
              rw [← resume_kept hk1 (sel b), hr]
              exact resume_miss hbm1.2 k'
          obtain ⟨hI2, hA2, hF2, ha2⟩ := ihA (k v1) st1 v st' hI1 hA1 hW1 h
          refine ⟨hI2, hA2, hF1.frame_trans hF2, ?_⟩
          have hm2 : st'.cache[m]? = some ⟨true, v1⟩ := by
            rw [hF2.kept m (Or.inl ⟨_, hc1, rfl⟩)]
            exact hc1
          rw [answered_hit hm2 rfl]
          exact ha2
    · intro n st v st' hI hA hWs h
      have h0 := h
      simp only [select_node] at h
      cases he : st.cache[n]? with
      | none => simp [he] at h
      | some entry =>
        simp only [he] at h
        cases hh : entry.hit with
        | true =>
          simp only [hh, Bool.not_true, Bool.false_eq_true, ↓reduceIte, Option.some.injEq,
            Prod.mk.injEq] at h
          obtain ⟨rfl, rfl⟩ := h
          obtain ⟨hI', hF'⟩ := select_node_hit_step st hI n entry he hh
          refine ⟨hI', ?_, hF', ?_⟩
          · intro x e hx hhx
            obtain ⟨a1, a2⟩ := hA x e hx hhx
            exact ⟨a1, List.mem_append_left _ a2⟩
          · show st.cache[n]? = _
            rw [he]
            cases entry
            simp_all
        | false =>
          simp only [hh, Bool.not_false, ↓reduceIte] at h
          have hnothit : ¬ Hit st n := by
            rintro ⟨e, he', hhe⟩
            rw [he] at he'; cases he'
            rw [hh] at hhe; cases hhe
          have hW := hWs hnothit
          have hfresh : Event.invoke n ∉ st.trace := by
            intro hin
            have hbn : Busy st n := ⟨hin, hnothit⟩
            have hS : ∀ b, Busy st b → (∀ e, st.cache[b]? = some e → e.hit = false) ∧
                ∃ m k, resume st.cache (sel b) = Lowering.select_input m k ∧ Busy st m := by
              intro b hb
              refine ⟨?_, ?_⟩
              · intro e hbe
                cases hhe : e.hit with
                | false => rfl
                | true => exact absurd ⟨e, hbe, hhe⟩ hb.2
              · obtain ⟨m, k, hr, hm⟩ := hW b hb
                refine ⟨m, k, hr, ?_⟩
                rcases hm with hm | hm
                · exact hm
                · rw [hm]; exact hbn
            have hnone := (blocked_none sel st.cache (Busy st) hS (f + 1)).2 n st rfl hbn
            rw [hnone] at h0
            cases h0
          cases h1 : run sel f (sel n) { st with trace := st.trace ++ [Event.invoke n] } with
          | none => simp [h1] at h
          | some r =>
            obtain ⟨v1, st1⟩ := r
            simp only [h1, Option.some.injEq, Prod.mk.injEq] at h
            obtain ⟨rfl, rfl⟩ := h
            have hI0 := select_node_enter_step st hI n hfresh
            have hA0 : Answers sel { st with trace := st.trace ++ [Event.invoke n] } := by
              intro x e hx hhx
              obtain ⟨a1, a2⟩ := hA x e hx hhx
              exact ⟨a1, List.mem_append_left _ a2⟩
            have hbn0 : Busy { st with trace := st.trace ++ [Event.invoke n] } n :=
              ⟨List.mem_append_right _ (List.mem_singleton.mpr rfl), hnothit⟩
            have hW0 : WaitsRun sel { st with trace := st.trace ++ [Event.invoke n] } (sel n) := by
              intro b hb0
              by_cases hbn : b = n
              · left; rw [hbn]
              · right
                have hbt : Event.invoke b ∈ st.trace := by
                  rcases List.mem_append.mp hb0.1 with h' | h'
                  · exact h'
                  · simp only [List.mem_singleton, Event.invoke.injEq] at h'
                    exact absurd h' hbn
                obtain ⟨m, k, hr, hm⟩ := hW b ⟨hbt, hb0.2⟩
                refine ⟨m, k, ?_, hr⟩
                rcases hm with hm | hm
                · exact ⟨List.mem_append_left _ hm.1, hm.2⟩
                · rw [hm]; exact hbn0
            obtain ⟨hI1, hA1, hF1, ha1⟩ := ihA (sel n) _ v1 st1 hI0 hA0 hW0 h1
            have hn1 : st1.cache[n]? = some entry := by
              rw [hF1.kept n (Or.inr (by simp))]; exact he
            have hlen : n < st1.cache.length := by
              by_contra hc
              rw [List.getElem?_eq_none (by omega)] at hn1
              cases hn1
            have hself : (st1.cache.set n ⟨true, v1⟩)[n]? = some ⟨true, v1⟩ := by
              simp [List.getElem?_set_self hlen]
            have hk : HitsKept st1.cache (st1.cache.set n ⟨true, v1⟩) := by
              intro x e hx hhx
              have hxn : n ≠ x := by
                rintro rfl
                rw [hn1] at hx
                cases hx
                rw [hh] at hhx
                cases hhx
              rw [List.getElem?_set_ne hxn]
              exact hx
            refine ⟨select_node_leave_step st1 hI1 n v1 entry hn1 hh, ?_, ?_, hself⟩
            · intro x e hx hhx
              have hx' : (st1.cache.set n ⟨true, v1⟩)[x]? = some e := hx
              show answered (st1.cache.set n ⟨true, v1⟩) (sel x) = some e.val ∧
                Event.invoke x ∈ st1.trace ++ [Event.lowered n v1, Event.returned n v1]
              by_cases hxn : n = x
              · subst hxn
                rw [hself] at hx'
                cases hx'
                refine ⟨answered_kept hk (sel n) v1 ha1, ?_⟩
                exact List.mem_append_left _
                  (hF1.trace_sub _ (List.mem_append_right _ (List.mem_singleton.mpr rfl)))
              · rw [List.getElem?_set_ne hxn] at hx'
                obtain ⟨a1, a2⟩ := hA1 x e hx' hhx
                exact ⟨answered_kept hk (sel x) e.val a1, List.mem_append_left _ a2⟩
            · refine ⟨?_, ?_, ?_, ?_⟩
              · simp [hF1.length_eq]
              · intro x hx
                have hxn : n ≠ x := by
                  rintro rfl
                  rcases hx with hx | hx
                  · exact hnothit hx
                  · exact hfresh hx
                show (st1.cache.set n ⟨true, v1⟩)[x]? = st.cache[x]?
                rw [List.getElem?_set_ne hxn]
                have hx0 : Hit { st with trace := st.trace ++ [Event.invoke n] } x ∨
                    Event.invoke x ∈ st.trace ++ [Event.invoke n] := by
                  rcases hx with hx | hx
                  · exact Or.inl hx
                  · exact Or.inr (List.mem_append_left _ hx)
                exact hF1.kept x hx0
              · intro e hin
                exact List.mem_append_left _ (hF1.trace_sub e (List.mem_append_left _ hin))
              · intro x hx hnx
                have hxn : n ≠ x := by
                  rintro rfl
                  exact hnx ⟨⟨true, v1⟩, hself, rfl⟩
                have hx1 : Event.invoke x ∈ st1.trace := by
                  rcases List.mem_append.mp hx with h' | h'
                  · exact h'
                  · simp at h'
                have hnx1 : ¬ Hit st1 x := by
                  rintro ⟨e, he1, hhe⟩
                  exact hnx ⟨e, by
                    show (st1.cache.set n ⟨true, v1⟩)[x]? = some e
                    rw [List.getElem?_set_ne hxn]; exact he1, hhe⟩
                obtain ⟨hx0, hnx0⟩ := hF1.no_new_busy x hx1 hnx1
                refine ⟨?_, hnx0⟩
                rcases List.mem_append.mp hx0 with h' | h'
                · exact h'
                · simp only [List.mem_singleton, Event.invoke.injEq] at h'
                  exact absurd h'.symm hxn

theorem CallsWithin.mono {ok ok' : Nat → Prop} (h : ∀ m, ok m → ok' m) :
    ∀ s : Lowering, s.CallsWithin ok → s.CallsWithin ok' := by
  intro s
  induction s with
  | done v => intro _; trivial
  | select_input m k ih => intro hs; exact ⟨h m hs.1, fun v => ih v (hs.2 v)⟩

/-- More fuel does not change the result of a completed run. -/
theorem run_select_fuel_mono (sel : Nat → Lowering) :
    ∀ fuel : Nat,
      (∀ s st r, run sel fuel s st = some r → ∀ fuel', fuel ≤ fuel' → run sel fuel' s st = some r) ∧
      (∀ n st r, select_node sel fuel n st = some r →
        ∀ fuel', fuel ≤ fuel' → select_node sel fuel' n st = some r) := by
  intro fuel
  induction fuel with
  | zero =>
    refine ⟨?_, ?_⟩
    · intro s st r h; cases s <;> simp [run] at h
    · intro n st r h; simp [select_node] at h
  | succ f ih =>
    obtain ⟨ihA, ihB⟩ := ih
    refine ⟨?_, ?_⟩
    · intro s st r h fuel' hle
      obtain ⟨g, rfl⟩ : ∃ g, fuel' = g + 1 := ⟨fuel' - 1, by omega⟩
      have hfg : f ≤ g := by omega
      cases s with
      | done w => simpa [run] using h
      | select_input m k =>
        simp only [run] at h ⊢
        cases h1 : select_node sel f m st with
        | none => simp [h1] at h
        | some r1 =>
          obtain ⟨v1, st1⟩ := r1
          simp only [h1] at h
          rw [ihB m st _ h1 g hfg]
          exact ihA _ _ _ h g hfg
    · intro n st r h fuel' hle
      obtain ⟨g, rfl⟩ : ∃ g, fuel' = g + 1 := ⟨fuel' - 1, by omega⟩
      have hfg : f ≤ g := by omega
      simp only [select_node] at h ⊢
      cases he : st.cache[n]? with
      | none => simp [he] at h
      | some entry =>
        simp only [he] at h ⊢
        cases hh : entry.hit with
        | true => simpa [hh] using h
        | false =>
          simp only [hh, Bool.not_false, ↓reduceIte] at h ⊢
          cases h1 : run sel f (sel n) { st with trace := st.trace ++ [Event.invoke n] } with
          | none => simp [h1] at h
          | some r1 =>
            rw [ihA _ _ _ h1 g hfg]
            simpa [h1] using h

/-- A lowering whose requests can all be answered runs to completion. -/
theorem run_total (sel : Nat → Lowering) (unique : Nat) (ok : Nat → Prop)
    (hsel : ∀ m, ok m → ∀ st : SelectState, st.cache.length = unique →
      ∃ fuel v st', select_node sel fuel m st = some (v, st') ∧ st'.cache.length = unique) :
    ∀ s : Lowering, s.CallsWithin ok → ∀ st : SelectState, st.cache.length = unique →
      ∃ fuel v st', run sel fuel s st = some (v, st') ∧ st'.cache.length = unique := by
  intro s
  induction s with
  | done w => intro _ st hl; exact ⟨1, w, st, rfl, hl⟩
  | select_input m k ih =>
    intro hs st hl
    obtain ⟨f1, v1, st1, h1, hl1⟩ := hsel m hs.1 st hl
    obtain ⟨f2, v2, st2, h2, hl2⟩ := ih v1 (hs.2 v1) st1 hl1
    refine ⟨max f1 f2 + 1, v2, st2, ?_, hl2⟩
    simp only [run]
    rw [(run_select_fuel_mono sel f1).2 m st _ h1 (max f1 f2) (le_max_left _ _)]
    exact (run_select_fuel_mono sel f2).1 _ _ _ h2 (max f1 f2) (le_max_right _ _)

/-- With lowerings that follow the dependency order, `select_node` returns on
every node of the cache. -/
theorem select_node_total (sel : Nat → Lowering) (rank : Nat → Nat) (unique : Nat)
    (hdep : DependencyOrder sel rank unique) :
    ∀ (R n : Nat), rank n < R → n < unique → ∀ st : SelectState, st.cache.length = unique →
      ∃ fuel v st', select_node sel fuel n st = some (v, st') ∧ st'.cache.length = unique := by
  intro R
  induction R with
  | zero => intro n h; omega
  | succ R ih =>
    intro n hr hn st hl
    have hlt : n < st.cache.length := by omega
    cases hh : (st.cache[n]).hit with
    | true =>
      refine ⟨1, st.cache[n].val,
        { st with trace := st.trace ++ [Event.returned n st.cache[n].val] }, ?_, hl⟩
      simp [select_node, List.getElem?_eq_getElem hlt, hh]
    | false =>
      have hrun := run_total sel unique (fun m => rank m < rank n ∧ m < unique)
        (fun m hm st hst => ih m (by omega) hm.2 st hst) (sel n) (hdep n)
        { st with trace := st.trace ++ [Event.invoke n] } hl
      obtain ⟨f, v, st1, h1, hl1⟩ := hrun
      refine ⟨f + 1, v, SelectState.mk (st1.cache.set n ⟨true, v⟩)
        (st1.trace ++ [Event.lowered n v, Event.returned n v]), ?_, ?_⟩
      · simp only [select_node, List.getElem?_eq_getElem hlt, hh, Bool.not_false, ↓reduceIte, h1]
      · simp [hl1]

/-- Claim C4. For every table of lowerings and every client of `select_node`
(any sequence of calls, each one free to depend on the values returned before),
in every run from the fresh cache that returns: the value the client ends with
is the one it gets when each of its calls is answered with the value in the
final cache entry of the node asked for, so all calls for a node returned that
one value; the entry of every node marked `hit` holds the value its lowering
gives on the cached values of the nodes it asked for, that lowering was invoked
exactly once and produced the cached value; no lowering was invoked more than
once, every lowering invoked has its entry marked `hit`, and every value
produced by a lowering or returned by a call of `select_node` is the value of
the node's entry. When the lowerings follow a dependency order, every client
that stays inside the cache does return, with the same result for all larger
amounts of fuel. -/
theorem C4_select_node_lowers_once (sel : Nat → Lowering) (unique : Nat) (client : Lowering) :
    (∀ (fuel v : Nat) (st : SelectState),
      run sel fuel client (SelectState.init unique) = some (v, st) →
        answered st.cache client = some v ∧
        (∀ (n : Nat) (e : CacheEntry), st.cache[n]? = some e → e.hit = true →
          answered st.cache (sel n) = some e.val ∧
          st.trace.count (Event.invoke n) = 1 ∧ Event.lowered n e.val ∈ st.trace) ∧
        (∀ n, st.trace.count (Event.invoke n) ≤ 1) ∧
        (∀ n, Event.invoke n ∈ st.trace → ∃ w, st.cache[n]? = some ⟨true, w⟩) ∧
        (∀ n w, Event.lowered n w ∈ st.trace ∨ Event.returned n w ∈ st.trace →
          st.cache[n]? = some ⟨true, w⟩)) ∧
    (∀ rank : Nat → Nat, DependencyOrder sel rank unique →
      client.CallsWithin (fun m => m < unique) →
      ∃ fuel v st, run sel fuel client (SelectState.init unique) = some (v, st) ∧
        ∀ fuel', fuel ≤ fuel' →
          run sel fuel' client (SelectState.init unique) = some (v, st)) := by
  refine ⟨?_, ?_⟩
  · intro fuel v st h
    obtain ⟨hI, hA, hF, ha⟩ := (run_select_memo sel fuel).1 client (SelectState.init unique) v st
      (inv_init unique) (answers_init sel unique) (waitsRun_init sel unique client) h
    refine ⟨ha, ?_, hI.once, ?_, ?_⟩
    · intro n e he hh
      obtain ⟨a1, a2⟩ := hA n e he hh
      refine ⟨a1, ?_, hI.hit_lowered n e he hh⟩
      have h1 := hI.once n
      have h2 : 0 < st.trace.count (Event.invoke n) := List.count_pos_iff.mpr a2
      omega
    · intro n hn
      by_contra hc
      have hnot : ¬ Hit st n := by
        rintro ⟨e, he, hh⟩
        apply hc
        refine ⟨e.val, ?_⟩
        rw [he]
        cases e
        simp_all
      have := (hF.no_new_busy n hn hnot).1
      simp [SelectState.init] at this
    · intro n w hw
      rcases hw with hw | hw
      · exact hI.lowered_cached n w hw
      · exact hI.returned_cached n w hw
  · intro rank hdep hclient
    obtain ⟨fuel, v, st, h, _⟩ := run_total sel unique (fun m => m < unique)
      (fun m hm st hst => select_node_total sel rank unique hdep (rank m + 1) m (by omega) hm st hst)
      client hclient (SelectState.init unique) (by simp [SelectState.init])
    exact ⟨fuel, v, st, h, fun fuel' hle => (run_select_fuel_mono sel fuel).1 _ _ _ h fuel' hle⟩

/-- The sample lowering follows the dependency order given by the node index. -/
theorem sample_sel_order : DependencyOrder sample_sel id 3 := by
  intro n
  unfold sample_sel
  split
  · trivial
  · rename_i h
    simp only [Lowering.CallsWithin, id]
    refine ⟨by omega, fun _ => ⟨by omega, fun _ => trivial⟩⟩

/-- Witness of the C4 theorem: the sample lowering and a client that asks for
node 2, for node 1 and for node 2 again, and compares the two values it got
for node 2. The run returns; the client ends with 1 (the two values are the
same), which is also what the final cache answers. -/
theorem C4_witness :
    ∃ fuel st, run sample_sel fuel client_twice (SelectState.init 3) = some (1, st) ∧
      answered st.cache client_twice = some 1 ∧
      (∀ n, st.trace.count (Event.invoke n) ≤ 1) ∧
      st.trace.count (Event.invoke 2) = 1 := by
  obtain ⟨hA, hB⟩ := C4_select_node_lowers_once sample_sel 3 client_twice
  obtain ⟨fuel, v, st, hr, hmono⟩ := hB id sample_sel_order
    (by simp [client_twice, Lowering.CallsWithin])
  have hv : (run sample_sel (max fuel 8) client_twice (SelectState.init 3)).map Prod.fst =
      some v := by rw [hmono _ (le_max_left _ _)]; rfl
  have h8 : (run sample_sel 8 client_twice (SelectState.init 3)).map Prod.fst = some 1 := by
    decide
  have h8' : (run sample_sel (max fuel 8) client_twice (SelectState.init 3)).map Prod.fst =
      some 1 := by
    cases h : run sample_sel 8 client_twice (SelectState.init 3) with
    | none => rw [h] at h8; cases h8
    | some r =>
      rw [(run_select_fuel_mono sample_sel 8).1 _ _ _ h (max fuel 8) (le_max_right _ _)]
      rw [h] at h8
      exact h8
  have hv1 : v = 1 := by
    rw [hv] at h8'
    simpa using h8'
  subst hv1
  obtain ⟨h1, h2, h3, _, _⟩ := hA fuel 1 st hr
  refine ⟨fuel, st, hr, h1, h3, ?_⟩
  have h1' := h1
  unfold client_twice at h1'
  have hhit : ∃ e, st.cache[2]? = some e ∧ e.hit = true := by
    cases he : st.cache[2]? with
    | none => rw [answered_miss_none (fun e h' => by rw [he] at h'; cases h')] at h1'; cases h1'
    | some e =>
      cases hh : e.hit with
      | false =>
        rw [answered_miss_none (fun e' h' => by rw [he] at h'; cases h'; exact hh)] at h1'
        cases h1'
      | true => exact ⟨e, rfl, hh⟩
  obtain ⟨e, he, hh⟩ := hhit
  exact (h2 2 e he hh).2.1

end Selector

/-! ## Part 5. Derived-pointer bases -/

namespace Selector

theorem CallSeq.append {rec : Graph → Nat → Res (Nat × Graph)} {l1 l2 : List Nat}
    {a b c : Graph} (h1 : CallSeq rec l1 a b) (h2 : CallSeq rec l2 b c) :
    CallSeq rec (l1 ++ l2) a c := by
  induction h1 with
  | nil g => simpa using h2
  | cons hc _ ih => exact CallSeq.cons hc (ih h2)

theorem phi_scan_calls (rec : Graph → Nat → Res (Nat × Graph)) (base : Nat) :
    ∀ (ys : List Nat) (g : Graph) (flag : Bool) (g' : Graph),
      phi_scan rec base ys g = .ok (flag, g') →
      ∃ called, CallSeq rec called g g' ∧ (∀ y ∈ called, y ∈ ys) ∧ (flag = true → called = ys) := by
  intro ys
  induction ys with
  | nil =>
    intro g flag g' h
    simp only [phi_scan, Res.ok.injEq, Prod.mk.injEq] at h
    obtain ⟨_, rfl⟩ := h
    exact ⟨[], CallSeq.nil _, by simp, fun _ => rfl⟩
  | cons x rest ih =>
    intro g flag g' h
    simp only [phi_scan] at h
    cases hr : rec g x with
    | fatal => rw [hr] at h; cases h
    | out_of_fuel => rw [hr] at h; cases h
    | ok r =>
      obtain ⟨b, g1⟩ := r
      simp only [hr] at h
      by_cases hb : base = b
      · simp only [hb, ne_eq, not_true_eq_false, ↓reduceIte] at h
        subst hb
        obtain ⟨called, hc, hsub, hall⟩ := ih g1 flag g' h
        refine ⟨x :: called, CallSeq.cons hr hc, ?_, ?_⟩
        · intro y hy
          rcases List.mem_cons.mp hy with e | e
          · exact e ▸ List.mem_cons_self _ _
          · exact List.mem_cons_of_mem _ (hsub y e)
        · intro hf; rw [hall hf]
      · simp only [ne_eq, hb, not_false_eq_true, ↓reduceIte, Res.ok.injEq, Prod.mk.injEq] at h
        obtain ⟨rfl, rfl⟩ := h
        exact ⟨[x], CallSeq.cons hr (CallSeq.nil _), by simp, by simp⟩

theorem phi_bases_calls (rec : Graph → Nat → Res (Nat × Graph)) :
    ∀ (ys : List Nat) (g : Graph) (bs : List Nat) (g' : Graph),
      phi_bases rec ys g = .ok (bs, g') → CallSeq rec ys g g' := by
  intro ys
  induction ys with
  | nil =>
    intro g bs g' h
    simp only [phi_bases, Res.ok.injEq, Prod.mk.injEq] at h
    obtain ⟨_, rfl⟩ := h
    exact CallSeq.nil _
  | cons x rest ih =>
    intro g bs g' h
    simp only [phi_bases] at h
    cases hr : rec g x with
    | fatal => rw [hr] at h; cases h
    | out_of_fuel => rw [hr] at h; cases h
    | ok r =>
      obtain ⟨b, g1⟩ := r
      simp only [hr] at h
      cases hr2 : phi_bases rec rest g1 with
      | fatal => rw [hr2] at h; cases h
      | out_of_fuel => rw [hr2] at h; cases h
      | ok r2 =>
        obtain ⟨bs2, g2⟩ := r2
        simp only [hr2, Res.ok.injEq, Prod.mk.injEq] at h
        obtain ⟨_, rfl⟩ := h
        exact CallSeq.cons hr (ih g1 bs2 g2 hr2)

theorem make_base_phi_inv (meet : NodeType → NodeType → NodeType) (g : Graph)
    (derived region base : Nat) (bases : List Nat) (b : Nat) (g' : Graph)
    (h : make_base_phi meet g derived region base bases = .ok (b, g')) :
    ∃ gk : Graph, gk.derived_base = g.derived_base ∧
      (∀ (i : Nat) (n : Node), g.nodes[i]? = some n → gk.nodes[i]? = some n) ∧
      g' = gk.memoize derived b := by
  unfold make_base_phi at h
  have hnodes : ∀ (extra : Node) (i : Nat) (n : Node), g.nodes[i]? = some n →
      (g.nodes ++ [extra])[i]? = some n := by
    intro extra i n hi
    have hlt : i < g.nodes.length := by
      by_contra hc
      rw [List.getElem?_eq_none (by omega)] at hi
      cases hi
    rw [List.getElem?_append_left hlt]; exact hi
  split at h
  · rename_i bn ts hbn hts
    simp only at h
    split at h
    · cases h
    · rename_i bi hbi
      split at h
      · cases h
      · rename_i blk hblk
        split at h
        · cases h
        · rename_i i hs
          simp only [Res.ok.injEq, Prod.mk.injEq] at h
          obtain ⟨rfl, rfl⟩ := h
          refine ⟨_, ?_, ?_, rfl⟩ <;> first | rfl | exact hnodes _
        · rename_i phi hs
          simp only [Res.ok.injEq, Prod.mk.injEq] at h
          obtain ⟨rfl, rfl⟩ := h
          refine ⟨_, ?_, ?_, rfl⟩ <;> first | rfl | exact hnodes _
        · rename_i hs
          simp only [Res.ok.injEq, Prod.mk.injEq] at h
          obtain ⟨rfl, rfl⟩ := h
          refine ⟨_, ?_, ?_, rfl⟩ <;> first | rfl | exact hnodes _
  · cases h

/-- The three ways in which a call of `find_derived_base` completes: a memo
hit; a node that is not on the Phi path, memoized at once; a Phi, after
completed calls on exactly its inputs `in(1) ..`. -/
theorem find_derived_base_inv (meet : NodeType → NodeType → NodeType) (fuel : Nat) (g : Graph)
    (x b : Nat) (g' : Graph) (h : find_derived_base meet (fuel + 1) g x = .ok (b, g')) :
    (map_find x g.derived_base = some b ∧ g' = g) ∨
    (map_find x g.derived_base = none ∧ ∃ d, g.nodes[x]? = some d ∧
      ((¬ d.phi_path ∧ g' = g.memoize x b) ∨
       (d.phi_path ∧ ∃ (L : List Nat) (gk gk' : Graph),
         CallSeq (find_derived_base meet fuel) L g gk ∧
         (∀ y, y ∈ L ↔ y ∈ d.ins.drop 1) ∧ gk'.derived_base = gk.derived_base ∧
         (∀ (i : Nat) (n : Node), gk.nodes[i]? = some n → gk'.nodes[i]? = some n) ∧
         g' = gk'.memoize x b))) := by
  simp only [find_derived_base] at h
  cases hm : map_find x g.derived_base with
  | some v =>
    simp only [hm, Res.ok.injEq, Prod.mk.injEq] at h
    obtain ⟨rfl, rfl⟩ := h
    exact Or.inl ⟨rfl, rfl⟩
  | none =>
    simp only [hm] at h
    refine Or.inr ⟨rfl, ?_⟩
    cases hd : g.nodes[x]? with
    | none => simp [hd] at h
    | some d =>
      simp only [hd] at h
      refine ⟨d, rfl, ?_⟩
      by_cases hs : d.bottom_type.sanity = true
      swap
      · simp [hs] at h
      simp only [hs, Bool.not_true, Bool.false_eq_true, ↓reduceIte] at h
      by_cases hb : d.bottom_type.is_base = true
      · simp only [hb, ↓reduceIte, Res.ok.injEq, Prod.mk.injEq] at h
        obtain ⟨rfl, rfl⟩ := h
        exact Or.inl ⟨fun hp => by simp [hp.2.1] at hb, rfl⟩
      simp only [hb, Bool.false_eq_true, ↓reduceIte] at h
      by_cases hc : d.is_Con = true
      · simp only [hc, ↓reduceIte, Res.ok.injEq, Prod.mk.injEq] at h
        obtain ⟨rfl, rfl⟩ := h
        exact Or.inl ⟨fun hp => by simp [hp.2.2.1] at hc, rfl⟩
      simp only [hc, Bool.false_eq_true, ↓reduceIte] at h
      by_cases hp : d.is_Phi = true
      swap
      · simp only [hp, Bool.not_false, Bool.false_eq_true, ↓reduceIte, Bool.not_eq_true] at h
        split at h
        · cases h
        · split at h
          · cases h
          · simp only [Res.ok.injEq, Prod.mk.injEq] at h
            obtain ⟨rfl, rfl⟩ := h
            exact Or.inl ⟨fun hq => hp hq.2.2.2, rfl⟩
      simp only [hp, Bool.not_true, Bool.false_eq_true, ↓reduceIte] at h
      have hpath : d.phi_path := ⟨hs, by simpa using hb, by simpa using hc, hp⟩
      refine Or.inr ⟨hpath, ?_⟩
      split at h
      swap
      · cases h
      rename_i region in1 hreg hin1
      have hdrop : d.ins.drop 1 = in1 :: d.ins.drop 2 := by
        have hlt : 1 < d.ins.length := by
          by_contra hcon
          rw [List.getElem?_eq_none (by omega)] at hin1
          cases hin1
        rw [List.getElem?_eq_getElem hlt] at hin1
        cases hin1
        exact List.drop_eq_getElem_cons hlt
      cases h1 : find_derived_base meet fuel g in1 with
      | fatal => rw [h1] at h; cases h
      | out_of_fuel => rw [h1] at h; cases h
      | ok r1 =>
        obtain ⟨base, g1⟩ := r1
        simp only [h1] at h
        cases h2 : phi_scan (find_derived_base meet fuel) base (d.ins.drop 2) g1 with
        | fatal => rw [h2] at h; cases h
        | out_of_fuel => rw [h2] at h; cases h
        | ok r2 =>
          obtain ⟨flag, g2⟩ := r2
          obtain ⟨called, hcs, hsub, hall⟩ := phi_scan_calls _ _ _ _ _ _ h2
          simp only [h2] at h
          cases flag with
          | true =>
            simp only [Res.ok.injEq, Prod.mk.injEq] at h
            obtain ⟨rfl, rfl⟩ := h
            refine ⟨in1 :: called, g2, g2, CallSeq.cons h1 hcs, ?_, rfl, fun _ _ hi => hi, rfl⟩
            intro y
            rw [hall rfl, hdrop]
          | false =>
            simp only at h
            cases h3 : phi_bases (find_derived_base meet fuel) (d.ins.drop 1) g2 with
            | fatal => rw [h3] at h; cases h
            | out_of_fuel => rw [h3] at h; cases h
            | ok r3 =>
              obtain ⟨bases, g3⟩ := r3
              simp only [h3] at h
              obtain ⟨gk, hmemo, hnodes, rfl⟩ := make_base_phi_inv _ _ _ _ _ _ _ _ h
              have hcs3 := phi_bases_calls _ _ _ _ _ h3
              refine ⟨(in1 :: called) ++ d.ins.drop 1, g3, gk,
                (CallSeq.cons h1 hcs).append hcs3, ?_, hmemo, hnodes, rfl⟩
              intro y
              constructor
              · intro hy
                rcases List.mem_append.mp hy with e | e
                · rcases List.mem_cons.mp e with e' | e'
                  · rw [hdrop, e']; exact List.mem_cons_self _ _
                  · rw [hdrop]; exact List.mem_cons_of_mem _ (hsub y e')
                · exact e
              · intro hy
                exact List.mem_append_right _ hy

theorem map_find_insert_self {m : List (Nat × Nat)} {x : Nat} (b : Nat)
    (h : map_find x m = none) : map_find x (map_insert m x b) = some b := by
  simp [map_insert, h, map_find]

theorem map_find_insert_of_some {m : List (Nat × Nat)} {k v : Nat} (x b : Nat)
    (h : map_find k m = some v) : map_find k (map_insert m x b) = some v := by
  unfold map_insert
  split
  · exact h
  · rename_i hx
    by_cases e : x = k
    · subst e; rw [hx] at h; cases h
    · simp [map_find, e, h]

theorem map_find_insert_ne {m : List (Nat × Nat)} {k x : Nat} (b : Nat) (h : k ≠ x) :
    map_find k (map_insert m x b) = map_find k m := by
  unfold map_insert
  split
  · rfl
  · simp [map_find, Ne.symm h]

theorem Ext.ext_refl (g : Graph) : Ext g g := ⟨fun _ _ h => h, fun _ _ h => h⟩

theorem Ext.ext_trans {a b c : Graph} (h1 : Ext a b) (h2 : Ext b c) : Ext a c :=
  ⟨fun i n h => h2.nodes i n (h1.nodes i n h), fun k v h => h2.memo k v (h1.memo k v h)⟩

theorem Ext.memo_none {a b : Graph} (h : Ext a b) {k : Nat}
    (hk : map_find k b.derived_base = none) : map_find k a.derived_base = none := by
  cases hv : map_find k a.derived_base with
  | none => rfl
  | some v => rw [h.memo k v hv] at hk; cases hk

theorem Ext.ext_memoize (g : Graph) (x b : Nat) : Ext g (g.memoize x b) :=
  ⟨fun _ _ h => h, fun _ _ h => map_find_insert_of_some x b h⟩

theorem Ext.of_local {gk gk' : Graph} (x b : Nat) (hm : gk'.derived_base = gk.derived_base)
    (hn : ∀ (i : Nat) (n : Node), gk.nodes[i]? = some n → gk'.nodes[i]? = some n) :
    Ext gk (gk'.memoize x b) :=
  Ext.ext_trans ⟨hn, fun k v h => by rw [hm]; exact h⟩ (Ext.ext_memoize gk' x b)

theorem CallSeq.calls_ext {rec : Graph → Nat → Res (Nat × Graph)}
    (hrec : ∀ g y b g1, rec g y = .ok (b, g1) → Ext g g1) {L : List Nat} {g gk : Graph}
    (h : CallSeq rec L g gk) : Ext g gk := by
  induction h with
  | nil g => exact Ext.ext_refl g
  | cons hc _ ih => exact (hrec _ _ _ _ hc).ext_trans ih

/-- A completed call keeps every node and every memo entry. -/
theorem find_derived_base_ext (meet : NodeType → NodeType → NodeType) :
    ∀ (fuel : Nat) (g : Graph) (x b : Nat) (g' : Graph),
      find_derived_base meet fuel g x = .ok (b, g') → Ext g g' := by
  intro fuel
  induction fuel with
  | zero => intro g x b g' h; simp [find_derived_base] at h
  | succ f ih =>
    intro g x b g' h
    rcases find_derived_base_inv meet f g x b g' h with ⟨_, rfl⟩ | ⟨_, d, _, hcase⟩
    · exact Ext.ext_refl _
    · rcases hcase with ⟨_, rfl⟩ | ⟨_, L, gk, gk', hcs, _, hm, hn, rfl⟩
      · exact Ext.ext_memoize _ _ _
      · exact (hcs.calls_ext ih).ext_trans (Ext.of_local x b hm hn)

theorem CallSeq.sinv {rec : Graph → Nat → Res (Nat × Graph)} {S : Nat → Prop}
    (hrec : ∀ g y b g1, Sinv S g → rec g y = .ok (b, g1) → ¬ S y ∧ Sinv S g1)
    {L : List Nat} {g gk : Graph} (h : CallSeq rec L g gk) :
    Sinv S g → Sinv S gk ∧ ∀ y ∈ L, ¬ S y := by
  induction h with
  | nil g => intro hs; exact ⟨hs, by simp⟩
  | cons hc _ ih =>
    intro hs
    obtain ⟨hy, hs1⟩ := hrec _ _ _ _ hs hc
    obtain ⟨hs2, hall⟩ := ih hs1
    refine ⟨hs2, ?_⟩
    intro z hz
    rcases List.mem_cons.mp hz with e | e
    · rw [e]; exact hy
    · exact hall z e

theorem Sinv.sinv_memoize {S : Nat → Prop} {gk gk' : Graph} {x : Nat} (b : Nat) (hs : Sinv S gk)
    (hx : ¬ S x) (hm : gk'.derived_base = gk.derived_base)
    (hn : ∀ (i : Nat) (n : Node), gk.nodes[i]? = some n → gk'.nodes[i]? = some n) :
    Sinv S (gk'.memoize x b) := by
  intro z hz
  obtain ⟨h1, d, h2, h3, h4⟩ := hs z hz
  have hzx : z ≠ x := fun e => hx (e ▸ hz)
  refine ⟨?_, d, hn z d h2, h3, h4⟩
  show map_find z (map_insert gk'.derived_base x b) = none
  rw [map_find_insert_ne b hzx, hm]; exact h1

/-- A call on a node of a set `S` as in `Sinv` never completes, and a completed
call leaves the set as it was. -/
theorem find_derived_base_sinv (meet : NodeType → NodeType → NodeType) (S : Nat → Prop) :
    ∀ (fuel : Nat) (g : Graph) (x b : Nat) (g' : Graph),
      Sinv S g → find_derived_base meet fuel g x = .ok (b, g') → ¬ S x ∧ Sinv S g' := by
  intro fuel
  induction fuel with
  | zero => intro g x b g' _ h; simp [find_derived_base] at h
  | succ f ih =>
    intro g x b g' hs h
    rcases find_derived_base_inv meet f g x b g' h with ⟨hm, rfl⟩ | ⟨hm, d, hd, hcase⟩
    · refine ⟨fun hx => ?_, hs⟩
      rw [(hs x hx).1] at hm; cases hm
    · rcases hcase with ⟨hnp, rfl⟩ | ⟨_, L, gk, gk', hcs, hL, hmemo, hn, rfl⟩
      · have hx : ¬ S x := by
          intro hx
          obtain ⟨_, d', hd', hp, _⟩ := hs x hx
          rw [hd] at hd'; cases hd'
          exact hnp hp
        exact ⟨hx, Sinv.sinv_memoize b hs hx rfl (fun _ _ hi => hi)⟩
      · obtain ⟨hsk, hall⟩ := hcs.sinv ih hs
        have hx : ¬ S x := by
          intro hx
          obtain ⟨_, d', hd', _, y, hy, hSy⟩ := hs x hx
          rw [hd] at hd'; cases hd'
          exact hall y ((hL y).mpr hy) hSy
        exact ⟨hx, Sinv.sinv_memoize b hsk hx hmemo hn⟩

/-- In a sequence of completed calls that memoizes `D`, one call does it. -/
theorem CallSeq.first_memo {rec : Graph → Nat → Res (Nat × Graph)}
    (hrec : ∀ g y b g1, rec g y = .ok (b, g1) → Ext g g1) {D : Nat} {L : List Nat}
    {g gk : Graph} (h : CallSeq rec L g gk) :
    map_find D g.derived_base = none → map_find D gk.derived_base ≠ none →
    ∃ y gj b gj1, y ∈ L ∧ Ext g gj ∧ rec gj y = .ok (b, gj1) ∧ Ext gj1 gk ∧
      map_find D gj.derived_base = none ∧ map_find D gj1.derived_base ≠ none := by
  induction h with
  | nil g => intro h1 h2; exact absurd h1 h2
  | @cons y b ys g g1 g2 hc hrest ih =>
    intro h1 h2
    by_cases hD : map_find D g1.derived_base = none
    · obtain ⟨y', gj, b', gj1, hy, he, hcall, he2, hn1, hn2⟩ := ih hD h2
      exact ⟨y', gj, b', gj1, List.mem_cons_of_mem _ hy, (hrec _ _ _ _ hc).ext_trans he, hcall, he2,
        hn1, hn2⟩
    · exact ⟨y, g, b, g1, List.mem_cons_self _ _, Ext.ext_refl _, hc, hrest.calls_ext hrec, h1, hD⟩

/-- The calls made for the inputs of a Phi never memoize the Phi itself. -/
theorem no_self_memo (meet : NodeType → NodeType → NodeType) (fuel : Nat)
    (hN : MemoBy meet fuel) (g : Graph) (x : Nat) (d : Node) (L : List Nat) (gk : Graph)
    (hm : map_find x g.derived_base = none) (hd : g.nodes[x]? = some d) (hp : d.phi_path)
    (hL : ∀ y ∈ L, y ∈ d.ins.drop 1) (hcs : CallSeq (find_derived_base meet fuel) L g gk) :
    map_find x gk.derived_base = none := by
  by_contra hne
  obtain ⟨y, gj, b, gj1, hy, he, hcall, _, hn1, hn2⟩ :=
    hcs.first_memo (find_derived_base_ext meet fuel) hm hne
  obtain ⟨gs, fs, r, he1, _, hms, hrun, hchain⟩ := hN gj y b gj1 x hcall hn1 hn2
  have hS : Sinv (ChainTo gs x) gs := by
    intro z hz
    cases hz with
    | here =>
      exact ⟨hms, d, he1.nodes x d (he.nodes x d hd), hp, y, hL y hy, hchain⟩
    | step h1 h2 h3 h4 h5 => exact ⟨h1, _, h2, h3, _, h4, h5⟩
  obtain ⟨r1, r2⟩ := r
  exact (find_derived_base_sinv meet (ChainTo gs x) fs gs x r1 r2 hS hrun).1 ChainTo.here

theorem memo_by (meet : NodeType → NodeType → NodeType) : ∀ fuel, MemoBy meet fuel := by
  intro fuel
  induction fuel with
  | zero => intro g x b g' D h; simp [find_derived_base] at h
  | succ f ih =>
    intro g x b g' D h hD hD'
    have hext := find_derived_base_ext meet (f + 1) g x b g' h
    rcases find_derived_base_inv meet f g x b g' h with ⟨_, rfl⟩ | ⟨hm, d, hd, hcase⟩
    · exact absurd hD hD'
    · rcases hcase with ⟨_, rfl⟩ | ⟨hp, L, gk, gk', hcs, hL, hmemo, hn, rfl⟩
      · have hDx : D = x := by
          by_contra hne
          apply hD'
          show map_find D (map_insert g.derived_base x b) = none
          rw [map_find_insert_ne b hne]; exact hD
        subst hDx
        exact ⟨g, f + 1, _, Ext.ext_refl _, hext, hD, h, ChainTo.here⟩
      · by_cases hDx : D = x
        · subst hDx
          exact ⟨g, f + 1, _, Ext.ext_refl _, hext, hD, h, ChainTo.here⟩
        · have hDk : map_find D gk.derived_base ≠ none := by
            intro hk
            apply hD'
            show map_find D (map_insert gk'.derived_base x b) = none
            rw [map_find_insert_ne b hDx, hmemo]; exact hk
          obtain ⟨y, gj, b', gj1, hy, he, hcall, he2, hn1, hn2⟩ :=
            hcs.first_memo (find_derived_base_ext meet f) hD hDk
          obtain ⟨gs, fs, r, he1, he3, hms, hrun, hchain⟩ := ih gj y b' gj1 D hcall hn1 hn2
          have hxk : map_find x gk.derived_base = none :=
            no_self_memo meet f ih g x d L gk hm hd hp (fun y hy => (hL y).mp hy) hcs
          have hxs : map_find x gs.derived_base = none := (he3.ext_trans he2).memo_none hxk
          refine ⟨gs, fs, r, he.ext_trans he1, (he3.ext_trans he2).ext_trans (Ext.of_local x b hmemo hn),
            hms, hrun, ?_⟩
          exact ChainTo.step hxs (he1.nodes x d (he.nodes x d hd)) hp ((hL y).mp hy) hchain

/-- A completed call leaves its node memoized with the base it returns. -/
theorem find_derived_base_memoized (meet : NodeType → NodeType → NodeType) (fuel : Nat)
    (g : Graph) (D B : Nat) (g' : Graph) (h : find_derived_base meet fuel g D = .ok (B, g')) :
    map_find D g'.derived_base = some B := by
  cases fuel with
  | zero => simp [find_derived_base] at h
  | succ f =>
    rcases find_derived_base_inv meet f g D B g' h with ⟨hm, rfl⟩ | ⟨hm, d, hd, hcase⟩
    · exact hm
    · rcases hcase with ⟨_, rfl⟩ | ⟨hp, L, gk, gk', hcs, hL, hmemo, hn, rfl⟩
      · exact map_find_insert_self B hm
      · have hxk : map_find D gk.derived_base = none :=
          no_self_memo meet f (memo_by meet f) g D d L gk hm hd hp (fun y hy => (hL y).mp hy) hcs
        show map_find D (map_insert gk'.derived_base D B) = some B
        exact map_find_insert_self B (by rw [hmemo]; exact hxk)

theorem Later.later_ext {meet : NodeType → NodeType → NodeType} {g g' : Graph}
    (h : Later meet g g') : Ext g g' := by
  induction h with
  | refl => exact Ext.ext_refl _
  | step fuel x b _ hc ih => exact ih.ext_trans (find_derived_base_ext meet fuel _ x b _ hc)

/-- Claim C7. Once a call `find_derived_base(D)` has returned a base `B`, every
later call on `D`, after any number of further completed calls on any nodes,
returns the same `B` and leaves the whole state as it finds it: the
derived-base map, the blocks and the node arena are unchanged, so no further
merge node is created or inserted. -/
theorem C7_find_derived_base_idempotent (meet : NodeType → NodeType → NodeType)
    (fuel : Nat) (g : Graph) (D B : Nat) (g1 : Graph)
    (h : find_derived_base meet fuel g D = .ok (B, g1))
    (g2 : Graph) (hlater : Later meet g1 g2) (fuel' : Nat) (hfuel : 0 < fuel') :
    find_derived_base meet fuel' g2 D = .ok (B, g2) := by
  have hm : map_find D g2.derived_base = some B :=
    hlater.later_ext.memo D B (find_derived_base_memoized meet fuel g D B g1 h)
  obtain ⟨f, rfl⟩ : ∃ f, fuel' = f + 1 := ⟨fuel' - 1, by omega⟩
  simp [find_derived_base, hm]

theorem Keeps.keeps_ext {g0 g g' : Graph} (h : Keeps g0 g) (he : Ext g g') : Keeps g0 g' :=
  fun i n hi => he.nodes i n (h i n hi)

theorem phi_scan_halts (meet : NodeType → NodeType → NodeType) (g0 : Graph) (base : Nat) :
    ∀ (ys : List Nat), (∀ y ∈ ys, ∀ g, Keeps g0 g → Halts meet g y) →
      ∀ g, Keeps g0 g →
        ∃ (fuel : Nat) (r : Res (Bool × Graph)), r ≠ Res.out_of_fuel ∧
          (∀ flag g', r = .ok (flag, g') → Keeps g0 g') ∧
          ∀ fuel', fuel ≤ fuel' → phi_scan (find_derived_base meet fuel') base ys g = r := by
  intro ys
  induction ys with
  | nil =>
    intro _ g hk
    refine ⟨0, .ok (true, g), by simp, ?_, fun _ _ => rfl⟩
    intro flag g' h
    simp only [Res.ok.injEq, Prod.mk.injEq] at h
    exact h.2 ▸ hk
  | cons y rest ih =>
    intro H g hk
    obtain ⟨f1, r1, hr1, hs1⟩ := H y (List.mem_cons_self _ _) g hk
    cases r1 with
    | out_of_fuel => exact absurd rfl hr1
    | fatal =>
      refine ⟨f1, .fatal, by simp, by simp, ?_⟩
      intro f' hf
      simp [phi_scan, hs1 f' hf]
    | ok p =>
      obtain ⟨b, g1⟩ := p
      have hk1 : Keeps g0 g1 := hk.keeps_ext (find_derived_base_ext meet f1 g y b g1 (hs1 f1 le_rfl))
      by_cases hb : base = b
      · obtain ⟨f2, r2, hr2, hk2, hs2⟩ :=
          ih (fun z hz => H z (List.mem_cons_of_mem _ hz)) g1 hk1
        refine ⟨max f1 f2, r2, hr2, hk2, ?_⟩
        intro f' hf
        subst hb
        simp only [phi_scan, hs1 f' (le_trans (le_max_left _ _) hf), ne_eq,
          not_true_eq_false, ↓reduceIte]
        exact hs2 f' (le_trans (le_max_right _ _) hf)
      · refine ⟨f1, .ok (false, g1), by simp, ?_, ?_⟩
        · intro flag g' h
          simp only [Res.ok.injEq, Prod.mk.injEq] at h
          exact h.2 ▸ hk1
        · intro f' hf
          simp [phi_scan, hs1 f' hf, hb]

theorem phi_bases_halts (meet : NodeType → NodeType → NodeType) (g0 : Graph) :
    ∀ (ys : List Nat), (∀ y ∈ ys, ∀ g, Keeps g0 g → Halts meet g y) →
      ∀ g, Keeps g0 g →
        ∃ (fuel : Nat) (r : Res (List Nat × Graph)), r ≠ Res.out_of_fuel ∧
          ∀ fuel', fuel ≤ fuel' → phi_bases (find_derived_base meet fuel') ys g = r := by
  intro ys
  induction ys with
  | nil => intro _ g _; exact ⟨0, .ok ([], g), by simp, fun _ _ => rfl⟩
  | cons y rest ih =>
    intro H g hk
    obtain ⟨f1, r1, hr1, hs1⟩ := H y (List.mem_cons_self _ _) g hk
    cases r1 with
    | out_of_fuel => exact absurd rfl hr1
    | fatal =>
      refine ⟨f1, .fatal, by simp, ?_⟩
      intro f' hf
      simp [phi_bases, hs1 f' hf]
    | ok p =>
      obtain ⟨b, g1⟩ := p
      have hk1 : Keeps g0 g1 := hk.keeps_ext (find_derived_base_ext meet f1 g y b g1 (hs1 f1 le_rfl))
      obtain ⟨f2, r2, hr2, hs2⟩ := ih (fun z hz => H z (List.mem_cons_of_mem _ hz)) g1 hk1
      cases r2 with
      | out_of_fuel => exact absurd rfl hr2
      | fatal =>
        refine ⟨max f1 f2, .fatal, by simp, ?_⟩
        intro f' hf
        simp [phi_bases, hs1 f' (le_trans (le_max_left _ _) hf),
          hs2 f' (le_trans (le_max_right _ _) hf)]
      | ok q =>
        obtain ⟨bs, g2⟩ := q
        refine ⟨max f1 f2, .ok (b :: bs, g2), by simp, ?_⟩
        intro f' hf
        simp [phi_bases, hs1 f' (le_trans (le_max_left _ _) hf),
          hs2 f' (le_trans (le_max_right _ _) hf)]

theorem make_base_phi_ne_oof (meet : NodeType → NodeType → NodeType) (g : Graph)
    (derived region base : Nat) (bases : List Nat) :
    make_base_phi meet g derived region base bases ≠ Res.out_of_fuel := by
  intro h
  unfold make_base_phi at h
  split at h
  · simp only at h
    split at h
    · cases h
    · split at h
      · cases h
      · split at h <;> cases h
  · cases h

/-- The Phi path of `find_derived_base`, one level of recursion unfolded. -/
theorem find_derived_base_phi_step (meet : NodeType → NodeType → NodeType) (g : Graph)
    (x : Nat) (d : Node) (region in1 : Nat) (hm : map_find x g.derived_base = none)
    (hd : g.nodes[x]? = some d) (hp : d.phi_path) (hreg : d.ins[0]? = some region)
    (hin1 : d.ins[1]? = some in1) (f : Nat) :
    find_derived_base meet (f + 1) g x =
      match find_derived_base meet f g in1 with
      | .ok (base, g1) =>
        match phi_scan (find_derived_base meet f) base (d.ins.drop 2) g1 with
        | .ok (true, g2) => .ok (base, g2.memoize x base)
        | .ok (false, g2) =>
          match phi_bases (find_derived_base meet f) (d.ins.drop 1) g2 with
          | .ok (bases, g3) => make_base_phi meet g3 x region base bases
          | .fatal => .fatal
          | .out_of_fuel => .out_of_fuel
        | .fatal => .fatal
        | .out_of_fuel => .out_of_fuel
      | .fatal => .fatal
      | .out_of_fuel => .out_of_fuel := by
  obtain ⟨hs, hb, hc, hphi⟩ := hp
  simp only [find_derived_base, hm, hd, hs, hb, hc, hphi, hreg, hin1, Bool.not_true,
    Bool.false_eq_true, ↓reduceIte]
  try rfl

/-- Every call on a node of the arena halts when the Phi inputs descend. -/
theorem halts_of_descend (meet : NodeType → NodeType → NodeType) (g0 : Graph)
    (rank : Nat → Nat) (hdesc : PhiInputsDescend g0 rank) :
    ∀ (r x : Nat), rank x < r → x < g0.nodes.length → ∀ g, Keeps g0 g → Halts meet g x := by
  intro r
  induction r with
  | zero => intro x h; omega
  | succ r ih =>
    intro x hx hlen g hk
    have hd0 : g0.nodes[x]? = some g0.nodes[x] := List.getElem?_eq_getElem hlen
    generalize g0.nodes[x] = d at hd0
    have hd : g.nodes[x]? = some d := hk x d hd0
    cases hm : map_find x g.derived_base with
    | some b =>
      refine ⟨1, .ok (b, g), by simp, ?_⟩
      intro f' hf
      obtain ⟨f, rfl⟩ : ∃ f, f' = f + 1 := ⟨f' - 1, by omega⟩
      simp [find_derived_base, hm]
    | none =>
      by_cases hp : d.phi_path
      swap
      · -- not on the Phi path: the result does not depend on the fuel
        have hfix : ∀ f, find_derived_base meet (f + 1) g x = find_derived_base meet 1 g x := by
          intro f
          simp only [find_derived_base, hm, hd]
          by_cases h1 : d.bottom_type.sanity = true
          swap
          · simp [h1]
          by_cases h2 : d.bottom_type.is_base = true
          · simp [h1, h2]
          by_cases h3 : d.is_Con = true
          · simp [h1, h2, h3]
          by_cases h4 : d.is_Phi = true
          · exact absurd ⟨h1, by simpa using h2, by simpa using h3, h4⟩ hp
          · simp [h1, h2, h3, h4]
        refine ⟨1, find_derived_base meet 1 g x, ?_, ?_⟩
        · simp only [find_derived_base, hm, hd]
          by_cases h1 : d.bottom_type.sanity = true
          swap
          · simp [h1]
          by_cases h2 : d.bottom_type.is_base = true
          · simp [h1, h2]
          by_cases h3 : d.is_Con = true
          · simp [h1, h2, h3]
          by_cases h4 : d.is_Phi = true
          · exact absurd ⟨h1, by simpa using h2, by simpa using h3, h4⟩ hp
          · simp only [h1, h2, h3, h4, Bool.not_true, Bool.false_eq_true, ↓reduceIte,
              Bool.not_false]
            repeat' split
            all_goals simp
        · intro f' hf
          obtain ⟨f, rfl⟩ : ∃ f, f' = f + 1 := ⟨f' - 1, by omega⟩
          exact hfix f
      · have hins : ∀ y ∈ d.ins.drop 1, ∀ g', Keeps g0 g' → Halts meet g' y := by
          intro y hy g' hk'
          obtain ⟨h1, h2⟩ := hdesc (x, d) (List.mk_mem_enum_iff_getElem?.mpr hd0) hp y hy
          exact ih y (by simp only at h2; omega) h1 g' hk'
        cases hreg : d.ins[0]? with
        | none =>
          refine ⟨1, .fatal, by simp, ?_⟩
          intro f' hf
          obtain ⟨f, rfl⟩ : ∃ f, f' = f + 1 := ⟨f' - 1, by omega⟩
          obtain ⟨hs, hb, hc, hphi⟩ := hp
          simp [find_derived_base, hm, hd, hs, hb, hc, hphi, hreg]
        | some region =>
        cases hin1 : d.ins[1]? with
        | none =>
          refine ⟨1, .fatal, by simp, ?_⟩
          intro f' hf
          obtain ⟨f, rfl⟩ : ∃ f, f' = f + 1 := ⟨f' - 1, by omega⟩
          obtain ⟨hs, hb, hc, hphi⟩ := hp
          simp [find_derived_base, hm, hd, hs, hb, hc, hphi, hreg, hin1]
        | some in1 =>
        have hstep := find_derived_base_phi_step meet g x d region in1 hm hd hp hreg hin1
        have hdrop : d.ins.drop 1 = in1 :: d.ins.drop 2 := by
          have hlt : 1 < d.ins.length := by
            by_contra hcon
            rw [List.getElem?_eq_none (by omega)] at hin1
            cases hin1
          rw [List.getElem?_eq_getElem hlt] at hin1
          cases hin1
          exact List.drop_eq_getElem_cons hlt
        have hin1mem : in1 ∈ d.ins.drop 1 := by rw [hdrop]; exact List.mem_cons_self _ _
        have hsub2 : ∀ y ∈ d.ins.drop 2, y ∈ d.ins.drop 1 := by
          intro y hy; rw [hdrop]; exact List.mem_cons_of_mem _ hy
        obtain ⟨f1, r1, hr1, hs1⟩ := hins in1 hin1mem g hk
        cases r1 with
        | out_of_fuel => exact absurd rfl hr1
        | fatal =>
          refine ⟨f1 + 1, .fatal, by simp, ?_⟩
          intro f' hf
          obtain ⟨f, rfl⟩ : ∃ f, f' = f + 1 := ⟨f' - 1, by omega⟩
          rw [hstep f, hs1 f (by omega)]
        | ok p1 =>
          obtain ⟨base, g1⟩ := p1
          have hk1 : Keeps g0 g1 :=
            hk.keeps_ext (find_derived_base_ext meet f1 g in1 base g1 (hs1 f1 le_rfl))
          obtain ⟨f2, r2, hr2, hk2, hs2⟩ := phi_scan_halts meet g0 base (d.ins.drop 2)
            (fun y hy => hins y (hsub2 y hy)) g1 hk1
          cases r2 with
          | out_of_fuel => exact absurd rfl hr2
          | fatal =>
            refine ⟨max f1 f2 + 1, .fatal, by simp, ?_⟩
            intro f' hf
            obtain ⟨f, rfl⟩ : ∃ f, f' = f + 1 := ⟨f' - 1, by omega⟩
            have hmax : max f1 f2 ≤ f := Nat.le_of_succ_le_succ hf
            have h1 : f1 ≤ f := le_trans (le_max_left _ _) hmax
            have h2 : f2 ≤ f := le_trans (le_max_right _ _) hmax
            rw [hstep f, hs1 f h1]
            simp only [hs2 f h2]
          | ok p2 =>
            obtain ⟨flag, g2⟩ := p2
            cases flag with
            | true =>
              refine ⟨max f1 f2 + 1, .ok (base, g2.memoize x base), by simp, ?_⟩
              intro f' hf
              obtain ⟨f, rfl⟩ : ∃ f, f' = f + 1 := ⟨f' - 1, by omega⟩
              have hmax : max f1 f2 ≤ f := Nat.le_of_succ_le_succ hf
              have h1 : f1 ≤ f := le_trans (le_max_left _ _) hmax
              have h2 : f2 ≤ f := le_trans (le_max_right _ _) hmax
              rw [hstep f, hs1 f h1]
              simp only [hs2 f h2]
            | false =>
              have hk2' : Keeps g0 g2 := hk2 false g2 rfl
              obtain ⟨f3, r3, hr3, hs3⟩ := phi_bases_halts meet g0 (d.ins.drop 1) hins g2 hk2'
              refine ⟨max f1 (max f2 f3) + 1,
                (match r3 with
                  | .ok (bases, g3) => make_base_phi meet g3 x region base bases
                  | .fatal => .fatal
                  | .out_of_fuel => .out_of_fuel), ?_, ?_⟩
              · cases r3 with
                | out_of_fuel => exact absurd rfl hr3
                | fatal => simp
                | ok p3 => exact make_base_phi_ne_oof meet _ _ _ _ _
              · intro f' hf
                obtain ⟨f, rfl⟩ : ∃ f, f' = f + 1 := ⟨f' - 1, by omega⟩
                have hmax : max f1 (max f2 f3) ≤ f := Nat.le_of_succ_le_succ hf
                have h1 : f1 ≤ f := le_trans (le_max_left _ _) hmax
                have h2 : f2 ≤ f :=
                  le_trans (le_trans (le_max_left f2 f3) (le_max_right _ _)) hmax
                have h3 : f3 ≤ f :=
                  le_trans (le_trans (le_max_right f2 f3) (le_max_right _ _)) hmax
                rw [hstep f, hs1 f h1]
                simp only [hs2 f h2, hs3 f h3]
                cases r3 <;> rfl

/-- Claim C8, amended. On a graph in which the inputs of every derived Phi
descend in some rank (no derived Phi reaches itself through Phi inputs),
`find_derived_base(D)` terminates for every node `D`: from some recursion
depth on, its result is one and the same and is a returned base or a fatal
failure, never an exhausted recursion. -/
theorem C8_find_derived_base_halts_when_phi_inputs_descend
    (meet : NodeType → NodeType → NodeType) (g : Graph) (rank : Nat → Nat)
    (hdesc : PhiInputsDescend g rank) (D : Nat) :
    ∃ (fuel : Nat) (r : Res (Nat × Graph)), r ≠ Res.out_of_fuel ∧
      ∀ fuel', fuel ≤ fuel' → find_derived_base meet fuel' g D = r := by
  by_cases hlen : D < g.nodes.length
  · exact halts_of_descend meet g rank hdesc (rank D + 1) D (by omega) hlen g (fun _ _ h => h)
  · cases hm : map_find D g.derived_base with
    | some b =>
      refine ⟨1, .ok (b, g), by simp, ?_⟩
      intro f' hf
      obtain ⟨f, rfl⟩ : ∃ f, f' = f + 1 := ⟨f' - 1, by omega⟩
      simp [find_derived_base, hm]
    | none =>
      refine ⟨1, .fatal, by simp, ?_⟩
      intro f' hf
      obtain ⟨f, rfl⟩ : ∃ f, f' = f + 1 := ⟨f' - 1, by omega⟩
      simp [find_derived_base, hm, List.getElem?_eq_none (by omega : g.nodes.length ≤ D)]

/-- Witness of the C8 theorem on the graph with one merge of two derived
pointers. -/
theorem C8_witness :
    ∃ (fuel : Nat) (r : Res (Nat × Graph)), r ≠ Res.out_of_fuel ∧
      ∀ fuel', fuel ≤ fuel' → find_derived_base sample_meet fuel' merge_graph 3 = r :=
  C8_find_derived_base_halts_when_phi_inputs_descend sample_meet merge_graph merge_rank
    (by decide) 3

/-- On the nested loops, a call on the entry address either runs out of fuel or
returns without touching the memo entries of the two Phis. -/
theorem nested_loop_entry (meet : NodeType → NodeType → NodeType) (fuel : Nat) (g : Graph)
    (hn : g.nodes = nested_loop_graph.nodes) :
    find_derived_base meet fuel g 3 = .out_of_fuel ∨
      ∃ b g', find_derived_base meet fuel g 3 = .ok (b, g') ∧ g'.nodes = g.nodes ∧
        ∀ k, k ≠ 3 → map_find k g'.derived_base = map_find k g.derived_base := by
  cases fuel with
  | zero => exact Or.inl rfl
  | succ f =>
    right
    have h3 : g.nodes[3]? = some ⟨false, false, true, .ptr 16, [0, 2, 2, 9]⟩ := by rw [hn]; rfl
    cases hm : map_find 3 g.derived_base with
    | some b => exact ⟨b, g, by simp [find_derived_base, hm], rfl, fun _ _ => rfl⟩
    | none =>
      refine ⟨2, g.memoize 3 2, ?_, rfl, ?_⟩
      · simp [find_derived_base, hm, h3, NodeType.sanity, NodeType.is_base]
      · intro k hk
        exact map_find_insert_ne 2 hk

/-- On the nested loops, a call on either Phi never comes back, as long as
neither Phi is memoized. -/
theorem nested_loop_diverges (meet : NodeType → NodeType → NodeType) :
    ∀ (fuel : Nat) (g : Graph), g.nodes = nested_loop_graph.nodes →
      map_find 4 g.derived_base = none → map_find 5 g.derived_base = none →
      find_derived_base meet fuel g 4 = .out_of_fuel ∧
        find_derived_base meet fuel g 5 = .out_of_fuel := by
  intro fuel
  induction fuel with
  | zero => intro g _ _ _; exact ⟨rfl, rfl⟩
  | succ f ih =>
    intro g hn h4 h5
    have n4 : g.nodes[4]? = some ⟨true, false, false, .ptr 16, [0, 3, 5]⟩ := by rw [hn]; rfl
    have n5 : g.nodes[5]? = some ⟨true, false, false, .ptr 16, [1, 4, 6]⟩ := by rw [hn]; rfl
    have p4 : Node.phi_path ⟨true, false, false, .ptr 16, [0, 3, 5]⟩ := by decide
    have p5 : Node.phi_path ⟨true, false, false, .ptr 16, [1, 4, 6]⟩ := by decide
    refine ⟨?_, ?_⟩
    · rw [find_derived_base_phi_step meet g 4 _ 0 3 h4 n4 p4 rfl rfl f]
      rcases nested_loop_entry meet f g hn with h | ⟨b, g', h, hn', hk⟩
      · rw [h]
      · rw [h]
        have := (ih g' (hn'.trans hn) (by rw [hk 4 (by decide)]; exact h4)
          (by rw [hk 5 (by decide)]; exact h5)).2
        simp [phi_scan, this]
    · rw [find_derived_base_phi_step meet g 5 _ 1 4 h5 n5 p5 rfl rfl f]
      rw [(ih g hn h4 h5).1]

/-- Claim C8 fails as stated: on the nested loops, whose two derived Phis feed
each other, the call on the outer Phi exhausts every recursion depth; the
memo entry of a Phi is written only after its inputs were resolved, so the
memo does not break the cycle. -/
theorem C8_counterexample :
    ¬ ∃ fuel, find_derived_base sample_meet fuel nested_loop_graph 4 ≠ Res.out_of_fuel := by
  rintro ⟨fuel, h⟩
  exact h (nested_loop_diverges sample_meet fuel nested_loop_graph rfl rfl rfl).1

/-- Witness of the C7 theorem: the second call on the Phi of `merge_graph`. -/
theorem C7_witness :
    find_derived_base sample_meet 1 merge_graph_done 3 = .ok (8, merge_graph_done) :=
  C7_find_derived_base_idempotent sample_meet 3 merge_graph 3 8 merge_graph_done (by decide)
    merge_graph_done (Later.refl _) 1 (by decide)

end Selector

/-! ## Part 1, continued. The general parameters recorded by `create_func` -/

namespace Selector

open BasicType

theorem general_params_ge : ∀ (fs : List OptoType) (i : Nat), ∀ j ∈ general_params i fs, i ≤ j := by
  intro fs
  induction fs with
  | nil => intro i j hj; simp [general_params] at hj
  | cons f rest ih =>
    intro i j hj
    unfold general_params at hj
    split at hj
    · rcases List.mem_cons.mp hj with h | h
      · omega
      · have := ih (i + 1) j h; omega
    · have := ih (i + 1) j hj; omega

theorem general_params_nodup : ∀ (fs : List OptoType) (i : Nat), (general_params i fs).Nodup := by
  intro fs
  induction fs with
  | nil => intro i; simp [general_params]
  | cons f rest ih =>
    intro i
    unfold general_params
    split
    · refine List.nodup_cons.mpr ⟨?_, ih (i + 1)⟩
      intro h
      have := general_params_ge rest (i + 1) i h
      omega
    · exact ih (i + 1)

/-- What the loop of `create_func` leaves in `_nf_pos`: once the quota is
reached nothing is added; before that, the indices of the next general
parameters are added until the quota is reached. -/
theorem create_func_loop_nf_pos (NF_REGS : Nat) :
    ∀ (fs : List OptoType) (i : Nat) (st st' : CreateFuncState),
      create_func_loop NF_REGS i fs st = some st' →
      (st.nf_pos_full = true → st'.nf_pos = st.nf_pos) ∧
      (st.nf_pos_full = false → st.nf_cnt < NF_REGS →
        st'.nf_pos = st.nf_pos ++ (general_params i fs).take (NF_REGS - st.nf_cnt)) := by
  intro fs
  induction fs with
  | nil =>
    intro i st st' h
    simp only [create_func_loop, Option.some.injEq] at h
    subst h
    simp [general_params]
  | cons f rest ih =>
    intro i st st' h
    by_cases hv : f.basic_type = T_VOID
    · simp only [create_func_loop, hv, ne_eq, not_true_eq_false, ↓reduceIte] at h
      have := ih (i + 1) st st' h
      simpa [general_params, hv] using this
    · cases ht : type f.basic_type with
      | none => simp [create_func_loop, hv, ht] at h
      | some ty =>
        cases hfull : st.nf_pos_full with
        | true =>
          simp only [create_func_loop, hv, ne_eq, not_false_eq_true, ↓reduceIte, hfull,
            Bool.not_true, Bool.false_and, Bool.false_eq_true, ht, Bool.and_false] at h
          have := (ih (i + 1) _ st' h).1 rfl
          exact ⟨fun _ => this, fun h' => by simp at h'⟩
        | false =>
          refine ⟨fun h' => by simp at h', fun _ hlt => ?_⟩
          by_cases hg : f.basic_type ≠ T_FLOAT ∧ f.basic_type ≠ T_DOUBLE
          · have hcond : (!st.nf_pos_full && decide (f.basic_type ≠ T_FLOAT) &&
                decide (f.basic_type ≠ T_DOUBLE)) = true := by simp [hfull, hg.1, hg.2]
            have hgp : general_params i (f :: rest) = i :: general_params (i + 1) rest := by
              simp [general_params, hv, hg.1, hg.2]
            simp only [create_func_loop, hv, ne_eq, not_false_eq_true, ↓reduceIte, hcond, ht] at h
            by_cases hq : st.nf_cnt + 1 = NF_REGS
            · simp only [hq, beq_self_eq_true, hfull, Bool.not_false, Bool.and_self,
                ↓reduceIte] at h
              have := (ih (i + 1) _ st' h).1 rfl
              have h1 : NF_REGS - st.nf_cnt = 1 := by omega
              rw [this, hgp, h1]
              simp
            · have hne : (st.nf_cnt + 1 == NF_REGS) = false := by simp [hq]
              simp only [hne, Bool.false_and, Bool.false_eq_true, ↓reduceIte] at h
              have := (ih (i + 1) _ st' h).2 hfull (by simp only; omega)
              have h1 : NF_REGS - st.nf_cnt = (NF_REGS - (st.nf_cnt + 1)) + 1 := by omega
              rw [this, hgp, h1]
              simp
          · have hcond : (!st.nf_pos_full && decide (f.basic_type ≠ T_FLOAT) &&
                decide (f.basic_type ≠ T_DOUBLE)) = false := by
              by_cases h1 : f.basic_type = T_FLOAT
              · simp [h1]
              · have h2 : f.basic_type = T_DOUBLE := by
                  by_contra h2; exact hg ⟨h1, h2⟩
                simp [h2]
            have hgp : general_params i (f :: rest) = general_params (i + 1) rest := by
              simp only [general_params]
              rw [if_neg (fun h' => hg h'.2)]
            have hne : (st.nf_cnt == NF_REGS) = false := by
              simp only [beq_eq_false_iff_ne, ne_eq]; omega
            simp only [create_func_loop, hv, ne_eq, not_false_eq_true, ↓reduceIte, hcond, ht,
              Bool.false_eq_true, hne, Bool.false_and] at h
            have := (ih (i + 1) _ st' h).2 hfull hlt
            rw [this, hgp]

/-- The list `_nf_pos` after `create_func`: the domain indices of the first
`NF_REGS` general parameters. -/
theorem create_func_nf_pos (NF_REGS : Nat) (hN : 0 < NF_REGS) (domain : Domain)
    (params : List Param) (nf_pos : List Nat)
    (h : create_func NF_REGS domain = some (params, nf_pos)) :
    nf_pos = (general_params TypeFunc.Parms domain).take NF_REGS := by
  unfold create_func at h
  cases hl : create_func_loop NF_REGS TypeFunc.Parms domain ⟨0, false, [], []⟩ with
  | none => simp [hl] at h
  | some st =>
    have key := (create_func_loop_nf_pos NF_REGS domain TypeFunc.Parms _ st hl).2 rfl hN
    simp only [hl] at h
    split at h <;> simp only [Option.some.injEq, Prod.mk.injEq] at h <;>
      (rw [← h.2, key]; simp)

theorem general_params_append : ∀ (pre rest : List OptoType) (i : Nat),
    general_params i (pre ++ rest) = general_params i pre ++ general_params (i + pre.length) rest := by
  intro pre
  induction pre with
  | nil => intro rest i; simp [general_params]
  | cons f pre ih =>
    intro rest i
    have e : i + 1 + pre.length = i + (pre.length + 1) := by omega
    simp only [List.cons_append, general_params, List.length_cons]
    split <;> simp [ih, e]

theorem param_fields_append : ∀ (pre rest : List OptoType) (i : Nat),
    param_fields i (pre ++ rest) = param_fields i pre ++ param_fields (i + pre.length) rest := by
  intro pre
  induction pre with
  | nil => intro rest i; simp [param_fields]
  | cons f pre ih =>
    intro rest i
    have e : i + 1 + pre.length = i + (pre.length + 1) := by omega
    simp only [List.cons_append, param_fields, List.length_cons]
    split <;> simp [ih, e]

/-- A general parameter found from index `s` on sits at some position `t` of
the fields, and its field is not void. -/
theorem general_params_mem : ∀ (fs : List OptoType) (s j : Nat), j ∈ general_params s fs →
    ∃ t, j = s + t ∧ ∃ h : t < fs.length, (fs.get ⟨t, h⟩).basic_type ≠ T_VOID := by
  intro fs
  induction fs with
  | nil => intro s j hj; simp [general_params] at hj
  | cons f rest ih =>
    intro s j hj
    unfold general_params at hj
    split at hj
    · rename_i hg
      rcases List.mem_cons.mp hj with e | hin
      · exact ⟨0, by omega, by simp, by simpa using hg.1⟩
      · obtain ⟨t, ht, hlt, hv⟩ := ih (s + 1) j hin
        exact ⟨t + 1, by omega, by simp; omega, by simpa using hv⟩
    · obtain ⟨t, ht, hlt, hv⟩ := ih (s + 1) j hj
      exact ⟨t + 1, by omega, by simp; omega, by simpa using hv⟩

/-- The field at position `t`, when it is not void, is found in `param_fields`
behind the non-void fields before it. -/
theorem param_fields_get : ∀ (fs : List OptoType) (s t : Nat) (h : t < fs.length),
    (fs.get ⟨t, h⟩).basic_type ≠ T_VOID →
    (param_fields s fs)[((fs.take t).filter (fun f => decide (f.basic_type ≠ T_VOID))).length]? =
      some (s + t) := by
  intro fs
  induction fs with
  | nil => intro s t h; simp at h
  | cons f rest ih =>
    intro s t h hv
    cases t with
    | zero =>
      have hf : f.basic_type ≠ T_VOID := by simpa using hv
      simp [param_fields, hf]
    | succ t =>
      have hlt : t < rest.length := by simpa using h
      have hv' : (rest.get ⟨t, hlt⟩).basic_type ≠ T_VOID := by simpa using hv
      have key := ih (s + 1) t hlt hv'
      have e : s + 1 + t = s + (t + 1) := by omega
      by_cases hf : f.basic_type = T_VOID
      · simp only [param_fields, hf, ne_eq, not_true_eq_false, ↓reduceIte, List.take_succ_cons,
          decide_False, Bool.false_eq_true, not_false_eq_true, List.filter_cons_of_neg]
        rw [← e]; exact key
      · simp only [param_fields, ne_eq, hf, not_false_eq_true, ↓reduceIte, List.take_succ_cons,
          decide_True, List.filter_cons_of_pos, List.length_cons, List.getElem?_cons_succ]
        rw [← e]; exact key

/-- Once the quota is reached, `create_func` appends one physical parameter for
every later field that is not void. -/
theorem create_func_loop_full_origins (NF_REGS : Nat) :
    ∀ (fs : List OptoType) (i : Nat) (st st' : CreateFuncState),
      create_func_loop NF_REGS i fs st = some st' → st.nf_pos_full = true →
      st'.nf_pos_full = true ∧
      st'.paramTypes.map Param.origin =
        st.paramTypes.map Param.origin ++ (param_fields i fs).map some := by
  intro fs
  induction fs with
  | nil =>
    intro i st st' h hfull
    simp only [create_func_loop, Option.some.injEq] at h
    subst h
    simp [param_fields, hfull]
  | cons f rest ih =>
    intro i st st' h hfull
    by_cases hv : f.basic_type = T_VOID
    · simp only [create_func_loop, hv, ne_eq, not_true_eq_false, ↓reduceIte] at h
      have := ih (i + 1) st st' h hfull
      simpa [param_fields, hv] using this
    · cases ht : type f.basic_type with
      | none => simp [create_func_loop, hv, ht] at h
      | some ty =>
        simp only [create_func_loop, hv, ne_eq, not_false_eq_true, ↓reduceIte, hfull,
          Bool.not_true, Bool.false_and, Bool.false_eq_true, ht, Bool.and_false] at h
        obtain ⟨h1, h2⟩ := ih (i + 1) _ st' h rfl
        refine ⟨h1, ?_⟩
        rw [h2]
        simp [param_fields, hv]

/-- Before the quota is reached: either it is not reached at all and every
non-void field got its parameter at the back, or the fields split at the
general parameter that fills the quota, whose parameter is put at the front. -/
theorem create_func_loop_open_origins (NF_REGS : Nat) :
    ∀ (fs : List OptoType) (i : Nat) (st st' : CreateFuncState),
      create_func_loop NF_REGS i fs st = some st' → st.nf_pos_full = false →
      st.nf_cnt < NF_REGS →
      (st'.nf_pos_full = false ∧ (general_params i fs).length + st.nf_cnt < NF_REGS) ∨
      (st'.nf_pos_full = true ∧ ∃ pre g post, fs = pre ++ g :: post ∧
        g.basic_type ≠ T_VOID ∧
        (general_params i pre).length + st.nf_cnt + 1 = NF_REGS ∧
        general_params i fs = general_params i pre ++
          (i + pre.length) :: general_params (i + pre.length + 1) post ∧
        st'.paramTypes.map Param.origin =
          some (i + pre.length) :: (st.paramTypes.map Param.origin ++
            (param_fields i pre).map some ++
            (param_fields (i + pre.length + 1) post).map some)) := by
  intro fs
  induction fs with
  | nil =>
    intro i st st' h hfull hlt
    simp only [create_func_loop, Option.some.injEq] at h
    subst h
    exact Or.inl ⟨hfull, by simpa [general_params] using hlt⟩
  | cons f rest ih =>
    intro i st st' h hfull hlt
    have e1 : ∀ n : Nat, i + 1 + n = i + (n + 1) := fun n => by omega
    have e2 : ∀ n : Nat, i + 1 + n + 1 = i + (n + 1) + 1 := fun n => by omega
    by_cases hv : f.basic_type = T_VOID
    · simp only [create_func_loop, hv, ne_eq, not_true_eq_false, ↓reduceIte] at h
      have hgp : ∀ l : List OptoType, general_params i (f :: l) = general_params (i + 1) l := by
        intro l; simp [general_params, hv]
      have hpf : ∀ l : List OptoType, param_fields i (f :: l) = param_fields (i + 1) l := by
        intro l; simp [param_fields, hv]
      rcases ih (i + 1) st st' h hfull hlt with ⟨h1, h2⟩ | ⟨h1, pre, g, post, hs, hg, hc, hG, ho⟩
      · exact Or.inl ⟨h1, by rw [hgp]; exact h2⟩
      · refine Or.inr ⟨h1, f :: pre, g, post, by simp [hs], hg, ?_, ?_, ?_⟩
        · rw [hgp]; exact hc
        · rw [hgp, hgp, hG]; simp only [List.length_cons, e1, e2]
        · rw [ho, hpf]; simp only [List.length_cons, e1, e2]
    · cases ht : type f.basic_type with
      | none => simp [create_func_loop, hv, ht] at h
      | some ty =>
        have hpf : ∀ l : List OptoType, param_fields i (f :: l) = i :: param_fields (i + 1) l := by
          intro l; simp [param_fields, hv]
        by_cases hg : f.basic_type ≠ T_FLOAT ∧ f.basic_type ≠ T_DOUBLE
        · have hcond : (!st.nf_pos_full && decide (f.basic_type ≠ T_FLOAT) &&
              decide (f.basic_type ≠ T_DOUBLE)) = true := by simp [hfull, hg.1, hg.2]
          have hgp : ∀ l : List OptoType,
              general_params i (f :: l) = i :: general_params (i + 1) l := by
            intro l; simp [general_params, hv, hg.1, hg.2]
          simp only [create_func_loop, hv, ne_eq, not_false_eq_true, ↓reduceIte, hcond, ht] at h
          by_cases hq : st.nf_cnt + 1 = NF_REGS
          · simp only [hq, beq_self_eq_true, hfull, Bool.not_false, Bool.and_self,
              ↓reduceIte] at h
            obtain ⟨h1, h2⟩ := create_func_loop_full_origins NF_REGS rest (i + 1) _ st' h rfl
            refine Or.inr ⟨h1, [], f, rest, rfl, hv, ?_, ?_, ?_⟩
            · simpa [general_params] using hq
            · simp [general_params, hv, hg.1, hg.2]
            · rw [h2]; simp [param_fields]
          · have hne : (st.nf_cnt + 1 == NF_REGS) = false := by simp [hq]
            simp only [hne, Bool.false_and, Bool.false_eq_true, ↓reduceIte] at h
            rcases ih (i + 1) _ st' h hfull (by simp only; omega) with
              ⟨h1, h2⟩ | ⟨h1, pre, g, post, hs, hg', hc, hG, ho⟩
            · refine Or.inl ⟨h1, ?_⟩
              rw [hgp]; simp only [List.length_cons] at h2 ⊢; omega
            · refine Or.inr ⟨h1, f :: pre, g, post, by simp [hs], hg', ?_, ?_, ?_⟩
              · rw [hgp]; simp only [List.length_cons] at hc ⊢; omega
              · rw [hgp, hgp, hG]; simp only [List.length_cons, e1, e2, List.cons_append]
              · rw [ho, hpf]; simp only [List.length_cons, e1, e2]; simp
        · have hcond : (!st.nf_pos_full && decide (f.basic_type ≠ T_FLOAT) &&
              decide (f.basic_type ≠ T_DOUBLE)) = false := by
            by_cases h1 : f.basic_type = T_FLOAT
            · simp [h1]
            · have h2 : f.basic_type = T_DOUBLE := by
                by_contra h2; exact hg ⟨h1, h2⟩
              simp [h2]
          have hgp : ∀ l : List OptoType, general_params i (f :: l) = general_params (i + 1) l := by
            intro l
            simp only [general_params]
            rw [if_neg (fun h' => hg h'.2)]
          have hne : (st.nf_cnt == NF_REGS) = false := by
            simp only [beq_eq_false_iff_ne, ne_eq]; omega
          simp only [create_func_loop, hv, ne_eq, not_false_eq_true, ↓reduceIte, hcond, ht,
            Bool.false_eq_true, hne, Bool.false_and] at h
          rcases ih (i + 1) _ st' h hfull hlt with
            ⟨h1, h2⟩ | ⟨h1, pre, g, post, hs, hg', hc, hG, ho⟩
          · exact Or.inl ⟨h1, by rw [hgp]; exact h2⟩
          · refine Or.inr ⟨h1, f :: pre, g, post, by simp [hs], hg', ?_, ?_, ?_⟩
            · rw [hgp]; exact hc
            · rw [hgp, hgp, hG]; simp only [List.length_cons, e1, e2]
            · rw [ho, hpf]; simp only [List.length_cons, e1, e2]; simp

theorem param_fields_length : ∀ (fs : List OptoType) (i : Nat),
    (param_fields i fs).length = (fs.filter (fun f => decide (f.basic_type ≠ T_VOID))).length := by
  intro fs
  induction fs with
  | nil => intro i; rfl
  | cons f rest ih =>
    intro i
    by_cases hv : f.basic_type = T_VOID
    · simp [param_fields, hv, ih (i + 1)]
    · simp [param_fields, hv, ih (i + 1)]

/-- On well-formed fields the test `base() == Type::Half` of `param_to_arg` and
the test `btype != T_VOID` of `create_func` select the same fields. -/
theorem filter_half_eq_void (fs : List OptoType) (hwf : ∀ f ∈ fs, f.wf) :
    fs.filter (fun at_ => !at_.is_Half) = fs.filter (fun f => decide (f.basic_type ≠ T_VOID)) := by
  apply List.filter_congr
  intro f hf
  have h := hwf f hf
  unfold OptoType.wf at h
  by_cases hv : f.basic_type = T_VOID
  · simp [hv, h.mpr hv]
  · have : f.is_Half = false := by
      cases hh : f.is_Half
      · rfl
      · exact absurd (h.mp hh) hv
    simp [hv, this]

/-- The physical parameter that `create_func` builds for a general parameter
beyond the first `NF_REGS`: it sits at the index that counts the non-void
fields before the parameter. -/
theorem create_func_overflow_slot (NF_REGS : Nat) (hN : 0 < NF_REGS) (domain : Domain)
    (params : List Param) (nf_pos : List Nat)
    (h : create_func NF_REGS domain = some (params, nf_pos)) (k : Nat)
    (hk : TypeFunc.Parms + k ∈ (general_params TypeFunc.Parms domain).drop NF_REGS) :
    (params[((domain.take k).filter (fun f => decide (f.basic_type ≠ T_VOID))).length]?).map
      Param.origin = some (some (TypeFunc.Parms + k)) := by
  unfold create_func at h
  cases hl : create_func_loop NF_REGS TypeFunc.Parms domain ⟨0, false, [], []⟩ with
  | none => simp [hl] at h
  | some st =>
    simp only [hl] at h
    rcases create_func_loop_open_origins NF_REGS domain TypeFunc.Parms _ st hl rfl hN with
      ⟨_, h2⟩ | ⟨h1, pre, g, post, hs, hg, hc, hG, ho⟩
    · simp only [Nat.add_zero] at h2
      rw [List.drop_eq_nil_of_le (by omega)] at hk
      simp at hk
    · simp only [h1, Bool.not_true, Bool.and_false, Bool.false_eq_true, ↓reduceIte,
        Option.some.injEq, Prod.mk.injEq] at h
      obtain ⟨hp, _⟩ := h
      subst hp
      simp only [Nat.add_zero, List.map_nil, List.nil_append] at hc ho
      have hdrop : (general_params TypeFunc.Parms domain).drop NF_REGS =
          general_params (TypeFunc.Parms + pre.length + 1) post := by
        rw [hG, ← hc, List.drop_append]
        rfl
      rw [hdrop] at hk
      obtain ⟨t, ht, hlt, hv⟩ := general_params_mem post _ _ hk
      have hkt : k = pre.length + 1 + t := by omega
      have htake : domain.take k = pre ++ g :: post.take t := by
        rw [hs, hkt]
        have e : pre.length + 1 + t = pre.length + (t + 1) := by omega
        rw [e, List.take_append]
        rfl
      have hcount : ((domain.take k).filter (fun f => decide (f.basic_type ≠ T_VOID))).length =
          (param_fields TypeFunc.Parms pre).length + 1 +
            ((post.take t).filter (fun f => decide (f.basic_type ≠ T_VOID))).length := by
        rw [htake, List.filter_append, List.length_append, param_fields_length]
        simp [hg]
        omega
      have hget := param_fields_get post (TypeFunc.Parms + pre.length + 1) t hlt hv
      rw [← List.getElem?_map, ho, hcount]
      have e : (param_fields TypeFunc.Parms pre).length + 1 +
          ((post.take t).filter (fun f => decide (f.basic_type ≠ T_VOID))).length =
          ((post.take t).filter (fun f => decide (f.basic_type ≠ T_VOID))).length +
            (param_fields TypeFunc.Parms pre).length + 1 := by omega
      rw [e, List.getElem?_cons_succ]
      have hlen : ((param_fields TypeFunc.Parms pre).map some).length =
          (param_fields TypeFunc.Parms pre).length := by simp
      rw [← hlen, List.getElem?_append_right (by omega)]
      simp only [Nat.add_sub_cancel, List.getElem?_map, hget, Option.map_some']
      congr 2
      omega

/-- Claim C11, amended. The group that `param_to_arg` treats by position is the
list `_nf_pos` that `create_func` records, i.e. the first `NF_REGS` general
parameters: for the parameter at 0-based position `p` of that list
`param_to_arg` returns `(p + 1) mod NF_REGS`. A general parameter beyond the
first `NF_REGS` (domain index `TypeFunc::Parms + k`) is not in the list and
gets the running count of the parameters before it: the number of fields among
the first `k` that are not the second half of a long or double. When the
fields of the signature are well-formed, the physical parameter that
`create_func` built at that index is the one of this domain index. With six
`int` parameters and `NF_REGS = 4` the fifth parameter (domain index
`TypeFunc::Parms + 4`) gets 4. -/
theorem C11_param_to_arg_of_recorded (NF_REGS : Nat) (hN : 0 < NF_REGS) (domain : Domain)
    (params : List Param) (nf_pos : List Nat)
    (h : create_func NF_REGS domain = some (params, nf_pos)) :
    nf_pos = (general_params TypeFunc.Parms domain).take NF_REGS ∧
      (∀ (p : Nat) (hp : p < nf_pos.length),
        param_to_arg NF_REGS nf_pos domain (nf_pos.get ⟨p, hp⟩) = (p + 1) % NF_REGS) ∧
      (∀ k : Nat, TypeFunc.Parms + k ∈ (general_params TypeFunc.Parms domain).drop NF_REGS →
        TypeFunc.Parms + k ∉ nf_pos ∧
        param_to_arg NF_REGS nf_pos domain (TypeFunc.Parms + k) =
          ((domain.take k).filter (fun at_ => !at_.is_Half)).length) ∧
      ((∀ f ∈ domain, f.wf) →
        ∀ k : Nat, TypeFunc.Parms + k ∈ (general_params TypeFunc.Parms domain).drop NF_REGS →
          (params[param_to_arg NF_REGS nf_pos domain (TypeFunc.Parms + k)]?).map Param.origin =
            some (some (TypeFunc.Parms + k))) ∧
      (create_func 4 sig_six_ints).map Prod.snd = some [5, 6, 7, 8] ∧
      param_to_arg 4 [5, 6, 7, 8] sig_six_ints (TypeFunc.Parms + 4) = 4 := by
  have hpos := create_func_nf_pos NF_REGS hN domain params nf_pos h
  have hnd0 := general_params_nodup domain TypeFunc.Parms
  have hcount : ∀ k : Nat,
      TypeFunc.Parms + k ∈ (general_params TypeFunc.Parms domain).drop NF_REGS →
      TypeFunc.Parms + k ∉ nf_pos ∧
      param_to_arg NF_REGS nf_pos domain (TypeFunc.Parms + k) =
        ((domain.take k).filter (fun at_ => !at_.is_Half)).length := by
    intro k hk
    have hsplit : (general_params TypeFunc.Parms domain).take NF_REGS ++
        (general_params TypeFunc.Parms domain).drop NF_REGS =
        general_params TypeFunc.Parms domain := List.take_append_drop _ _
    have hdisj := (List.nodup_append.mp (hsplit ▸ hnd0)).2.2
    have hnot : TypeFunc.Parms + k ∉ nf_pos := by
      rw [hpos]
      intro hin
      exact hdisj hin hk
    have hlen : NF_REGS < (general_params TypeFunc.Parms domain).length := by
      by_contra hc
      rw [List.drop_eq_nil_of_le (by omega)] at hk
      simp at hk
    have hfull : nf_pos.length = NF_REGS := by
      rw [hpos, List.length_take]
      omega
    have hdom : domain.cnt ≠ TypeFunc.Parms := by
      cases domain with
      | nil => simp [general_params] at hlen
      | cons f rest => simp [Domain.cnt]
    refine ⟨hnot, ?_⟩
    unfold param_to_arg
    rw [if_neg hnot, if_neg hdom]
    have harg : ¬ (nf_pos.length > 0 ∧ nf_pos.length < NF_REGS) := by omega
    simp [harg]
  refine ⟨hpos, ?_, hcount, ?_, by decide, by decide⟩
  · intro p hp
    have hnd : nf_pos.Nodup := by
      rw [hpos]
      exact hnd0.sublist (List.take_sublist _ _)
    have hmem : nf_pos.get ⟨p, hp⟩ ∈ nf_pos := List.get_mem _ _ _
    have hidx : nf_pos.indexOf (nf_pos.get ⟨p, hp⟩) = p := by
      have := List.get_indexOf hnd ⟨p, hp⟩
      simpa using this
    unfold param_to_arg
    rw [if_pos hmem, hidx, Nat.add_comm]
  · intro hwf k hk
    rw [(hcount k hk).2,
      filter_half_eq_void (domain.take k) (fun f hf => hwf f (List.mem_of_mem_take hf))]
    exact create_func_overflow_slot NF_REGS hN domain params nf_pos h k hk

/-- Witness of the C11 theorem: the signature
`(long, int, int, float, int, int, int)`, quota 4. The list `_nf_pos` is
`[5, 7, 8, 10]`; the next general parameter (domain index 11, at `k = 6`) has
five parameters before it, and the physical parameter at index 5 is the one of
domain index 11. -/
theorem C11_witness :
    [5, 7, 8, 10] = (general_params TypeFunc.Parms sig_long_ints).take 4 ∧
      (∀ (p : Nat) (hp : p < [5, 7, 8, 10].length),
        param_to_arg 4 [5, 7, 8, 10] sig_long_ints (([5, 7, 8, 10] : List Nat).get ⟨p, hp⟩) =
          (p + 1) % 4) ∧
      (∀ k : Nat, TypeFunc.Parms + k ∈ (general_params TypeFunc.Parms sig_long_ints).drop 4 →
        TypeFunc.Parms + k ∉ [5, 7, 8, 10] ∧
        param_to_arg 4 [5, 7, 8, 10] sig_long_ints (TypeFunc.Parms + k) =
          ((sig_long_ints.take k).filter (fun at_ => !at_.is_Half)).length) ∧
      (∀ k : Nat, TypeFunc.Parms + k ∈ (general_params TypeFunc.Parms sig_long_ints).drop 4 →
        (params_long_ints[param_to_arg 4 [5, 7, 8, 10] sig_long_ints (TypeFunc.Parms + k)]?).map
          Param.origin = some (some (TypeFunc.Parms + k))) ∧
      param_to_arg 4 [5, 7, 8, 10] sig_long_ints (TypeFunc.Parms + 6) = 5 := by
  have h := C11_param_to_arg_of_recorded 4 (by decide) sig_long_ints params_long_ints
    [5, 7, 8, 10] (by decide)
  exact ⟨h.1, h.2.1, h.2.2.1, h.2.2.2.1 (by decide), by decide⟩

/-- Claim C11 fails as stated: with six `int` parameters and quota 4,
`create_func` records the first four parameters and puts the fifth (domain
index `TypeFunc::Parms + 4 = 9`) into physical slot 4, and `param_to_arg`
returns 4 for it, not 1; called with the bare number 4, which is no parameter
index of the domain, it returns 0. -/
theorem C11_counterexample :
    create_func 4 sig_six_ints =
        some ([⟨LType.i32, some 8⟩, ⟨LType.i32, some 5⟩, ⟨LType.i32, some 6⟩,
          ⟨LType.i32, some 7⟩, ⟨LType.i32, some 9⟩, ⟨LType.i32, some 10⟩], [5, 6, 7, 8]) ∧
      param_to_arg 4 [5, 6, 7, 8] sig_six_ints (TypeFunc.Parms + 4) = 4 ∧
      param_to_arg 4 [5, 6, 7, 8] sig_six_ints (TypeFunc.Parms + 4) ≠ 1 ∧
      param_to_arg 4 [5, 6, 7, 8] sig_six_ints 4 = 0 := by
  decide

end Selector

/-! ## Part 3, continued. Call kinds and equal offsets -/

namespace LlvmRelocator

/-- Claim C15, amended. The method `add` gives every call record one of four
kinds when it creates it: a dynamic call becomes a virtual-call record; a
static-call site without a target method, and a rethrow, become runtime-call
records; a static-call site whose target method is static becomes a
static-call record, and one whose target method is not static becomes an
opt-virtual-call record. The kind fixes the relocation spec of the record, and
`apply_relocs` leaves it as it is. -/
theorem C15_add_call_kinds (relocs : List Reloc) (offset : Nat) :
    add relocs .DynamicCall offset = some (relocs ++ [.VirtualCallReloc offset 0]) ∧
      add relocs (.StaticCall none) offset =
        some (relocs ++ [.CallReloc .RelocRuntimeCall offset]) ∧
      add relocs (.StaticCall (some true)) offset =
        some (relocs ++ [.CallReloc .RelocStaticCall offset]) ∧
      add relocs (.StaticCall (some false)) offset =
        some (relocs ++ [.CallReloc .RelocOptVirtualCall offset]) ∧
      add relocs .Rethrow offset = some (relocs ++ [.CallReloc .RelocRuntimeCall offset]) ∧
      (Reloc.CallReloc .RelocRuntimeCall offset).getHolder = some .runtime_call ∧
      (Reloc.CallReloc .RelocStaticCall offset).getHolder = some .static_call ∧
      (Reloc.CallReloc .RelocOptVirtualCall offset).getHolder = some .opt_virtual_call ∧
      (∀ {σ : Type} (ops : MasmOps σ) (m : σ) (kind : HotspotRelocInfo),
        (apply_reloc ops m (.CallReloc kind offset)).map Prod.snd =
          some (.CallReloc kind offset)) := by
  refine ⟨rfl, rfl, rfl, rfl, rfl, rfl, rfl, rfl, ?_⟩
  intro σ ops m kind
  cases kind <;> rfl

/-- Claim C15 fails as stated: a static-call site whose known target method is
not static gets an opt-virtual-call record, which is none of virtual, static
and runtime; its relocation spec is `opt_virtual_call`, not `static_call`. -/
theorem C15_counterexample :
    add [] (.StaticCall (some false)) 4 = some [.CallReloc .RelocOptVirtualCall 4] ∧
      (Reloc.CallReloc .RelocOptVirtualCall 4).getHolder = some .opt_virtual_call ∧
      (Reloc.CallReloc .RelocOptVirtualCall 4).getHolder ≠ some .static_call ∧
      add [] (.StaticCall (some false)) 4 ≠ some [.CallReloc .RelocStaticCall 4] := by
  decide

theorem apply_loop_total {σ : Type} (ops : MasmOps σ) (Good : σ → Prop)
    (hstep : ∀ (m : σ) (rel : Reloc), Good m →
      ∃ m' rel', apply_reloc ops m rel = some (m', rel') ∧ Good m' ∧ rel'.offset = rel.offset) :
    ∀ (l : List Reloc) (m : σ), Good m →
      ∃ m' done, apply_loop ops m l = some (m', done) ∧ Good m' ∧
        done.map Reloc.offset = l.map Reloc.offset := by
  intro l
  induction l with
  | nil => intro m hm; exact ⟨m, [], rfl, hm, rfl⟩
  | cons r rest ih =>
    intro m hm
    obtain ⟨m1, r1, h1, hg1, ho1⟩ := hstep m r hm
    obtain ⟨m2, done, h2, hg2, ho2⟩ := ih m1 hg1
    exact ⟨m2, r1 :: done, by simp [apply_loop, h1, h2], hg2, by simp [ho1, ho2]⟩

theorem place_placed (b : Buffer) (size con : Nat) (hs : 0 < size) (hb : b.Placed) :
    (b.place size con).1 ≠ 0 ∧ (b.place size con).2.Placed := by
  obtain ⟨h1, h2⟩ := hb
  have hle : b.consts_end ≤ (b.consts_end + size - 1) / size * size := by
    have h := Nat.div_add_mod (b.consts_end + size - 1) size
    have hm := Nat.mod_lt (b.consts_end + size - 1) hs
    have hc : size * ((b.consts_end + size - 1) / size) =
        (b.consts_end + size - 1) / size * size := Nat.mul_comm _ _
    omega
  refine ⟨?_, ?_, ?_⟩
  · simp only [Buffer.place]; omega
  · simp only [Buffer.place]; omega
  · simpa [Buffer.place] using h2

/-- On a placed buffer the patch of any single record succeeds and leaves a
placed buffer: every address that `getHolder` asserts on has been set. -/
theorem bufferOps_apply_reloc (m : Buffer) (rel : Reloc) (hm : m.Placed) :
    ∃ m' rel', apply_reloc bufferOps m rel = some (m', rel') ∧ m'.Placed ∧
      rel'.offset = rel.offset := by
  have hm' := hm
  obtain ⟨h1, h2⟩ := hm'
  cases rel with
  | CallReloc k o =>
    cases k <;> exact ⟨_, _, rfl, ⟨h1, h2⟩, rfl⟩
  | InternalReloc o => exact ⟨_, _, rfl, ⟨h1, h2⟩, rfl⟩
  | VirtualCallReloc o ic =>
    have hne : ((m.insts_start : Int) + ((o : Int) - (bufferOps.instruction_size : Int))).toNat ≠ 0 := by
      have : bufferOps.instruction_size < m.insts_start := h2
      omega
    simp only [apply_reloc, Reloc.getHolder, bufferOps] at hne ⊢
    rw [if_pos hne]
    exact ⟨_, _, rfl, ⟨h1, h2⟩, rfl⟩
  | FloatReloc o con a =>
    obtain ⟨hne, hp⟩ := place_placed m 4 con (by decide) hm
    simp only [apply_reloc, Reloc.getHolder, bufferOps] at hne ⊢
    rw [if_pos hne]
    exact ⟨_, _, rfl, ⟨hp.1, hp.2⟩, rfl⟩
  | DoubleReloc o con a =>
    obtain ⟨hne, hp⟩ := place_placed m 8 con (by decide) hm
    simp only [apply_reloc, Reloc.getHolder, bufferOps] at hne ⊢
    rw [if_pos hne]
    exact ⟨_, _, rfl, ⟨hp.1, hp.2⟩, rfl⟩
  | OopReloc o con a =>
    have hm1 : ({ m with oops := m.oops ++ [con] } : Buffer).Placed := ⟨h1, h2⟩
    obtain ⟨hne, hp⟩ := place_placed _ 8 con (by decide) hm1
    simp only [apply_reloc, Reloc.getHolder, bufferOps] at hne ⊢
    rw [if_pos hne]
    exact ⟨_, _, rfl, ⟨hp.1, hp.2⟩, rfl⟩

/-- Claim C16, amended. The method `apply_relocs` makes no check of the offsets
of the pending records: over a host in which the patch of every single record
succeeds in every good buffer state and leaves a good state, it completes on
every list of pending records, with or without equal offsets, and patches every
record of the list, in the sorted order. -/
theorem C16_apply_relocs_ignores_equal_offsets {σ : Type} (ops : MasmOps σ)
    (sort : List Reloc → List Reloc) (hsort : StdSortContract sort) (Good : σ → Prop)
    (hstep : ∀ (m : σ) (rel : Reloc), Good m →
      ∃ m' rel', apply_reloc ops m rel = some (m', rel') ∧ Good m' ∧ rel'.offset = rel.offset)
    (m : σ) (hm : Good m) (relocs : List Reloc) :
    ∃ m' done, apply_relocs ops sort m relocs = some (m', done) ∧ Good m' ∧
      done.map Reloc.offset = (sort relocs).map Reloc.offset ∧
      (done.map Reloc.offset).Perm (relocs.map Reloc.offset) := by
  obtain ⟨m', done, h1, h2, h3⟩ := apply_loop_total ops Good hstep (sort relocs) m hm
  refine ⟨m', done, h1, h2, h3, ?_⟩
  rw [h3]
  exact (hsort relocs).1.map Reloc.offset

/-- Witness of the C16 theorem: the buffer model, the insertion sort, and two
float records at one offset. -/
theorem C16_witness :
    ∃ m' done, apply_relocs bufferOps std_sort empty_buffer relocs_collision = some (m', done) ∧
      m'.Placed ∧
      done.map Reloc.offset = (std_sort relocs_collision).map Reloc.offset ∧
      (done.map Reloc.offset).Perm (relocs_collision.map Reloc.offset) :=
  C16_apply_relocs_ignores_equal_offsets bufferOps std_sort std_sort_contract Buffer.Placed
    bufferOps_apply_reloc empty_buffer (by decide) relocs_collision

/-- Claim C16 fails as stated: with two float records pending at the same
offset 8, `apply_relocs` does not fail; it places both constants and records
two relocations at the one instruction address `0x1008`. -/
theorem C16_counterexample :
    relocs_collision.map Reloc.offset = [8, 8] ∧
      apply_relocs bufferOps std_sort empty_buffer relocs_collision ≠ none ∧
      (apply_relocs bufferOps std_sort empty_buffer relocs_collision).map
          (fun r => r.1.insts_relocs) =
        some [(0x1008, .internal_word 0x100), (0x1008, .internal_word 0x104)] := by
  decide

end LlvmRelocator

/-! ## Part 2, continued. The may-be-null path of `decode_heap_oop` -/

namespace Selector

/-- Claim C18, the code at the failing input. Configuration: oop base at 64 GB,
shift 3, klass base at 32 GB. `decode_heap_oop(1, not_null = false)` has no
value, because the path reads through `oop` before assigning it; and the
`select` that the following statements build denotes, for narrow value 1,
klass base + 8, not oop base + 8. -/
theorem C18_decode_may_be_null_at_failing_input :
    Supported cfg_klass_apart ∧
      decode_heap_oop cfg_klass_apart 1 false = none ∧
      decode_heap_oop_select cfg_klass_apart 1 0 = 0x800000000 + 8 ∧
      decode_heap_oop_select cfg_klass_apart 1 0 ≠
        cfg_klass_apart.narrow_oop_base + LLVM.shl 64 1 cfg_klass_apart.narrow_oop_shift ∧
      decode_heap_oop_select cfg_klass_apart 0 0 = 0 := by
  decide

end Selector

/-! ## Part 6. Provenance tags -/

namespace Selector

theorem mark_mptr_apart (m m' : OopInfoMap) (oop : Nat) (hm : TagsApart m)
    (h : mark_mptr true m oop = some m') : TagsApart m' := by
  unfold mark_mptr oop_info oop_info_insert at h
  simp only [↓reduceIte, Bool.true_and] at h
  intro v i hv
  cases hmo : m oop with
  | none =>
    simp only [hmo] at h
    simp only [OopInfo.isNarrowPtr, OopInfo.fresh, Bool.false_eq_true, ↓reduceIte,
      Option.some.injEq] at h
    subst h
    unfold oop_info_store at hv
    by_cases hk : v = oop
    · simp only [hk, ↓reduceIte, Option.some.injEq] at hv
      subst hv
      simp [OopInfo.isNarrowPtr, OopInfo.markManagedPtr]
    · simp only [hk, ↓reduceIte] at hv
      exact hm v i hv
  | some i0 =>
    simp only [hmo] at h
    by_cases hn : i0.isNarrowPtr = true
    · simp [hn] at h
    · simp only [Bool.not_eq_true] at hn
      simp only [hn, Bool.false_eq_true, ↓reduceIte, Option.some.injEq] at h
      subst h
      unfold oop_info_store at hv
      by_cases hk : v = oop
      · simp only [hk, ↓reduceIte, Option.some.injEq] at hv
        subst hv
        simp only [OopInfo.isNarrowPtr] at hn
        simp [OopInfo.isNarrowPtr, OopInfo.isManagedPtr, OopInfo.markManagedPtr, hn]
      · simp only [hk, ↓reduceIte, hmo] at hv
        exact hm v i hv

theorem mark_nptr_apart (UseCompressedOops : Bool) (c : Config) (m m' : OopInfoMap) (oop : Nat)
    (hm : TagsApart m) (h : mark_nptr true UseCompressedOops c m oop = some m') :
    TagsApart m' := by
  unfold mark_nptr at h
  cases hu : UseCompressedOops with
  | false => simp [hu] at h
  | true =>
    simp only [hu, Bool.not_true, Bool.and_false, Bool.false_eq_true, ↓reduceIte,
      Bool.true_and] at h
    by_cases hf : is_fast_compression c = true
    · simp only [hf, ↓reduceIte] at h
      exact mark_mptr_apart m m' oop hm h
    · simp only [hf, Bool.false_eq_true, ↓reduceIte] at h
      unfold oop_info oop_info_insert at h
      simp only [↓reduceIte] at h
      intro v i hv
      cases hmo : m oop with
      | none =>
        simp only [hmo] at h
        simp only [OopInfo.isManagedPtr, OopInfo.fresh, Bool.false_eq_true, ↓reduceIte,
          Option.some.injEq] at h
        subst h
        unfold oop_info_store at hv
        by_cases hk : v = oop
        · simp only [hk, ↓reduceIte, Option.some.injEq] at hv
          subst hv
          simp [OopInfo.isManagedPtr, OopInfo.markNarrowPtr]
        · simp only [hk, ↓reduceIte] at hv
          exact hm v i hv
      | some i0 =>
        simp only [hmo] at h
        by_cases hn : i0.isManagedPtr = true
        · simp [hn] at h
        · simp only [Bool.not_eq_true] at hn
          simp only [hn, Bool.false_eq_true, ↓reduceIte, Option.some.injEq] at h
          subst h
          unfold oop_info_store at hv
          by_cases hk : v = oop
          · simp only [hk, ↓reduceIte, Option.some.injEq] at hv
            subst hv
            simp only [OopInfo.isManagedPtr] at hn
            simp [OopInfo.isNarrowPtr, OopInfo.isManagedPtr, OopInfo.markNarrowPtr, hn]
          · simp only [hk, ↓reduceIte, hmo] at hv
            exact hm v i hv

theorem oop_info_insert_apart (m : OopInfoMap) (v : Nat) (hm : TagsApart m) :
    TagsApart (oop_info_insert m v) := by
  intro k i hk
  unfold oop_info_insert at hk
  by_cases e : k = v
  · simp only [e, ↓reduceIte] at hk
    cases hmv : m v with
    | none =>
      simp only [hmv, Option.some.injEq] at hk
      subst hk
      simp [OopInfo.fresh, OopInfo.isManagedPtr]
    | some i0 =>
      simp only [hmv, Option.some.injEq] at hk
      subst hk
      exact hm v i0 hmv
  · simp only [e, ↓reduceIte] at hk
    exact hm k i hk

/-- The record of a value that was just inserted is there. -/
theorem oop_info_insert_self (m : OopInfoMap) (v : Nat) :
    ∃ i, oop_info (oop_info_insert m v) v = some i := by
  unfold oop_info oop_info_insert
  cases hmv : m v with
  | none => exact ⟨OopInfo.fresh, by simp⟩
  | some i0 => exact ⟨i0, by simp⟩

theorem mark_dptr_apart (ASSERT : Bool) (m m' : OopInfoMap) (ptr base : Nat) (hm : TagsApart m)
    (h : mark_dptr ASSERT m ptr base = some m') : TagsApart m' := by
  have hins := oop_info_insert_apart m ptr hm
  unfold mark_dptr oop_info at h
  cases hp : oop_info_insert m ptr ptr with
  | none => simp [hp] at h
  | some ptr_info =>
    simp only [hp] at h
    split at h
    · cases h
    · simp only [Option.some.injEq] at h
      subst h
      intro v i hv
      unfold oop_info_store at hv
      by_cases hk : v = ptr
      · simp only [hk, ↓reduceIte, Option.some.injEq] at hv
        subst hv
        exact hins ptr ptr_info hp
      · simp only [hk, ↓reduceIte] at hv
        exact hins v i hv

theorem mark_all_apart (UseCompressedOops : Bool) (c : Config) :
    ∀ (calls : List MarkCall) (m m' : OopInfoMap), TagsApart m →
      mark_all true UseCompressedOops c m calls = some m' → TagsApart m' := by
  intro calls
  induction calls with
  | nil =>
    intro m m' hm h
    simp only [mark_all, Option.some.injEq] at h
    subst h
    exact hm
  | cons call rest ih =>
    intro m m' hm h
    unfold mark_all at h
    cases h1 : mark true UseCompressedOops c m call with
    | none => simp [h1] at h
    | some m1 =>
      simp only [h1] at h
      refine ih m1 m' ?_ h
      cases call with
      | mptr oop => exact mark_mptr_apart m m1 oop hm h1
      | nptr oop => exact mark_nptr_apart UseCompressedOops c m m1 oop hm h1
      | dptr ptr base => exact mark_dptr_apart true m m1 ptr base hm h1

/-- Without `ASSERT` no call of a mark function fails. -/
theorem mark_product_some (UseCompressedOops : Bool) (c : Config) (m : OopInfoMap)
    (call : MarkCall) : ∃ m', mark false UseCompressedOops c m call = some m' := by
  cases call with
  | mptr oop =>
    obtain ⟨i, hi⟩ := oop_info_insert_self m oop
    simp [mark, mark_mptr, hi]
  | nptr oop =>
    obtain ⟨i, hi⟩ := oop_info_insert_self m oop
    by_cases hf : is_fast_compression c = true
    · simp [mark, mark_nptr, mark_mptr, hi, hf]
    · simp [mark, mark_nptr, hi, hf]
  | dptr ptr base =>
    obtain ⟨i, hi⟩ := oop_info_insert_self m ptr
    simp [mark, mark_dptr, hi]

theorem mark_all_product_some (UseCompressedOops : Bool) (c : Config) :
    ∀ (calls : List MarkCall) (m : OopInfoMap),
      (mark_all false UseCompressedOops c m calls).isSome = true := by
  intro calls
  induction calls with
  | nil => intro m; rfl
  | cons call rest ih =>
    intro m
    obtain ⟨m1, h1⟩ := mark_product_some UseCompressedOops c m call
    simp only [mark_all, h1]
    exact ih m1

/-- Without `ASSERT`, outside fast compression: `mark_mptr(v)` followed by
`mark_nptr(v)` returns and leaves `v` tagged managed and narrow. -/
theorem mark_product_both (UseCompressedOops : Bool) (c : Config)
    (hf : is_fast_compression c = false) (m0 : OopInfoMap) (v : Nat) :
    ∃ m1 m2 i, mark_mptr false m0 v = some m1 ∧
      mark_nptr false UseCompressedOops c m1 v = some m2 ∧ oop_info m2 v = some i ∧
      i.isManagedPtr = true ∧ i.isNarrowPtr = true := by
  obtain ⟨i0, hi0⟩ := oop_info_insert_self m0 v
  have h1 : mark_mptr false m0 v =
      some (oop_info_store (oop_info_insert m0 v) v i0.markManagedPtr) := by
    simp [mark_mptr, hi0]
  have hi1 : oop_info (oop_info_insert
      (oop_info_store (oop_info_insert m0 v) v i0.markManagedPtr) v) v =
      some i0.markManagedPtr := by
    simp [oop_info, oop_info_insert, oop_info_store]
  have h2 : mark_nptr false UseCompressedOops c
      (oop_info_store (oop_info_insert m0 v) v i0.markManagedPtr) v =
      some (oop_info_store (oop_info_insert
        (oop_info_store (oop_info_insert m0 v) v i0.markManagedPtr) v) v
        i0.markManagedPtr.markNarrowPtr) := by
    simp only [mark_nptr, Bool.false_and, Bool.false_eq_true, ↓reduceIte, hf, hi1]
  exact ⟨_, _, i0.markManagedPtr.markNarrowPtr, h1, h2, by simp [oop_info, oop_info_store],
    rfl, rfl⟩

/-- Claim C17, amended. In a build with `ASSERT`: after every sequence of
`mark_mptr`, `mark_nptr` and `mark_dptr` calls on a new Selector that completes
without a failed assertion, no value is tagged both managed and narrow; and in
any map, `mark_mptr` on a value tagged narrow fails, and so does `mark_nptr` on
a value tagged managed whenever it would add the narrow tag (outside fast
compression, where it adds the managed tag instead). In a build without
`ASSERT` no sequence of calls fails, and outside fast compression
`mark_mptr(v)` followed by `mark_nptr(v)` leaves `v` tagged both managed and
narrow, whatever the map was before. -/
theorem C17_never_managed_and_narrow (UseCompressedOops : Bool) (c : Config)
    (calls : List MarkCall) (m : OopInfoMap)
    (h : mark_all true UseCompressedOops c oop_info_empty calls = some m) :
    TagsApart m ∧
      (∀ (m0 : OopInfoMap) (v : Nat) (i : OopInfo), oop_info m0 v = some i →
        (i.isNarrowPtr = true → mark_mptr true m0 v = none) ∧
        (i.isManagedPtr = true → is_fast_compression c = false →
          mark_nptr true UseCompressedOops c m0 v = none)) ∧
      (∀ (calls' : List MarkCall) (m0 : OopInfoMap),
        (mark_all false UseCompressedOops c m0 calls').isSome = true) ∧
      (is_fast_compression c = false → ∀ (m0 : OopInfoMap) (v : Nat),
        ∃ m1 m2 i, mark_mptr false m0 v = some m1 ∧
          mark_nptr false UseCompressedOops c m1 v = some m2 ∧ oop_info m2 v = some i ∧
          i.isManagedPtr = true ∧ i.isNarrowPtr = true) := by
  refine ⟨mark_all_apart UseCompressedOops c calls oop_info_empty m ?_ h, ?_,
    mark_all_product_some UseCompressedOops c,
    fun hf m0 v => mark_product_both UseCompressedOops c hf m0 v⟩
  · intro v i hv
    simp [oop_info_empty] at hv
  · intro m0 v i hi
    unfold oop_info at hi
    refine ⟨fun hn => ?_, fun hmg hf => ?_⟩
    · simp [mark_mptr, oop_info, oop_info_insert, hi, hn]
    · cases UseCompressedOops <;>
        simp [mark_nptr, oop_info, oop_info_insert, hi, hmg, hf]

/-- Witness of the C17 theorem: a build with `ASSERT`, heap-based
configuration, a sequence of four calls that completes. -/
theorem C17_witness :
    (mark_all true true cfg_heap_based oop_info_empty sample_marks).isSome = true ∧
      (TagsApart
          ((mark_all true true cfg_heap_based oop_info_empty sample_marks).getD oop_info_empty) ∧
        (∀ (m0 : OopInfoMap) (v : Nat) (i : OopInfo), oop_info m0 v = some i →
          (i.isNarrowPtr = true → mark_mptr true m0 v = none) ∧
          (i.isManagedPtr = true → is_fast_compression cfg_heap_based = false →
            mark_nptr true true cfg_heap_based m0 v = none)) ∧
        (∀ (calls' : List MarkCall) (m0 : OopInfoMap),
          (mark_all false true cfg_heap_based m0 calls').isSome = true) ∧
        (is_fast_compression cfg_heap_based = false → ∀ (m0 : OopInfoMap) (v : Nat),
          ∃ m1 m2 i, mark_mptr false m0 v = some m1 ∧
            mark_nptr false true cfg_heap_based m1 v = some m2 ∧ oop_info m2 v = some i ∧
            i.isManagedPtr = true ∧ i.isNarrowPtr = true)) :=
  ⟨by decide, C17_never_managed_and_narrow true cfg_heap_based sample_marks _ rfl⟩

/-- Claim C17 fails as stated: in a build without `ASSERT` (heap-based
configuration, compressed oops in use) the calls `mark_mptr(1); mark_nptr(1)`
both return, and value 1 is then tagged managed and narrow; the same calls in
a build with `ASSERT` stop at the assertion of `mark_nptr`. -/
theorem C17_counterexample :
    is_fast_compression cfg_heap_based = false ∧
      (mark_all false true cfg_heap_based oop_info_empty marks_both).map (fun m => m 1) =
        some (some ⟨true, true, false⟩) ∧
      (∃ m, mark_all false true cfg_heap_based oop_info_empty marks_both = some m ∧
        ¬ TagsApart m) ∧
      (mark_all true true cfg_heap_based oop_info_empty marks_both).isSome = false := by
  refine ⟨by decide, by decide, ?_, by decide⟩
  obtain ⟨m, hm⟩ := Option.isSome_iff_exists.mp
    (mark_all_product_some true cfg_heap_based marks_both oop_info_empty)
  refine ⟨m, hm, fun hA => ?_⟩
  have h1 : (mark_all false true cfg_heap_based oop_info_empty marks_both).map (fun m => m 1) =
      some (some ⟨true, true, false⟩) := by decide
  rw [hm] at h1
  simp only [Option.map_some', Option.some.injEq] at h1
  exact hA 1 ⟨true, true, false⟩ h1 ⟨rfl, rfl⟩

end Selector

/-! ## Part 7. Comparisons and branches -/

namespace Selector

open LLVM

/-- The branch of `select_if` on a node with one `IfTrue` and one `IfFalse`
output, in either order. -/
theorem select_if_two (pred : Bool) (raw_out : List IfProj) (t f : IfProj)
    (hout : raw_out = [t, f] ∨ raw_out = [f, t])
    (ht : t.Opcode = Opcode.Op_IfTrue) (hf : f.Opcode = Opcode.Op_IfFalse) :
    select_if pred raw_out = some ⟨pred, t.next_block, f.next_block⟩ := by
  rcases hout with h | h <;> subst h <;> simp [select_if, ht, hf]

/-- Claim C19. For a branch node with one `IfTrue` and one `IfFalse` output,
in either order, `select_if` emits a conditional branch that goes to the block
after the `IfTrue` output when the condition is true and to the block after
the `IfFalse` output when it is false. -/
theorem C19_select_if_reads_arrangement (pred : Bool) (raw_out : List IfProj) (t f : IfProj)
    (hout : raw_out = [t, f] ∨ raw_out = [f, t])
    (ht : t.Opcode = Opcode.Op_IfTrue) (hf : f.Opcode = Opcode.Op_IfFalse) :
    ∃ br, select_if pred raw_out = some br ∧ br.pred = pred ∧
      br.target_bb = t.next_block ∧ br.fallthr_bb = f.next_block ∧
      br.taken = (if pred then t.next_block else f.next_block) := by
  refine ⟨_, select_if_two pred raw_out t f hout ht hf, rfl, rfl, rfl, rfl⟩

/-- Witness of the C19 theorem: the `IfFalse` output first. -/
theorem C19_witness :
    ∃ br, select_if true outs_false_first = some br ∧ br.pred = true ∧
      br.target_bb = (IfProj.mk .Op_IfTrue 7).next_block ∧
      br.fallthr_bb = (IfProj.mk .Op_IfFalse 3).next_block ∧
      br.taken = (if true then (IfProj.mk .Op_IfTrue 7).next_block
        else (IfProj.mk .Op_IfFalse 3).next_block) :=
  C19_select_if_reads_arrangement true outs_false_first ⟨.Op_IfTrue, 7⟩ ⟨.Op_IfFalse, 3⟩
    (Or.inr rfl) rfl rfl

/-- Claim C14, amended. For integer operands `a = b` of one width and a branch
node with one `IfTrue` and one `IfFalse` output: in the plain variant the
predicate equal takes the true successor and not-equal the false successor; in
the bitwise-and variant, which tests `a & b` against zero, equal takes the true
successor exactly when `a` is zero and not-equal exactly when `a` is not
zero. -/
theorem C14_branch_polarity (w a : Nat) (raw_out : List IfProj) (t f : IfProj)
    (hout : raw_out = [t, f] ∨ raw_out = [f, t])
    (ht : t.Opcode = Opcode.Op_IfTrue) (hf : f.Opcode = Opcode.Op_IfFalse) :
    branch_edge 1 0x0 (.int w a) (.int w a) false false raw_out = some t.next_block ∧
      branch_edge 1 0x1 (.int w a) (.int w a) false false raw_out = some f.next_block ∧
      branch_edge 1 0x0 (.int w a) (.int w a) true false raw_out =
        some (if a = 0 then t.next_block else f.next_block) ∧
      branch_edge 1 0x1 (.int w a) (.int w a) true false raw_out =
        some (if a = 0 then f.next_block else t.next_block) := by
  have hs := fun pred => select_if_two pred raw_out t f hout ht hf
  have hand : a &&& a = a := Nat.and_self a
  refine ⟨?_, ?_, ?_, ?_⟩
  · simp [branch_edge, select_condition, icmp, hs, CondBr.taken]
  · simp [branch_edge, select_condition, icmp, hs, CondBr.taken]
  · by_cases h0 : a = 0 <;>
      simp [branch_edge, select_condition, icmp, hs, CondBr.taken, hand, h0]
  · by_cases h0 : a = 0 <;>
      simp [branch_edge, select_condition, icmp, hs, CondBr.taken, hand, h0]

/-- Witness of the C14 theorem: 32-bit operands `5 = 5`, the `IfFalse` output
first. -/
theorem C14_witness :
    branch_edge 1 0x0 (.int 32 5) (.int 32 5) false false outs_false_first =
        some (IfProj.mk .Op_IfTrue 7).next_block ∧
      branch_edge 1 0x1 (.int 32 5) (.int 32 5) false false outs_false_first =
        some (IfProj.mk .Op_IfFalse 3).next_block ∧
      branch_edge 1 0x0 (.int 32 5) (.int 32 5) true false outs_false_first =
        some (if 5 = 0 then (IfProj.mk .Op_IfTrue 7).next_block
          else (IfProj.mk .Op_IfFalse 3).next_block) ∧
      branch_edge 1 0x1 (.int 32 5) (.int 32 5) true false outs_false_first =
        some (if 5 = 0 then (IfProj.mk .Op_IfFalse 3).next_block
          else (IfProj.mk .Op_IfTrue 7).next_block) :=
  C14_branch_polarity 32 5 outs_false_first ⟨.Op_IfTrue, 7⟩ ⟨.Op_IfFalse, 3⟩ (Or.inr rfl) rfl rfl

/-- Claim C14 fails as stated: for 32-bit operands `a = b = 5` the bitwise-and
variant with predicate equal tests `5 & 5 = 5` against zero, so the branch
takes the false successor (block 3), not the true successor (block 7); with
predicate not-equal it takes the true successor. -/
theorem C14_counterexample :
    select_condition 1 0x0 (.int 32 5) (.int 32 5) true false = some false ∧
      branch_edge 1 0x0 (.int 32 5) (.int 32 5) true false outs_false_first = some 3 ∧
      branch_edge 1 0x0 (.int 32 5) (.int 32 5) true false outs_false_first ≠ some 7 ∧
      branch_edge 1 0x1 (.int 32 5) (.int 32 5) true false outs_false_first = some 7 := by
  decide

end Selector

/-! ## Part 8. Calls -/

namespace Selector

open BasicBlock

theorem catch_scan_handlers_only : ∀ (outs : List CatchProj) (next : Option Nat) (hs : List Nat),
    (∀ cp ∈ outs, cp.con ≠ CatchProjNode.fall_through_index) →
    catch_scan outs (next, hs) = (next, hs ++ outs.map CatchProj.next_block) := by
  intro outs
  induction outs with
  | nil => intro next hs _; simp [catch_scan]
  | cons cp rest ih =>
    intro next hs h
    have h1 := h cp (List.mem_cons_self _ _)
    have h2 : ∀ c ∈ rest, c.con ≠ CatchProjNode.fall_through_index :=
      fun c hc => h c (List.mem_cons_of_mem _ hc)
    simp [catch_scan, h1, ih _ _ h2]

/-- Every path from a block of a set that is closed under the edges ends in
the set. -/
theorem Emitted.Path.stays (e : Emitted) (R : List BasicBlock)
    (hR : ∀ ed ∈ e.edges, ed.1 ∈ R → ed.2 ∈ R) {a b : BasicBlock} (hp : e.Path a b)
    (ha : a ∈ R) : b ∈ R := by
  induction hp with
  | here => exact ha
  | step _ hed ih => exact hR _ hed ih

/-- Claim C13, the code at the failing input. For a catch block 1 without a
fall-through successor and with the four handlers 10, 11, 12, 13, the call
creates two comparison blocks; the conditional branch of the call's block goes
to handler 10 and to the second of them, which goes to the handlers 11 and 12.
Nothing goes to the first comparison block, so neither it nor handler 13 can be
reached from the call's block. With three handlers every handler and the one
comparison block are reached. -/
theorem C13_fourth_handler_not_attached :
    ∃ e, call true (site_handlers [10, 11, 12, 13]) = some e ∧
      e.created = [handler 1 0, handler 1 1] ∧
      e.edges = [(handler 1 0, of_block 12), (handler 1 0, of_block 13),
        (handler 1 1, of_block 11), (handler 1 1, of_block 12),
        (of_block 1, of_block 10), (of_block 1, handler 1 1)] ∧
      ¬ e.Path (of_block 1) (of_block 13) ∧
      ¬ e.Path (of_block 1) (handler 1 0) ∧
      (∃ e3, call true (site_handlers [10, 11, 12]) = some e3 ∧
        e3.Path (of_block 1) (of_block 10) ∧ e3.Path (of_block 1) (of_block 11) ∧
        e3.Path (of_block 1) (of_block 12) ∧ e3.Path (of_block 1) (handler 1 0)) := by
  refine ⟨_, rfl, by decide, by decide, ?_, ?_, ?_⟩
  · intro hp
    have := Emitted.Path.stays _
      [of_block 1, of_block 10, handler 1 1, of_block 11, of_block 12] (by decide) hp (by decide)
    revert this
    decide
  · intro hp
    have := Emitted.Path.stays _
      [of_block 1, of_block 10, handler 1 1, of_block 11, of_block 12] (by decide) hp (by decide)
    revert this
    decide
  · refine ⟨_, rfl, ?_, ?_, ?_, ?_⟩
    · exact .step (.here _) (by decide)
    · exact .step (.step (.here _) (by decide : (of_block 1, handler 1 0) ∈ _)) (by decide)
    · exact .step (.step (.here _) (by decide : (of_block 1, handler 1 0) ∈ _)) (by decide)
    · exact .step (.here _) (by decide)

/-- Claim C20, amended. For a call whose block does not end in a `Catch`,
`Selector::call` emits a branch to the block's first non-connector successor
if and only if the call is a Java call and the block ends neither in a return
nor in a goto; it emits no other branch and creates no block. -/
theorem C20_fall_through_branch (has_exceptions : Bool) (s : CallSite)
    (hc : s.catch_outs = none) :
    ∃ e, call has_exceptions s = some e ∧
      ((of_block s.block, Inst.br (of_block s.non_connector_successor)) ∈ e.insts ↔
        (s.is_MachCallJava = true ∧ s.end_is_MachReturn = false ∧ s.end_is_MachGoto = false)) ∧
      (∀ (b : BasicBlock) (i : Inst), (b, i) ∈ e.insts → i.succs ≠ [] →
        b = of_block s.block ∧ i = Inst.br (of_block s.non_connector_successor)) ∧
      e.created = [] := by
  simp only [call, hc]
  refine ⟨_, rfl, ?_, ?_, rfl⟩
  · cases s.is_MachCallJava <;> cases s.end_is_MachReturn <;> cases s.end_is_MachGoto <;>
      cases s.ret_void <;> simp
  · intro b i
    cases s.is_MachCallJava <;> cases s.end_is_MachReturn <;> cases s.end_is_MachGoto <;>
      cases s.ret_void <;> simp <;> intro h <;> rcases h with h | h | h <;>
      (try obtain ⟨h1, h2⟩ := h) <;> simp_all [Inst.succs]

/-- Witness of the C20 theorem: a runtime call in a block that ends neither in
a `Catch` nor in a return or goto. -/
theorem C20_witness :
    ∃ e, call true site_runtime_call = some e ∧
      ((of_block site_runtime_call.block,
          Inst.br (of_block site_runtime_call.non_connector_successor)) ∈ e.insts ↔
        (site_runtime_call.is_MachCallJava = true ∧ site_runtime_call.end_is_MachReturn = false ∧
          site_runtime_call.end_is_MachGoto = false)) ∧
      (∀ (b : BasicBlock) (i : Inst), (b, i) ∈ e.insts → i.succs ≠ [] →
        b = of_block site_runtime_call.block ∧
          i = Inst.br (of_block site_runtime_call.non_connector_successor)) ∧
      e.created = [] :=
  C20_fall_through_branch true site_runtime_call rfl

/-- Claim C20 fails as stated: for a call that is not a Java call, in a block
that ends neither in a `Catch` nor in a return or goto, `Selector::call` emits
the call and no branch. -/
theorem C20_counterexample :
    site_runtime_call.catch_outs = none ∧
      site_runtime_call.end_is_MachReturn = false ∧ site_runtime_call.end_is_MachGoto = false ∧
      call true site_runtime_call = some ⟨[], [(of_block 1, Inst.statepoint_call)]⟩ ∧
      (call true site_runtime_call).map
          (fun e => decide ((of_block 1, Inst.br (of_block 2)) ∈ e.insts)) = some false := by
  decide

end Selector

/-! ## Part 7, continued. Floating-point comparisons -/

namespace Selector

open LLVM

/-- Claim C21, amended. For a floating-point comparison lowered by
`select_condition` in which at least one operand is NaN, the condition is true
for each of the six predicates (equal, not-equal, less, less-or-equal, greater,
greater-or-equal): every one of them is lowered to its unordered `fcmp`. -/
theorem C21_nan_makes_every_predicate_true (ccode : Nat) (a b : FP) (hc : ccode < 6)
    (hnan : a.isNaN = true ∨ b.isNaN = true) :
    select_condition 1 ccode (.fp a) (.fp b) false true = some true := by
  have hcases : ccode = 0 ∨ ccode = 1 ∨ ccode = 2 ∨ ccode = 3 ∨ ccode = 4 ∨ ccode = 5 := by
    omega
  cases a <;> cases b <;> simp [FP.isNaN] at hnan <;>
    rcases hcases with h | h | h | h | h | h <;> subst h <;>
    simp [select_condition, fcmp]

/-- Witness of the C21 theorem: predicate equal (condition code 0), NaN against
the number at place 0. -/
theorem C21_witness :
    select_condition 1 0 (.fp .nan) (.fp (.num 0)) false true = some true :=
  C21_nan_makes_every_predicate_true 0 .nan (.num 0) (by decide) (Or.inl rfl)

/-- Claim C21 fails as stated: with a NaN operand the predicates equal and less
(condition codes 0 and 2) give a true condition, not a false one; on two
numbers the same predicates do tell `1 = 2` and `2 < 1` false. -/
theorem C21_counterexample :
    select_condition 1 0 (.fp .nan) (.fp (.num 0)) false true = some true ∧
      select_condition 1 0 (.fp .nan) (.fp (.num 0)) false true ≠ some false ∧
      select_condition 1 2 (.fp (.num 0)) (.fp .nan) false true = some true ∧
      select_condition 1 0 (.fp (.num 1)) (.fp (.num 2)) false true = some false ∧
      select_condition 1 2 (.fp (.num 2)) (.fp (.num 1)) false true = some false := by
  decide

end Selector

/-! ## Part 1, continued. What `callconv_adjust` does to an argument list -/

namespace Selector

theorem callconv_scan_short (NF_REGS : Nat) :
    ∀ (rest : List Value) (nf : Nat) (seen : List Value),
      nf + nf_count rest < NF_REGS →
      callconv_scan NF_REGS nf seen rest = (nf + nf_count rest, none) := by
  intro rest
  induction rest with
  | nil => intro nf seen _; simp [callconv_scan, nf_count]
  | cons x rest ih =>
    intro nf seen h
    rw [nf_count_cons] at h
    rw [nf_count_cons]
    cases hx : x.getType.isFloatingPointTy with
    | true =>
      simp only [hx, ↓reduceIte, Nat.zero_add] at h ⊢
      simp [callconv_scan, hx, ih nf (seen ++ [x]) h]
    | false =>
      simp only [hx, Bool.false_eq_true, ↓reduceIte] at h ⊢
      have hq : ¬ nf + 1 = NF_REGS := by omega
      simp only [callconv_scan, hx, Bool.false_eq_true, ↓reduceIte, beq_iff_eq, hq]
      rw [ih (nf + 1) (seen ++ [x]) (by omega)]
      simp only [Prod.mk.injEq, and_true]
      omega

/-- Claim C26. The function `callconv_adjust` never drops or merges an argument.
With at least `NF_REGS` non-floating arguments its result is the input with the
`NF_REGS`-th non-floating argument moved to the front, the others in their
order; with between 1 and `NF_REGS - 1` of them it is the input behind one
64-bit zero; with none it is the input. In each case the result consists of
the input arguments and at most that one zero. -/
theorem C26_callconv_adjust_keeps_arguments (NF_REGS : Nat) (hN : 0 < NF_REGS)
    (args : List Value) :
    (NF_REGS ≤ nf_count args →
      ∃ pre a post, args = pre ++ a :: post ∧ a.getType.isFloatingPointTy = false ∧
        nf_count pre + 1 = NF_REGS ∧ callconv_adjust NF_REGS args = a :: (pre ++ post)) ∧
    (0 < nf_count args → nf_count args < NF_REGS →
      callconv_adjust NF_REGS args = Value.int64 0 :: args) ∧
    (nf_count args = 0 → callconv_adjust NF_REGS args = args) ∧
    ((callconv_adjust NF_REGS args).Perm args ∨
      callconv_adjust NF_REGS args = Value.int64 0 :: args) := by
  have h1 : NF_REGS ≤ nf_count args →
      ∃ pre a post, args = pre ++ a :: post ∧ a.getType.isFloatingPointTy = false ∧
        nf_count pre + 1 = NF_REGS ∧ callconv_adjust NF_REGS args = a :: (pre ++ post) := by
    intro h
    obtain ⟨pre, a, post, e, ha, hc, hs⟩ := callconv_scan_move NF_REGS args 0 [] hN (by omega)
    exact ⟨pre, a, post, e, ha, by omega, by simp [callconv_adjust, hs]⟩
  have h2 : 0 < nf_count args → nf_count args < NF_REGS →
      callconv_adjust NF_REGS args = Value.int64 0 :: args := by
    intro hpos hlt
    have hs := callconv_scan_short NF_REGS args 0 [] (by omega)
    have hne : nf_count args ≠ 0 := by omega
    simp [callconv_adjust, hs, hne]
  have h3 : nf_count args = 0 → callconv_adjust NF_REGS args = args := by
    intro h0
    have hs := callconv_scan_short NF_REGS args 0 [] (by omega)
    simp [callconv_adjust, hs, h0]
  refine ⟨h1, h2, h3, ?_⟩
  by_cases hge : NF_REGS ≤ nf_count args
  · obtain ⟨pre, a, post, e, _, _, hr⟩ := h1 hge
    left
    rw [hr, e]
    exact (List.perm_middle).symm
  · by_cases h0 : nf_count args = 0
    · left; rw [h3 h0]
    · right; exact h2 (by omega) (by omega)

/-- Witness of the C26 theorem: six integer arguments, quota 4. -/
theorem C26_witness :
    (4 ≤ nf_count six_ints →
      ∃ pre a post, six_ints = pre ++ a :: post ∧ a.getType.isFloatingPointTy = false ∧
        nf_count pre + 1 = 4 ∧ callconv_adjust 4 six_ints = a :: (pre ++ post)) ∧
    (0 < nf_count six_ints → nf_count six_ints < 4 →
      callconv_adjust 4 six_ints = Value.int64 0 :: six_ints) ∧
    (nf_count six_ints = 0 → callconv_adjust 4 six_ints = six_ints) ∧
    ((callconv_adjust 4 six_ints).Perm six_ints ∨
      callconv_adjust 4 six_ints = Value.int64 0 :: six_ints) :=
  C26_callconv_adjust_keeps_arguments 4 (by decide) six_ints

end Selector

/-! ## Part 8, continued. The handler chain -/

namespace Selector

open BasicBlock

/-- The loop of lines 482-488 stays inside `handler_blocks` and creates one
block for each iteration. -/
theorem handler_chain_created (has_exceptions : Bool) (b : Nat) (hs : List Nat) :
    ∀ (n : Nat) (acc : Emitted × BasicBlock), n + 2 ≤ hs.length →
      ∃ e bb, handler_chain has_exceptions b hs n acc = some (e, bb) ∧
        e.created = acc.1.created ++
          (List.range n).map (fun i => handler b (hs.length - 2 - n + i)) := by
  intro n
  induction n with
  | zero => intro acc _; exact ⟨acc.1, acc.2, rfl, by simp⟩
  | succ idx ih =>
    intro acc hlen
    obtain ⟨e0, bb0⟩ := acc
    have h1 : idx + 1 < hs.length := by omega
    have h2 : idx + 2 < hs.length := by omega
    obtain ⟨e, bb, he, hc⟩ := ih
      (⟨e0.created ++ [handler b (hs.length - 2 - (idx + 1))],
        e0.insts ++ (mark_inblock has_exceptions (handler b (hs.length - 2 - (idx + 1))) ++
          [(handler b (hs.length - 2 - (idx + 1)), Inst.icmp_eq),
           (handler b (hs.length - 2 - (idx + 1)),
             Inst.condbr (of_block hs[idx + 1]) (of_block hs[idx + 2]))])⟩,
        handler b (hs.length - 2 - (idx + 1))) (by omega)
    refine ⟨e, bb, ?_, ?_⟩
    · simp only [handler_chain, List.getElem?_eq_getElem h1, List.getElem?_eq_getElem h2]
      exact he
    · rw [hc, List.range_succ_eq_map]
      simp only [List.append_assoc, List.singleton_append, List.map_cons, List.map_map,
        Nat.add_zero]
      congr 2
      apply List.map_congr_left
      intro i _
      simp only [Function.comp_apply]
      congr 1
      omega

/-- Claim C28. For a catch block without a fall-through successor and with
`h >= 2` handlers, `Selector::call` completes, so no access to the handler list
is out of range, and creates exactly `h - 2` blocks, all of them comparison
blocks. With exactly one handler and no fall-through successor the access to
the second handler is out of range. -/
theorem C28_handler_chain_in_bounds (has_exceptions : Bool) (s : CallSite)
    (outs : List CatchProj) (hs : s.catch_outs = some outs)
    (hno : ∀ cp ∈ outs, cp.con ≠ CatchProjNode.fall_through_index) :
    (2 ≤ outs.length →
      ∃ e, call has_exceptions s = some e ∧
        e.created = (List.range (outs.length - 2)).map (fun k => handler s.block k) ∧
        e.comparison_blocks = e.created ∧
        e.comparison_blocks.length = outs.length - 2) ∧
    (outs.length = 1 →
      (outs.map CatchProj.next_block)[1]? = none ∧ call has_exceptions s = none) := by
  have hscan := catch_scan_handlers_only outs none [] hno
  simp only [List.nil_append] at hscan
  refine ⟨?_, ?_⟩
  · intro hlen
    have hl : (outs.map CatchProj.next_block).length = outs.length := List.length_map _ _
    have l0 : 0 < (outs.map CatchProj.next_block).length := by omega
    have l1 : 1 < (outs.map CatchProj.next_block).length := by omega
    obtain ⟨e, bb, he, hc⟩ := handler_chain_created has_exceptions s.block
      (outs.map CatchProj.next_block) (outs.length - 2)
      (⟨[], [(of_block s.block, Inst.statepoint_call)]⟩,
        of_block (outs.map CatchProj.next_block)[1]) (by omega)
    have hc' : e.created = (List.range (outs.length - 2)).map (fun k => handler s.block k) := by
      rw [hc, hl]
      simp
    refine ⟨⟨e.created, e.insts ++ [(of_block s.block, Inst.icmp_eq),
      (of_block s.block, Inst.condbr (of_block (outs.map CatchProj.next_block)[0]) bb)]⟩,
      ?_, hc', ?_, ?_⟩
    · simp only [call, hs, hscan, List.getElem?_eq_getElem l1, List.getElem?_eq_getElem l0,
        List.length_map, he]
    · simp only [Emitted.comparison_blocks, hc']
      rw [List.filter_eq_self]
      intro x hx
      obtain ⟨k, _, rfl⟩ := List.mem_map.mp hx
      rfl
    · simp only [Emitted.comparison_blocks, hc']
      rw [List.filter_eq_self.mpr]
      · simp
      · intro x hx
        obtain ⟨k, _, rfl⟩ := List.mem_map.mp hx
        rfl
  · intro h1
    have hnone : (outs.map CatchProj.next_block)[1]? = none := by
      apply List.getElem?_eq_none
      simp [h1]
    exact ⟨hnone, by simp only [call, hs, hscan, hnone]⟩

/-- Witness of the C28 theorem: block 1 with the four handlers 10, 11, 12, 13
and no fall-through successor. -/
theorem C28_witness :
    (2 ≤ [CatchProj.mk 1 10, ⟨1, 11⟩, ⟨1, 12⟩, ⟨1, 13⟩].length →
      ∃ e, call true (site_handlers [10, 11, 12, 13]) = some e ∧
        e.created = (List.range ([CatchProj.mk 1 10, ⟨1, 11⟩, ⟨1, 12⟩, ⟨1, 13⟩].length - 2)).map
          (fun k => handler (site_handlers [10, 11, 12, 13]).block k) ∧
        e.comparison_blocks = e.created ∧
        e.comparison_blocks.length = [CatchProj.mk 1 10, ⟨1, 11⟩, ⟨1, 12⟩, ⟨1, 13⟩].length - 2) ∧
    ([CatchProj.mk 1 10, ⟨1, 11⟩, ⟨1, 12⟩, ⟨1, 13⟩].length = 1 →
      ([CatchProj.mk 1 10, ⟨1, 11⟩, ⟨1, 12⟩, ⟨1, 13⟩].map CatchProj.next_block)[1]? = none ∧
        call true (site_handlers [10, 11, 12, 13]) = none) :=
  C28_handler_chain_in_bounds true (site_handlers [10, 11, 12, 13])
    [⟨1, 10⟩, ⟨1, 11⟩, ⟨1, 12⟩, ⟨1, 13⟩] rfl (by decide)

end Selector

/-! ## Part 3, continued. Placement of the constants -/

namespace LlvmRelocator

/-- The patch of one record on a placed buffer of the buffer model: the record
keeps its offset and constant, its constant (if it has one) is appended to the
constant region at the address the record then holds, and the relocation of
the instruction is recorded with that address. -/
theorem bufferOps_apply_reloc_consts (m : Buffer) (rel : Reloc) (hm : m.Placed) :
    ∃ m' rel', apply_reloc bufferOps m rel = some (m', rel') ∧ m'.Placed ∧
      rel'.offset = rel.offset ∧ rel'.con? = rel.con? ∧
      m'.insts_start = m.insts_start ∧
      m'.consts = m.consts ++ rel'.placed?.toList ∧
      (∃ h, m'.insts_relocs = m.insts_relocs ++ [(bufferOps.addr_at m rel.offset, h)] ∧
        (rel.con? ≠ none → h = .internal_word rel'.con_addr ∧ rel'.con_addr ≠ 0)) := by
  have hm' := hm
  obtain ⟨h1, h2⟩ := hm'
  cases rel with
  | CallReloc k o =>
    cases k
    · refine ⟨_, _, rfl, ⟨h1, h2⟩, rfl, rfl, rfl, ?_, _, rfl, ?_⟩
      · simp [bufferOps, Reloc.placed?, Reloc.con?]
      · simp [Reloc.con?]
    · refine ⟨_, _, rfl, ⟨h1, h2⟩, rfl, rfl, rfl, ?_, _, rfl, ?_⟩
      · simp [bufferOps, Reloc.placed?, Reloc.con?]
      · simp [Reloc.con?]
    · refine ⟨_, _, rfl, ⟨h1, h2⟩, rfl, rfl, rfl, ?_, _, rfl, ?_⟩
      · simp [bufferOps, Reloc.placed?, Reloc.con?]
      · simp [Reloc.con?]
  | InternalReloc o =>
    refine ⟨_, _, rfl, ⟨h1, h2⟩, rfl, rfl, rfl, ?_, _, rfl, ?_⟩
    · simp [bufferOps, Reloc.placed?, Reloc.con?]
    · simp [Reloc.con?]
  | VirtualCallReloc o ic =>
    have hne : ((m.insts_start : Int) + ((o : Int) - (bufferOps.instruction_size : Int))).toNat ≠ 0 := by
      have : bufferOps.instruction_size < m.insts_start := h2
      omega
    simp only [apply_reloc, Reloc.getHolder, bufferOps] at hne ⊢
    rw [if_pos hne]
    refine ⟨_, _, rfl, ⟨h1, h2⟩, rfl, rfl, rfl, ?_, _, rfl, ?_⟩
    · simp [Reloc.placed?, Reloc.con?]
    · simp [Reloc.con?]
  | FloatReloc o con a =>
    obtain ⟨hne, hp⟩ := place_placed m 4 con (by decide) hm
    simp only [apply_reloc, Reloc.getHolder, bufferOps] at hne ⊢
    rw [if_pos hne]
    refine ⟨_, _, rfl, ⟨hp.1, hp.2⟩, rfl, rfl, rfl, ?_, _, rfl, ?_⟩
    · simp [Reloc.placed?, Reloc.con?, Reloc.con_addr, Buffer.place]
    · exact fun _ => ⟨rfl, hne⟩
  | DoubleReloc o con a =>
    obtain ⟨hne, hp⟩ := place_placed m 8 con (by decide) hm
    simp only [apply_reloc, Reloc.getHolder, bufferOps] at hne ⊢
    rw [if_pos hne]
    refine ⟨_, _, rfl, ⟨hp.1, hp.2⟩, rfl, rfl, rfl, ?_, _, rfl, ?_⟩
    · simp [Reloc.placed?, Reloc.con?, Reloc.con_addr, Buffer.place]
    · exact fun _ => ⟨rfl, hne⟩
  | OopReloc o con a =>
    have hm1 : ({ m with oops := m.oops ++ [con] } : Buffer).Placed := ⟨h1, h2⟩
    obtain ⟨hne, hp⟩ := place_placed _ 8 con (by decide) hm1
    simp only [apply_reloc, Reloc.getHolder, bufferOps] at hne ⊢
    rw [if_pos hne]
    refine ⟨_, _, rfl, ⟨hp.1, hp.2⟩, rfl, rfl, rfl, ?_, _, rfl, ?_⟩
    · simp [Reloc.placed?, Reloc.con?, Reloc.con_addr, Buffer.place]
    · exact fun _ => ⟨rfl, hne⟩

/-- The loop of `apply_relocs` on a placed buffer of the buffer model. -/
theorem bufferOps_apply_loop_consts :
    ∀ (l : List Reloc) (m : Buffer), m.Placed →
      ∃ m' done, apply_loop bufferOps m l = some (m', done) ∧
        done.map Reloc.offset = l.map Reloc.offset ∧
        done.map Reloc.con? = l.map Reloc.con? ∧
        m'.insts_start = m.insts_start ∧
        m'.consts = m.consts ++ done.filterMap Reloc.placed? ∧
        (∃ hs : List RelocationHolder, hs.length = done.length ∧
          m'.insts_relocs = m.insts_relocs ++
            (done.zip hs).map (fun p => (bufferOps.addr_at m p.1.offset, p.2)) ∧
          ∀ p ∈ done.zip hs, p.1.con? ≠ none →
            p.2 = .internal_word p.1.con_addr ∧ p.1.con_addr ≠ 0) := by
  intro l
  induction l with
  | nil => intro m _; exact ⟨m, [], rfl, rfl, rfl, rfl, by simp, [], rfl, by simp, by simp⟩
  | cons r rest ih =>
    intro m hm
    obtain ⟨m1, r1, e1, hp1, ho1, hc1, hi1, hk1, h1, hr1, hh1⟩ :=
      bufferOps_apply_reloc_consts m r hm
    obtain ⟨m2, done, e2, ho2, hc2, hi2, hk2, hs, hl, hr2, hh2⟩ := ih m1 hp1
    refine ⟨m2, r1 :: done, by simp [apply_loop, e1, e2], by simp [ho1, ho2], by simp [hc1, hc2],
      by rw [hi2, hi1], ?_, h1 :: hs, by simp [hl], ?_, ?_⟩
    · rw [hk2, hk1]
      cases hpl : r1.placed? <;> simp [List.filterMap_cons, hpl]
    · have ha : ∀ x : Int, bufferOps.addr_at m1 x = bufferOps.addr_at m x := by
        intro x; simp [bufferOps, hi1]
      rw [hr2, hr1]
      simp [ha, ho1]
    · intro p hp
      simp only [List.zip_cons_cons, List.mem_cons] at hp
      rcases hp with e | hp
      · subst e
        intro hne
        exact hh1 (by rw [← hc1]; exact hne)
      · exact hh2 p hp

/-- Claim C24. The methods `add`, `add_float` and `add_double` only push a
record, whose constant address is not set. On a placed buffer `apply_relocs`
visits the records in ascending order of their offsets and appends the
constants of the float, double and oop records to the constant region in that
order; each of these records then holds the address of its constant, and the
relocation recorded for its instruction carries that address. -/
theorem C24_constants_placed_at_patch_time (sort : List Reloc → List Reloc)
    (hsort : StdSortContract sort) (b : Buffer) (hb : b.Placed) (relocs : List Reloc) :
    (∀ (l : List Reloc) (offset con : Nat),
      add_float l offset con = l ++ [.FloatReloc offset con 0] ∧
      add_double l offset con = l ++ [.DoubleReloc offset con 0] ∧
      add l (.Oop con) offset = some (l ++ [.OopReloc offset con 0])) ∧
    ∃ b' done, apply_relocs bufferOps sort b relocs = some (b', done) ∧
      (done.map Reloc.offset).Pairwise (fun o1 o2 => o1 ≤ o2) ∧
      (done.map Reloc.offset).Perm (relocs.map Reloc.offset) ∧
      done.map Reloc.con? = (sort relocs).map Reloc.con? ∧
      b'.consts = b.consts ++ done.filterMap Reloc.placed? ∧
      (∃ hs : List RelocationHolder, hs.length = done.length ∧
        b'.insts_relocs = b.insts_relocs ++
          (done.zip hs).map (fun p => (bufferOps.addr_at b p.1.offset, p.2)) ∧
        ∀ p ∈ done.zip hs, p.1.con? ≠ none →
          p.2 = .internal_word p.1.con_addr ∧ p.1.con_addr ≠ 0) := by
  refine ⟨fun l offset con => ⟨rfl, rfl, rfl⟩, ?_⟩
  obtain ⟨b', done, e, ho, hc, _, hk, hh⟩ := bufferOps_apply_loop_consts (sort relocs) b hb
  obtain ⟨hperm, hsorted⟩ := hsort relocs
  refine ⟨b', done, e, ?_, ?_, hc, hk, hh⟩
  · rw [ho, List.pairwise_map]
    exact hsorted.imp (fun {a c} h => (offset_less_false_iff a c).mp h)
  · rw [ho]
    exact hperm.map Reloc.offset

/-- Witness of the C24 theorem: the buffer model, the insertion sort, and the
four records of `relocs_distinct`. -/
theorem C24_witness :
    (∀ (l : List Reloc) (offset con : Nat),
      add_float l offset con = l ++ [.FloatReloc offset con 0] ∧
      add_double l offset con = l ++ [.DoubleReloc offset con 0] ∧
      add l (.Oop con) offset = some (l ++ [.OopReloc offset con 0])) ∧
    ∃ b' done, apply_relocs bufferOps std_sort empty_buffer relocs_distinct = some (b', done) ∧
      (done.map Reloc.offset).Pairwise (fun o1 o2 => o1 ≤ o2) ∧
      (done.map Reloc.offset).Perm (relocs_distinct.map Reloc.offset) ∧
      done.map Reloc.con? = (std_sort relocs_distinct).map Reloc.con? ∧
      b'.consts = empty_buffer.consts ++ done.filterMap Reloc.placed? ∧
      (∃ hs : List RelocationHolder, hs.length = done.length ∧
        b'.insts_relocs = empty_buffer.insts_relocs ++
          (done.zip hs).map (fun p => (bufferOps.addr_at empty_buffer p.1.offset, p.2)) ∧
        ∀ p ∈ done.zip hs, p.1.con? ≠ none →
          p.2 = .internal_word p.1.con_addr ∧ p.1.con_addr ≠ 0) :=
  C24_constants_placed_at_patch_time std_sort std_sort_contract empty_buffer (by decide)
    relocs_distinct

end LlvmRelocator

/-! ## Part 3, continued. The order of the patches -/

namespace LlvmRelocator

/-- The patch of one record sets its address and nothing else of it. -/
theorem apply_reloc_pending {σ : Type} (ops : MasmOps σ) (m m' : σ) (rel rel' : Reloc)
    (h : apply_reloc ops m rel = some (m', rel')) :
    rel'.pending = rel.pending ∧ rel'.offset = rel.offset := by
  cases rel with
  | CallReloc kind o =>
    cases kind <;> simp only [apply_reloc, Reloc.getHolder, Option.some.injEq, Prod.mk.injEq] at h <;>
      (rw [← h.2]; exact ⟨rfl, rfl⟩)
  | InternalReloc o =>
    simp only [apply_reloc, Reloc.getHolder, Option.some.injEq, Prod.mk.injEq] at h
    rw [← h.2]; exact ⟨rfl, rfl⟩
  | VirtualCallReloc o ic =>
    simp only [apply_reloc, Reloc.getHolder] at h
    split at h
    · cases h
    · simp only [Option.some.injEq, Prod.mk.injEq] at h
      rw [← h.2]; exact ⟨rfl, rfl⟩
  | FloatReloc o con a =>
    simp only [apply_reloc, Reloc.getHolder] at h
    split at h
    · cases h
    · simp only [Option.some.injEq, Prod.mk.injEq] at h
      rw [← h.2]; exact ⟨rfl, rfl⟩
  | DoubleReloc o con a =>
    simp only [apply_reloc, Reloc.getHolder] at h
    split at h
    · cases h
    · simp only [Option.some.injEq, Prod.mk.injEq] at h
      rw [← h.2]; exact ⟨rfl, rfl⟩
  | OopReloc o con a =>
    simp only [apply_reloc, Reloc.getHolder] at h
    split at h
    · cases h
    · simp only [Option.some.injEq, Prod.mk.injEq] at h
      rw [← h.2]; exact ⟨rfl, rfl⟩

/-- The loop of `apply_relocs` returns the records it was given, in the order
given, with their addresses set. -/
theorem apply_loop_pending {σ : Type} (ops : MasmOps σ) :
    ∀ (l : List Reloc) (m m' : σ) (done : List Reloc), apply_loop ops m l = some (m', done) →
      done.map Reloc.pending = l.map Reloc.pending ∧
      done.map Reloc.offset = l.map Reloc.offset := by
  intro l
  induction l with
  | nil =>
    intro m m' done h
    simp only [apply_loop, Option.some.injEq, Prod.mk.injEq] at h
    rw [← h.2]
    exact ⟨rfl, rfl⟩
  | cons r rest ih =>
    intro m m' done h
    simp only [apply_loop] at h
    cases h1 : apply_reloc ops m r with
    | none => simp [h1] at h
    | some p1 =>
      obtain ⟨m1, r1⟩ := p1
      simp only [h1] at h
      cases h2 : apply_loop ops m1 rest with
      | none => simp [h2] at h
      | some p2 =>
        obtain ⟨m2, rest1⟩ := p2
        simp only [h2, Option.some.injEq, Prod.mk.injEq] at h
        rw [← h.2]
        obtain ⟨e1, e2⟩ := apply_reloc_pending ops m m1 r r1 h1
        obtain ⟨e3, e4⟩ := ih m1 m2 rest1 h2
        simp [e1, e2, e3, e4]

/-- Claim C5, amended. Over a host in which the patch of every single record
succeeds in every good buffer state and leaves a good state, `apply_relocs`
completes on whatever records were added, and the records in the order in
which its loop patched them are a permutation of the records added (their
addresses now set) in which the offsets of adjacent records never decrease;
they increase strictly when the records added have pairwise distinct offsets.
In the buffer model the relocations of the instructions are recorded in that
order, one for each record, at the address of the record's offset. -/
theorem C5_apply_relocs_patches_in_sorted_order {σ : Type} (ops : MasmOps σ)
    (sort : List Reloc → List Reloc) (hsort : StdSortContract sort) (Good : σ → Prop)
    (hstep : ∀ (m : σ) (rel : Reloc), Good m →
      ∃ m' rel', apply_reloc ops m rel = some (m', rel') ∧ Good m' ∧ rel'.offset = rel.offset)
    (m : σ) (hm : Good m) (relocs : List Reloc) :
    (∃ m' done, apply_relocs ops sort m relocs = some (m', done) ∧
      (done.map Reloc.pending).Perm (relocs.map Reloc.pending) ∧
      done.Chain' (fun r1 r2 => r1.offset ≤ r2.offset) ∧
      ((relocs.map Reloc.offset).Nodup →
        done.Chain' (fun r1 r2 => r1.offset < r2.offset))) ∧
    (∀ b : Buffer, b.Placed →
      ∃ b' done, apply_relocs bufferOps sort b relocs = some (b', done) ∧
        b'.insts_relocs.map Prod.fst =
          b.insts_relocs.map Prod.fst ++ done.map (fun r => b.insts_start + r.offset)) := by
  obtain ⟨hperm, hsorted⟩ := hsort relocs
  have hsorted' : ((sort relocs).map Reloc.offset).Pairwise (fun o1 o2 => o1 ≤ o2) := by
    rw [List.pairwise_map]
    exact hsorted.imp (fun {a c} h => (offset_less_false_iff a c).mp h)
  refine ⟨?_, ?_⟩
  · obtain ⟨m', done, h1, _, _⟩ := apply_loop_total ops Good hstep (sort relocs) m hm
    obtain ⟨hp, ho⟩ := apply_loop_pending ops (sort relocs) m m' done h1
    have hle : done.Pairwise (fun a b => a.offset ≤ b.offset) := by
      rw [← ho, List.pairwise_map] at hsorted'
      exact hsorted'
    refine ⟨m', done, h1, ?_, hle.chain', ?_⟩
    · rw [hp]
      exact hperm.map Reloc.pending
    · intro hn
      have hn' : (done.map Reloc.offset).Nodup := by
        rw [ho]
        exact (List.Perm.nodup_iff (hperm.map Reloc.offset)).mpr hn
      exact (strict_of_nodup hle hn').chain'
  · intro b hb
    obtain ⟨b', done, e, _, _, _, _, hs, hl, hr, _⟩ :=
      bufferOps_apply_loop_consts (sort relocs) b hb
    refine ⟨b', done, e, ?_⟩
    rw [hr, List.map_append, List.map_map]
    congr 1
    have hz : (done.zip hs).map Prod.fst = done := List.map_fst_zip _ _ (by omega)
    have hf : (Prod.fst ∘ fun p : Reloc × RelocationHolder =>
        (bufferOps.addr_at b (p.1.offset : Int), p.2)) =
        (fun r : Reloc => b.insts_start + r.offset) ∘ Prod.fst := by
      funext p
      simp only [Function.comp, bufferOps]
      omega
    rw [hf, ← List.map_map, hz]

/-- Witness of the C5 theorem: the buffer model, the insertion sort model, and
four records with pairwise distinct offsets. -/
theorem C5_witness :
    (∃ m' done, apply_relocs bufferOps std_sort empty_buffer relocs_distinct = some (m', done) ∧
      (done.map Reloc.pending).Perm (relocs_distinct.map Reloc.pending) ∧
      done.Chain' (fun r1 r2 => r1.offset ≤ r2.offset) ∧
      ((relocs_distinct.map Reloc.offset).Nodup →
        done.Chain' (fun r1 r2 => r1.offset < r2.offset))) ∧
    (∀ b : Buffer, b.Placed →
      ∃ b' done, apply_relocs bufferOps std_sort b relocs_distinct = some (b', done) ∧
        b'.insts_relocs.map Prod.fst =
          b.insts_relocs.map Prod.fst ++ done.map (fun r => b.insts_start + r.offset)) :=
  C5_apply_relocs_patches_in_sorted_order bufferOps std_sort std_sort_contract Buffer.Placed
    bufferOps_apply_reloc empty_buffer (by decide) relocs_distinct

/-- Claim C5 fails as stated: after two float records were added at offset 8,
`apply_relocs` patches both, one after the other, at the one instruction
address `0x1008`; the offsets of the patched sequence are 8 and 8, which is not
strictly increasing. -/
theorem C5_counterexample :
    add_float (add_float [] 8 111) 8 222 = relocs_collision ∧
      (apply_relocs bufferOps std_sort empty_buffer relocs_collision).map
          (fun r => r.2.map Reloc.offset) = some [8, 8] ∧
      (apply_relocs bufferOps std_sort empty_buffer relocs_collision).map
          (fun r => r.1.insts_relocs.map Prod.fst) = some [0x1008, 0x1008] ∧
      ¬ ∃ b' done, apply_relocs bufferOps std_sort empty_buffer relocs_collision =
          some (b', done) ∧ done.Chain' (fun r1 r2 => r1.offset < r2.offset) := by
  refine ⟨by decide, by decide, by decide, ?_⟩
  rintro ⟨b', done, h, hc⟩
  have ho : (apply_relocs bufferOps std_sort empty_buffer relocs_collision).map
      (fun r => r.2.map Reloc.offset) = some [8, 8] := by decide
  rw [h] at ho
  simp only [Option.map_some', Option.some.injEq] at ho
  have hc' : (done.map Reloc.offset).Chain' (fun o1 o2 => o1 < o2) :=
    (List.chain'_map Reloc.offset).mpr hc
  rw [ho] at hc'
  simp at hc'

end LlvmRelocator

/-! ## Part 2, continued. Narrow constants -/

namespace Selector

/-- In a zero-based configuration with 64-bit pointers the narrow constant of
`select_oper` is the narrow value that `encode_heap_oop` computes. -/
theorem select_oper_narrowoop_zero_based (c : Config) (load : Nat → Nat) (con : Nat)
    (not_null : Bool) (hb : c.narrow_oop_base = 0) (hs : 0 < c.narrow_oop_shift)
    (hw : c.pointer_size = 64) (hs32 : c.narrow_oop_shift ≤ 32) (hcon : con ≠ 0)
    (hP : load con < 2 ^ 64) :
    encode_heap_oop c (load con) not_null = some (select_oper_narrowoop c load con) := by
  have hfast : is_fast_compression c = false := by
    simp [is_fast_compression, hb]; omega
  have hs0 : c.narrow_oop_shift ≠ 0 := by omega
  simp only [encode_heap_oop, hfast, Bool.false_eq_true, ↓reduceIte, hs0, hb, ne_eq,
    not_true_eq_false, select_oper_narrowoop, hcon, not_false_eq_true, hw,
    Nat.mod_eq_of_lt hP, Option.some.injEq]
  unfold LLVM.ashr LLVM.trunc
  split
  · have hsplit : 2 ^ 64 - 2 ^ (64 - c.narrow_oop_shift) =
        2 ^ 32 * (2 ^ 32 - 2 ^ (32 - c.narrow_oop_shift)) := by
      have e1 : (64 : Nat) - c.narrow_oop_shift = 32 + (32 - c.narrow_oop_shift) := by omega
      have e2 : (2 : Nat) ^ 64 = 2 ^ 32 * 2 ^ 32 := by norm_num
      rw [e1, Nat.pow_add, Nat.mul_sub, e2]
    rw [hsplit, Nat.add_mul_mod_self_left]
  · simp

/-- Claim C27, the code at the failing input. Heap-based configuration with
the base at 28 GB and shift 3; the constant is the object at `0x700000008`.
The function `select_oper` shifts the full pointer without subtracting the
base and keeps the low 32 bits, `0xE0000001`, whereas `encode_heap_oop` gives
the narrow value 1 for the same pointer, under either `not_null` flag. -/
theorem C27_narrow_constant_keeps_the_base :
    Supported cfg_heap_28g ∧ is_fast_compression cfg_heap_28g = false ∧
      sample_load 0x5000 = cfg_heap_28g.narrow_oop_base + 1 * 2 ^ cfg_heap_28g.narrow_oop_shift ∧
      select_oper_narrowoop cfg_heap_28g sample_load 0x5000 = 0xE0000001 ∧
      encode_heap_oop cfg_heap_28g (sample_load 0x5000) true = some 1 ∧
      encode_heap_oop cfg_heap_28g (sample_load 0x5000) false = some 1 ∧
      decode_heap_oop cfg_heap_28g 1 true = some (sample_load 0x5000) ∧
      decode_heap_oop cfg_heap_28g (select_oper_narrowoop cfg_heap_28g sample_load 0x5000) true ≠
        some (sample_load 0x5000) := by
  decide

end Selector

/-! ## Part 9. Completion of the phi nodes -/

namespace Selector

theorem phi_case_value (cfg : PhiCfg) (st st1 : PhiState) (case_val : Nat) (phiTy : IRType)
    (v : IRValue) (h : phi_case cfg st case_val phiTy = some (v, st1)) :
    v = phi_value cfg case_val phiTy ∧ st1.incoming = st.incoming := by
  unfold phi_case at h
  unfold phi_value
  simp only at h ⊢
  split at h
  · rename_i hc
    rw [if_pos hc]
    split at h
    · simp only [Option.some.injEq, Prod.mk.injEq] at h
      exact ⟨h.1.symm, by rw [← h.2]⟩
    · unfold builder_insert at h
      split at h
      · simp at h
      · simp only [Option.map_some', Option.some.injEq, Prod.mk.injEq] at h
        exact ⟨h.1.symm, by rw [← h.2]⟩
  · rename_i hc
    rw [if_neg hc]
    split at h
    · rename_i hne
      rw [if_pos hne]
      split at h
      · unfold insert_before_terminator at h
        split at h
        · simp at h
        · split at h
          · simp at h
          · split at h
            · simp only [Option.map_some', Option.some.injEq, Prod.mk.injEq] at h
              exact ⟨h.1.symm, by rw [← h.2]⟩
            · simp at h
      · simp at h
    · rename_i hne
      rw [if_neg hne]
      simp only [Option.some.injEq, Prod.mk.injEq] at h
      exact ⟨h.1.symm, by rw [← h.2]⟩

theorem phi_case_plain (cfg : PhiCfg) (st : PhiState) (case_val : Nat) (phiTy : IRType)
    (h : (cfg.lowered case_val).ty = phiTy) :
    phi_case cfg st case_val phiTy = some (.lowered (cfg.lowered case_val), st) := by
  unfold phi_case
  simp only
  have hc : ((cfg.lowered case_val).ty.isIntegerTy && phiTy.isPointerTy) = false := by
    rw [h]; cases phiTy <;> rfl
  rw [hc]
  simp [h]

/-- The loop over the predecessors of a connector block adds what the
recursive calls add, in the order of the predecessors. -/
theorem complete_preds_incoming (rec : PhiState → Nat → Res PhiState)
    (leaves : Nat → List Nat) (entry : Nat → Incoming)
    (hrec : ∀ (st st' : PhiState) (b : Nat), rec st b = .ok st' →
      st'.incoming = st.incoming ++ (leaves b).map entry) :
    ∀ (preds : List Nat) (st st' : PhiState), complete_preds rec preds st = .ok st' →
      st'.incoming = st.incoming ++ (preds.flatMap leaves).map entry := by
  intro preds
  induction preds with
  | nil =>
    intro st st' h
    simp only [complete_preds, Res.ok.injEq] at h
    subst h
    simp
  | cons p rest ih =>
    intro st st' h
    unfold complete_preds at h
    cases h1 : rec st p with
    | ok st1 =>
      simp only [h1] at h
      rw [ih st1 st' h, hrec st st1 p h1]
      simp
    | fatal => simp [h1] at h
    | out_of_fuel => simp [h1] at h

theorem complete_phi_node_incoming (cfg : PhiCfg) (case_val : Nat) (phi : PendingPhi) :
    ∀ (fuel : Nat) (st st' : PhiState) (b : Nat),
      complete_phi_node cfg case_val phi fuel st b = .ok st' →
      st'.incoming = st.incoming ++ (connector_leaves cfg fuel b).map
        (fun p => ⟨phi.phi_inst, phi_value cfg case_val phi.ty, p⟩) := by
  intro fuel
  induction fuel with
  | zero => intro st st' b h; simp [complete_phi_node] at h
  | succ f ih =>
    intro st st' b h
    unfold complete_phi_node at h
    unfold connector_leaves
    cases hb : cfg.blocks[b]? with
    | none => simp [hb] at h
    | some blk =>
      simp only [hb] at h ⊢
      cases hc : blk.is_connector with
      | true =>
        simp only [hc, ↓reduceIte] at h ⊢
        exact complete_preds_incoming _ (connector_leaves cfg f) _ ih blk.preds st st' h
      | false =>
        simp only [hc, Bool.false_eq_true, ↓reduceIte] at h ⊢
        cases hp : phi_case cfg st case_val phi.ty with
        | none => simp [hp] at h
        | some r =>
          obtain ⟨v, st1⟩ := r
          simp only [hp, Res.ok.injEq] at h
          obtain ⟨hv, hi⟩ := phi_case_value cfg st st1 case_val phi.ty v hp
          subst h
          simp [hv, hi]

theorem complete_preds_not_oof (rec : PhiState → Nat → Res PhiState) :
    ∀ (preds : List Nat), (∀ q ∈ preds, ∀ st, rec st q ≠ .out_of_fuel) →
      ∀ st, complete_preds rec preds st ≠ .out_of_fuel := by
  intro preds
  induction preds with
  | nil => intro _ st; simp [complete_preds]
  | cons p rest ih =>
    intro h st
    unfold complete_preds
    cases h1 : rec st p with
    | ok st1 =>
      simp only
      exact ih (fun q hq => h q (List.mem_cons_of_mem _ hq)) st1
    | fatal => simp
    | out_of_fuel => exact absurd h1 (h p (List.mem_cons_self _ _) st)

theorem complete_phi_node_not_oof (cfg : PhiCfg) (rank : Nat → Nat)
    (hdesc : ConnectorsDescend cfg rank) (case_val : Nat) (phi : PendingPhi) :
    ∀ (fuel : Nat) (st : PhiState) (b : Nat), 0 < fuel →
      (b < cfg.blocks.length → rank b < fuel) →
      complete_phi_node cfg case_val phi fuel st b ≠ .out_of_fuel := by
  intro fuel
  induction fuel with
  | zero => intro st b h; omega
  | succ f ih =>
    intro st b _ hr
    unfold complete_phi_node
    cases hb : cfg.blocks[b]? with
    | none => simp
    | some blk =>
      simp only
      have hlt : b < cfg.blocks.length := by
        by_contra hge
        rw [List.getElem?_eq_none (by omega)] at hb
        simp at hb
      cases hc : blk.is_connector with
      | true =>
        simp only [↓reduceIte]
        apply complete_preds_not_oof
        intro q hq st1
        obtain ⟨h1, h2⟩ := hdesc (b, blk) (List.mk_mem_enum_iff_getElem?.mpr hb) hc q hq
        have := hr hlt
        exact ih st1 q (by simp only at h2; omega) (fun _ => by simp only at h2; omega)
      | false =>
        simp only [Bool.false_eq_true, ↓reduceIte]
        cases phi_case cfg st case_val phi.ty with
        | none => simp
        | some r => simp

theorem complete_preds_ok (rec : PhiState → Nat → Res PhiState) :
    ∀ (preds : List Nat), (∀ q ∈ preds, ∀ st, ∃ st', rec st q = .ok st') →
      ∀ st, ∃ st', complete_preds rec preds st = .ok st' := by
  intro preds
  induction preds with
  | nil => intro _ st; exact ⟨st, rfl⟩
  | cons p rest ih =>
    intro h st
    obtain ⟨st1, h1⟩ := h p (List.mem_cons_self _ _) st
    obtain ⟨st2, h2⟩ := ih (fun q hq => h q (List.mem_cons_of_mem _ hq)) st1
    exact ⟨st2, by simp [complete_preds, h1, h2]⟩

theorem complete_phi_node_ok (cfg : PhiCfg) (rank : Nat → Nat)
    (hdesc : ConnectorsDescend cfg rank) (case_val : Nat) (phi : PendingPhi)
    (hty : (cfg.lowered case_val).ty = phi.ty) :
    ∀ (fuel : Nat) (st : PhiState) (b : Nat), b < cfg.blocks.length → rank b < fuel →
      ∃ st', complete_phi_node cfg case_val phi fuel st b = .ok st' := by
  intro fuel
  induction fuel with
  | zero => intro st b _ h; omega
  | succ f ih =>
    intro st b hlt hr
    unfold complete_phi_node
    have hb : cfg.blocks[b]? = some cfg.blocks[b] := List.getElem?_eq_getElem hlt
    simp only [hb]
    cases hc : cfg.blocks[b].is_connector with
    | true =>
      simp only [↓reduceIte]
      apply complete_preds_ok
      intro q hq st1
      obtain ⟨h1, h2⟩ := hdesc (b, cfg.blocks[b]) (List.mk_mem_enum_iff_getElem?.mpr hb) hc q hq
      exact ih st1 q h1 (by simp only at h2; omega)
    | false =>
      simp only [Bool.false_eq_true, ↓reduceIte, phi_case_plain cfg st case_val phi.ty hty]
      exact ⟨_, rfl⟩

theorem connector_leaves_sound (cfg : PhiCfg) :
    ∀ (fuel b p : Nat), p ∈ connector_leaves cfg fuel b → ConnectorPath cfg b p := by
  intro fuel
  induction fuel with
  | zero => intro b p h; simp [connector_leaves] at h
  | succ f ih =>
    intro b p h
    unfold connector_leaves at h
    cases hb : cfg.blocks[b]? with
    | none => simp [hb] at h
    | some blk =>
      simp only [hb] at h
      cases hc : blk.is_connector with
      | true =>
        simp only [hc, ↓reduceIte, List.mem_flatMap] at h
        obtain ⟨q, hq, hp⟩ := h
        exact .pass hb hc hq (ih q p hp)
      | false =>
        simp only [hc, Bool.false_eq_true, ↓reduceIte, List.mem_singleton] at h
        subst h
        exact .stop hb hc

theorem connector_leaves_complete (cfg : PhiCfg) (rank : Nat → Nat)
    (hdesc : ConnectorsDescend cfg rank) {b p : Nat} (hp : ConnectorPath cfg b p) :
    ∀ fuel, rank b < fuel → p ∈ connector_leaves cfg fuel b := by
  induction hp with
  | stop hb hc =>
    intro fuel hr
    cases fuel with
    | zero => omega
    | succ f => simp [connector_leaves, hb, hc]
  | @pass b q p blk hb hc hq _ ih =>
    intro fuel hr
    cases fuel with
    | zero => omega
    | succ f =>
      obtain ⟨_, h2⟩ := hdesc (b, blk) (List.mk_mem_enum_iff_getElem?.mpr hb) hc q hq
      simp only [connector_leaves, hb, hc, ↓reduceIte, List.mem_flatMap]
      exact ⟨q, hq, ih f (by simp only at h2; omega)⟩

theorem connector_path_end (cfg : PhiCfg) {b p : Nat} (hp : ConnectorPath cfg b p) :
    ∃ blk, cfg.blocks[p]? = some blk ∧ blk.is_connector = false := by
  induction hp with
  | stop hb hc => exact ⟨_, hb, hc⟩
  | pass _ _ _ _ ih => exact ih

theorem complete_slots_incoming (cfg : PhiCfg) (fuel : Nat) (phi : PendingPhi)
    (preds : List Nat) :
    ∀ (ins : List Nat) (j : Nat) (st st' : PhiState),
      complete_slots cfg fuel phi preds j ins st = .ok st' →
      st'.incoming = st.incoming ++ (ins.zip (preds.drop j)).flatMap (fun slot =>
        (connector_leaves cfg fuel slot.2).map
          (fun b => ⟨phi.phi_inst, phi_value cfg slot.1 phi.ty, b⟩)) := by
  intro ins
  induction ins with
  | nil =>
    intro j st st' h
    simp only [complete_slots, Res.ok.injEq] at h
    subst h
    simp
  | cons v rest ih =>
    intro j st st' h
    unfold complete_slots at h
    cases hj : preds[j]? with
    | none => simp [hj] at h
    | some cb =>
      simp only [hj] at h
      have hlt : j < preds.length := by
        by_contra hge
        rw [List.getElem?_eq_none (by omega)] at hj
        simp at hj
      have hcb : preds[j] = cb := by
        rw [List.getElem?_eq_getElem hlt] at hj
        exact Option.some.inj hj
      have hdrop : preds.drop j = cb :: preds.drop (j + 1) := by
        rw [← hcb]; exact List.drop_eq_getElem_cons hlt
      cases h1 : complete_phi_node cfg v phi fuel st cb with
      | ok st1 =>
        simp only [h1] at h
        rw [ih (j + 1) st1 st' h, complete_phi_node_incoming cfg v phi fuel st st1 cb h1, hdrop]
        simp
      | fatal => simp [h1] at h
      | out_of_fuel => simp [h1] at h

theorem complete_slots_not_oof (cfg : PhiCfg) (rank : Nat → Nat)
    (hdesc : ConnectorsDescend cfg rank) (fuel : Nat) (hf : 0 < fuel)
    (hfuel : ∀ b, b < cfg.blocks.length → rank b < fuel) (phi : PendingPhi)
    (preds : List Nat) :
    ∀ (ins : List Nat) (j : Nat) (st : PhiState),
      complete_slots cfg fuel phi preds j ins st ≠ .out_of_fuel := by
  intro ins
  induction ins with
  | nil => intro j st; simp [complete_slots]
  | cons v rest ih =>
    intro j st
    unfold complete_slots
    cases preds[j]? with
    | none => simp
    | some cb =>
      simp only
      cases h1 : complete_phi_node cfg v phi fuel st cb with
      | ok st1 => exact ih (j + 1) st1
      | fatal => simp
      | out_of_fuel =>
        exact absurd h1 (complete_phi_node_not_oof cfg rank hdesc v phi fuel st cb hf (hfuel cb))

theorem complete_slots_ok (cfg : PhiCfg) (rank : Nat → Nat)
    (hdesc : ConnectorsDescend cfg rank) (fuel : Nat)
    (hfuel : ∀ b, b < cfg.blocks.length → rank b < fuel) (phi : PendingPhi)
    (preds : List Nat) (hpreds : ∀ q ∈ preds, q < cfg.blocks.length) :
    ∀ (ins : List Nat) (j : Nat) (st : PhiState), j + ins.length ≤ preds.length →
      (∀ v ∈ ins, (cfg.lowered v).ty = phi.ty) →
      ∃ st', complete_slots cfg fuel phi preds j ins st = .ok st' := by
  intro ins
  induction ins with
  | nil => intro j st _ _; exact ⟨st, rfl⟩
  | cons v rest ih =>
    intro j st hlen hty
    simp only [List.length_cons] at hlen
    have hlt : j < preds.length := by omega
    have hq := hpreds preds[j] (List.getElem_mem _)
    obtain ⟨st1, h1⟩ := complete_phi_node_ok cfg rank hdesc v phi
      (hty v (List.mem_cons_self _ _)) fuel st preds[j] hq (hfuel _ hq)
    obtain ⟨st2, h2⟩ := ih (j + 1) st1 (by omega) (fun w hw => hty w (List.mem_cons_of_mem _ hw))
    exact ⟨st2, by simp [complete_slots, List.getElem?_eq_getElem hlt, h1, h2]⟩

theorem complete_phi_nodes_incoming (cfg : PhiCfg) (fuel : Nat) :
    ∀ (phis : List PendingPhi) (st st' : PhiState),
      complete_phi_nodes cfg fuel phis st = .ok st' →
      st'.incoming = st.incoming ++ phis.flatMap (expected_incoming cfg fuel) := by
  intro phis
  induction phis with
  | nil =>
    intro st st' h
    simp only [complete_phi_nodes, Res.ok.injEq] at h
    subst h
    simp
  | cons phi rest ih =>
    intro st st' h
    unfold complete_phi_nodes at h
    cases hb : cfg.blocks[phi.block]? with
    | none => simp [hb] at h
    | some pb =>
      simp only [hb] at h
      split at h
      · simp at h
      · cases h1 : complete_slots cfg fuel phi pb.preds 0 phi.ins st with
        | ok st1 =>
          simp only [h1] at h
          rw [ih st1 st' h, complete_slots_incoming cfg fuel phi pb.preds phi.ins 0 st st1 h1]
          simp [expected_incoming, hb]
        | fatal => simp [h1] at h
        | out_of_fuel => simp [h1] at h

theorem complete_phi_nodes_not_oof (cfg : PhiCfg) (rank : Nat → Nat)
    (hdesc : ConnectorsDescend cfg rank) (fuel : Nat)
    (hfuel : ∀ b, b < cfg.blocks.length → rank b < fuel) :
    ∀ (phis : List PendingPhi) (st : PhiState),
      complete_phi_nodes cfg fuel phis st ≠ .out_of_fuel := by
  intro phis
  induction phis with
  | nil => intro st; simp [complete_phi_nodes]
  | cons phi rest ih =>
    intro st
    unfold complete_phi_nodes
    cases hb : cfg.blocks[phi.block]? with
    | none => simp
    | some pb =>
      simp only
      have hlt : phi.block < cfg.blocks.length := by
        by_contra hge
        rw [List.getElem?_eq_none (by omega)] at hb
        simp at hb
      have hf : 0 < fuel := by have := hfuel _ hlt; omega
      split
      · simp
      · cases h1 : complete_slots cfg fuel phi pb.preds 0 phi.ins st with
        | ok st1 => exact ih st1
        | fatal => simp
        | out_of_fuel =>
          exact absurd h1
            (complete_slots_not_oof cfg rank hdesc fuel hf hfuel phi pb.preds phi.ins 0 st)

theorem complete_phi_nodes_ok (cfg : PhiCfg) (rank : Nat → Nat)
    (hdesc : ConnectorsDescend cfg rank) (fuel : Nat)
    (hfuel : ∀ b, b < cfg.blocks.length → rank b < fuel) :
    ∀ (phis : List PendingPhi) (st : PhiState), PhisPlain cfg phis →
      ∃ st', complete_phi_nodes cfg fuel phis st = .ok st' := by
  intro phis
  induction phis with
  | nil => intro st _; exact ⟨st, rfl⟩
  | cons phi rest ih =>
    intro st hplain
    obtain ⟨pb, hb, hhead, hlen, hpreds, hty⟩ := hplain phi (List.mem_cons_self _ _)
    obtain ⟨st1, h1⟩ := complete_slots_ok cfg rank hdesc fuel hfuel phi pb.preds hpreds
      phi.ins 0 st (by omega) hty
    obtain ⟨st2, h2⟩ := ih st1 (fun p hp => hplain p (List.mem_cons_of_mem _ hp))
    exact ⟨st2, by simp [complete_phi_nodes, hb, hhead, h1, h2]⟩

/-- Claim C25, amended. When no cycle consists of connector blocks only,
`complete_phi_nodes` does not recurse for ever, and when it completes it has
attached, for every pending phi and every input `i` of it, the value of input
`i` (the lowered value, or its cast to the phi's type) once for each way from
predecessor `i` back through connector blocks only to a block that is no
connector, naming that block; the blocks named are exactly the ends of such
ways, and none of them is a connector. It completes whenever the phis pass
their assertion and no input needs a cast. -/
theorem C25_incoming_per_connector_path (cfg : PhiCfg) (rank : Nat → Nat)
    (hdesc : ConnectorsDescend cfg rank) (fuel : Nat)
    (hfuel : ∀ b, b < cfg.blocks.length → rank b < fuel) (phis : List PendingPhi)
    (st : PhiState) :
    complete_phi_nodes cfg fuel phis st ≠ .out_of_fuel ∧
      (∀ st', complete_phi_nodes cfg fuel phis st = .ok st' →
        st'.incoming = st.incoming ++ phis.flatMap (expected_incoming cfg fuel)) ∧
      (PhisPlain cfg phis → ∃ st', complete_phi_nodes cfg fuel phis st = .ok st') ∧
      (∀ b p, b < cfg.blocks.length →
        (p ∈ connector_leaves cfg fuel b ↔ ConnectorPath cfg b p)) ∧
      (∀ b p, ConnectorPath cfg b p →
        ∃ blk, cfg.blocks[p]? = some blk ∧ blk.is_connector = false) := by
  refine ⟨complete_phi_nodes_not_oof cfg rank hdesc fuel hfuel phis st,
    fun st' h => complete_phi_nodes_incoming cfg fuel phis st st' h,
    complete_phi_nodes_ok cfg rank hdesc fuel hfuel phis st, ?_,
    fun b p hp => connector_path_end cfg hp⟩
  intro b p hb
  exact ⟨connector_leaves_sound cfg fuel b p,
    fun hp => connector_leaves_complete cfg rank hdesc hp fuel (hfuel b hb)⟩

/-- Witness of the C25 theorem: the diamond of connector blocks. -/
theorem C25_witness :
    complete_phi_nodes diamond_cfg 3 [diamond_phi] five_blocks ≠ .out_of_fuel ∧
      (∀ st', complete_phi_nodes diamond_cfg 3 [diamond_phi] five_blocks = .ok st' →
        st'.incoming = five_blocks.incoming ++
          [diamond_phi].flatMap (expected_incoming diamond_cfg 3)) ∧
      (PhisPlain diamond_cfg [diamond_phi] →
        ∃ st', complete_phi_nodes diamond_cfg 3 [diamond_phi] five_blocks = .ok st') ∧
      (∀ b p, b < diamond_cfg.blocks.length →
        (p ∈ connector_leaves diamond_cfg 3 b ↔ ConnectorPath diamond_cfg b p)) ∧
      (∀ b p, ConnectorPath diamond_cfg b p →
        ∃ blk, diamond_cfg.blocks[p]? = some blk ∧ blk.is_connector = false) :=
  C25_incoming_per_connector_path diamond_cfg diamond_rank (by decide) 3 (by decide)
    [diamond_phi] five_blocks

/-- Claim C25 fails as stated: in the diamond of connector blocks, block 1 is
the one block that is no connector and is reached from the predecessor of the
phi through connector blocks, along two ways; `complete_phi_nodes` attaches
the value of the input twice with block 1 as the incoming block, not once. -/
theorem C25_counterexample :
    ConnectorsDescend diamond_cfg diamond_rank ∧
      connector_leaves diamond_cfg 3 3 = [1, 1] ∧
      complete_phi_nodes diamond_cfg 3 [diamond_phi] five_blocks =
        .ok { five_blocks with incoming :=
          [⟨50, .lowered ⟨7, .integer 64, false⟩, 1⟩, ⟨50, .lowered ⟨7, .integer 64, false⟩, 1⟩] } ∧
      complete_phi_nodes diamond_cfg 4 [diamond_phi] five_blocks =
        complete_phi_nodes diamond_cfg 3 [diamond_phi] five_blocks := by
  decide

/-- Claim C22, the code at the failing input. A phi of pointer type; its input,
node 7, is a 64-bit integer that is no constant, produced in block 1; the
builder stands at the end of block 4. The `inttoptr` cast is appended to
block 4, behind its terminator, and block 1 is left as it was. For node 8, a
pointer of another type produced in the same block, the cast is put right
before the terminator of block 1. -/
theorem C22_inttoptr_goes_to_the_builder :
    (cast_cfg.lowered 7).ty = .integer 64 ∧ cast_cfg.block_of 7 = 1 ∧
      five_blocks.insert_block = 4 ∧
      complete_phi_nodes cast_cfg 1 [cast_phi 7] five_blocks =
        .ok ⟨[[.other 0, .terminator 0], [.other 1, .terminator 1], [.other 2, .terminator 2],
            [.other 3, .terminator 3],
            [.other 4, .terminator 4, .inttoptr 7 (.pointer 0)]], 4,
          [⟨50, .inttoptr ⟨7, .integer 64, false⟩ (.pointer 0), 2⟩]⟩ ∧
      complete_phi_nodes cast_cfg 1 [cast_phi 8] five_blocks =
        .ok ⟨[[.other 0, .terminator 0],
            [.other 1, .pointer_cast 8 (.pointer 0), .terminator 1],
            [.other 2, .terminator 2], [.other 3, .terminator 3], [.other 4, .terminator 4]], 4,
          [⟨50, .pointer_cast ⟨8, .pointer 1, false⟩ (.pointer 0), 2⟩]⟩ := by
  decide

end Selector

/-! ## Part 5, continued. The base of a derived phi -/

namespace Selector

theorem inputs_match_true (nodes : List Node) :
    ∀ (ps bs : List Nat), inputs_match nodes ps bs = some true →
      SameUpToConstants nodes ps bs := by
  intro ps bs
  induction bs generalizing ps with
  | nil => intro _; simp [SameUpToConstants]
  | cons b bs ih =>
    intro h
    cases ps with
    | nil => simp [inputs_match] at h
    | cons p ps =>
      unfold inputs_match at h
      unfold SameUpToConstants
      simp only [List.length_cons, List.take_succ_cons]
      by_cases hpb : p = b
      · simp only [hpb, ne_eq, not_true_eq_false, ↓reduceIte] at h
        exact List.Forall₂.cons (Or.inl hpb) (ih ps h)
      · simp only [ne_eq, hpb, not_false_eq_true, ↓reduceIte] at h
        cases hp : nodes[p]? with
        | none => simp [hp] at h
        | some pn =>
          cases hb : nodes[b]? with
          | none => simp [hp, hb] at h
          | some bn =>
            simp only [hp, hb] at h
            by_cases hc : (pn.is_Con && bn.is_Con) = true
            · simp only [hc, ↓reduceIte] at h
              simp only [Bool.and_eq_true] at hc
              exact List.Forall₂.cons (Or.inr ⟨pn, bn, hp, hb, hc.1, hc.2⟩) (ih ps h)
            · simp [hc] at h

/-- The search of lines 625-642: the nodes it passes over are phis that do not
match; it stops at the first phi that matches, or at the first node that is
no phi, or behind the block's end node. -/
theorem search_block_spec (nodes : List Node) (end_idx : Nat) (bases : List Nat) :
    ∀ (l : List Nat) (i : Nat) (r : Search), search_block nodes end_idx bases i l = some r →
      ∃ pre, (∀ x ∈ pre, PassedOver nodes bases x) ∧
        ((∃ phi post pn, r = .existing phi ∧ l = pre ++ phi :: post ∧ i + pre.length ≤ end_idx ∧
            nodes[phi]? = some pn ∧ pn.is_Phi = true ∧
            SameUpToConstants nodes (pn.ins.drop 1) bases) ∨
         (∃ x post pn, r = .insert_at (i + pre.length) ∧ l = pre ++ x :: post ∧
            i + pre.length ≤ end_idx ∧ nodes[x]? = some pn ∧ pn.is_Phi = false) ∨
         (r = .not_found ∧ ∃ post, l = pre ++ post ∧ end_idx < i + pre.length)) := by
  intro l
  induction l with
  | nil =>
    intro i r h
    unfold search_block at h
    split at h
    · simp at h
    · simp only [Option.some.injEq] at h
      exact ⟨[], by simp, Or.inr (Or.inr ⟨h.symm, [], rfl, by simp; omega⟩)⟩
  | cons phi rest ih =>
    intro i r h
    unfold search_block at h
    by_cases hi : i ≤ end_idx
    · simp only [hi, ↓reduceIte] at h
      cases hp : nodes[phi]? with
      | none => simp [hp] at h
      | some pn =>
        simp only [hp] at h
        cases hphi : pn.is_Phi with
        | false =>
          simp only [hphi, Bool.not_false, ↓reduceIte, Option.some.injEq] at h
          exact ⟨[], by simp, Or.inr (Or.inl ⟨phi, rest, pn, by simp [← h], rfl, by simpa using hi,
            hp, hphi⟩)⟩
        | true =>
          simp only [hphi, Bool.not_true, Bool.false_eq_true, ↓reduceIte] at h
          have hd1 : pn.ins.tail = pn.ins.drop 1 := by cases pn.ins <;> rfl
          split at h
          · exact absurd h (by simp)
          · rename_i hm
            try rw [hd1] at hm
            simp only [Option.some.injEq] at h
            exact ⟨[], by simp, Or.inl ⟨phi, rest, pn, h.symm, rfl, by simpa using hi, hp, hphi,
              inputs_match_true nodes _ _ hm⟩⟩
          · rename_i hm
            try rw [hd1] at hm
            obtain ⟨pre, hpre, hcase⟩ := ih (i + 1) r h
            refine ⟨phi :: pre, ?_, ?_⟩
            · intro x hx
              rcases List.mem_cons.mp hx with e | e
              · subst e; exact ⟨pn, hp, hphi, hm⟩
              · exact hpre x e
            · have hlen : i + (phi :: pre).length = i + 1 + pre.length := by
                simp only [List.length_cons]; omega
              rw [hlen]
              rcases hcase with ⟨p, post, pn', e1, e2, e3, e4⟩ | ⟨x, post, pn', e1, e2, e3, e4⟩ |
                ⟨e1, post, e2, e3⟩
              · exact Or.inl ⟨p, post, pn', e1, by simp [e2], e3, e4⟩
              · exact Or.inr (Or.inl ⟨x, post, pn', e1, by simp [e2], e3, e4⟩)
              · exact Or.inr (Or.inr ⟨e1, post, by simp [e2], e3⟩)
    · simp only [hi, ↓reduceIte, Option.some.injEq] at h
      exact ⟨[], by simp, Or.inr (Or.inr ⟨h.symm, phi :: rest, rfl, by simp; omega⟩)⟩

/-- The loop of lines 604-607: when it runs to the end, every input it visited
has the base `base` in the memo; when it breaks, some input has another
base. -/
theorem phi_scan_memo (meet : NodeType → NodeType → NodeType) (fuel base : Nat) :
    ∀ (ys : List Nat) (g : Graph) (flag : Bool) (g' : Graph),
      phi_scan (find_derived_base meet fuel) base ys g = .ok (flag, g') →
      Ext g g' ∧
        (flag = true → ∀ y ∈ ys, map_find y g'.derived_base = some base) ∧
        (flag = false → ∃ y ∈ ys, ∃ b, b ≠ base ∧ map_find y g'.derived_base = some b) := by
  intro ys
  induction ys with
  | nil =>
    intro g flag g' h
    simp only [phi_scan, Res.ok.injEq, Prod.mk.injEq] at h
    obtain ⟨h1, h2⟩ := h
    subst h1 h2
    exact ⟨Ext.ext_refl g, by simp, by simp⟩
  | cons y rest ih =>
    intro g flag g' h
    unfold phi_scan at h
    cases hr : find_derived_base meet fuel g y with
    | ok r =>
      obtain ⟨b, g1⟩ := r
      simp only [hr] at h
      have hext := find_derived_base_ext meet fuel g y b g1 hr
      have hmemo := find_derived_base_memoized meet fuel g y b g1 hr
      by_cases hb : base = b
      · simp only [hb, ne_eq, not_true_eq_false, ↓reduceIte] at h
        subst hb
        obtain ⟨e1, e2, e3⟩ := ih g1 flag g' h
        refine ⟨hext.ext_trans e1, ?_, ?_⟩
        · intro hf z hz
          rcases List.mem_cons.mp hz with e | e
          · subst e; exact e1.memo _ _ hmemo
          · exact e2 hf z e
        · intro hf
          obtain ⟨z, hz, b', hb', hm'⟩ := e3 hf
          exact ⟨z, List.mem_cons_of_mem _ hz, b', hb', hm'⟩
      · simp only [ne_eq, hb, not_false_eq_true, ↓reduceIte, Res.ok.injEq, Prod.mk.injEq] at h
        obtain ⟨h1, h2⟩ := h
        subst h1 h2
        exact ⟨hext, by simp, fun _ => ⟨y, List.mem_cons_self _ _, b, fun e => hb e.symm, hmemo⟩⟩
    | fatal => simp [hr] at h
    | out_of_fuel => simp [hr] at h

/-- The loop of lines 617-620: the inputs of the base phi are the bases that
the memo holds for the inputs of the derived phi. -/
theorem phi_bases_memo (meet : NodeType → NodeType → NodeType) (fuel : Nat) :
    ∀ (ys : List Nat) (g : Graph) (bs : List Nat) (g' : Graph),
      phi_bases (find_derived_base meet fuel) ys g = .ok (bs, g') →
      Ext g g' ∧ List.Forall₂ (fun y b => map_find y g'.derived_base = some b) ys bs := by
  intro ys
  induction ys with
  | nil =>
    intro g bs g' h
    simp only [phi_bases, Res.ok.injEq, Prod.mk.injEq] at h
    obtain ⟨h1, h2⟩ := h
    subst h1 h2
    exact ⟨Ext.ext_refl g, List.Forall₂.nil⟩
  | cons y rest ih =>
    intro g bs g' h
    unfold phi_bases at h
    cases hr : find_derived_base meet fuel g y with
    | ok r =>
      obtain ⟨b, g1⟩ := r
      simp only [hr] at h
      cases hr2 : phi_bases (find_derived_base meet fuel) rest g1 with
      | ok r2 =>
        obtain ⟨bs2, g2⟩ := r2
        simp only [hr2, Res.ok.injEq, Prod.mk.injEq] at h
        obtain ⟨h1, h2⟩ := h
        subst h1 h2
        obtain ⟨e1, e2⟩ := ih g1 bs2 g2 hr2
        have hext := find_derived_base_ext meet fuel g y b g1 hr
        have hmemo := find_derived_base_memoized meet fuel g y b g1 hr
        exact ⟨hext.ext_trans e1, List.Forall₂.cons (e1.memo _ _ hmemo) e2⟩
      | fatal => simp [hr2] at h
      | out_of_fuel => simp [hr2] at h
    | fatal => simp [hr] at h
    | out_of_fuel => simp [hr] at h

theorem forall₂_const {α : Type} (P : α → Nat → Prop) (B : Nat) :
    ∀ (ys : List α), (∀ y ∈ ys, P y B) → List.Forall₂ P ys (ys.map (fun _ => B)) := by
  intro ys
  induction ys with
  | nil => intro _; exact List.Forall₂.nil
  | cons y rest ih =>
    intro h
    exact List.Forall₂.cons (h y (List.mem_cons_self _ _))
      (ih (fun z hz => h z (List.mem_cons_of_mem _ hz)))

/-- Lines 614-646 on a completed call: the base phi is appended to the arena;
the search passes over the leading phis that do not match and ends at a phi
that matches, which is returned and leaves the block as it is, or at the first
node that is no phi, in front of which the base phi is inserted, or behind
the end node. -/
theorem make_base_phi_spec (meet : NodeType → NodeType → NodeType) (g : Graph)
    (derived region base : Nat) (bases : List Nat) (B : Nat) (g' : Graph)
    (h : make_base_phi meet g derived region base bases = .ok (B, g')) :
    ∃ t bi blk pre, map_find derived g.node_to_block = some bi ∧ g.blocks[bi]? = some blk ∧
      g'.nodes = with_base_phi g t region bases ∧
      g'.derived_base = map_insert g.derived_base derived B ∧
      (∀ x ∈ pre, PassedOver g'.nodes bases x) ∧
      ((∃ post pn, blk.nodes.drop 1 = pre ++ B :: post ∧ 1 + pre.length ≤ blk.end_idx ∧
          g'.nodes[B]? = some pn ∧ pn.is_Phi = true ∧
          SameUpToConstants g'.nodes (pn.ins.drop 1) bases ∧ g'.blocks = g.blocks) ∨
       (∃ x post pn, blk.nodes.drop 1 = pre ++ x :: post ∧ 1 + pre.length ≤ blk.end_idx ∧
          g'.nodes[x]? = some pn ∧ pn.is_Phi = false ∧ B = g.nodes.length ∧
          g'.blocks = g.blocks.set bi (blk.insert_node B (1 + pre.length))) ∨
       (∃ post, blk.nodes.drop 1 = pre ++ post ∧ blk.end_idx < 1 + pre.length ∧
          B = g.nodes.length ∧ g'.blocks = g.blocks)) := by
  unfold make_base_phi at h
  cases hb : g.nodes[base]? with
  | none => simp [hb] at h
  | some bn =>
    cases hts : types_of g.nodes bases with
    | none => simp [hb, hts] at h
    | some ts =>
      simp only [hb, hts] at h
      cases hbi : map_find derived g.node_to_block with
      | none => simp [hbi] at h
      | some bi =>
        simp only [hbi] at h
        cases hblk : g.blocks[bi]? with
        | none => simp [hblk] at h
        | some blk =>
          simp only [hblk] at h
          have hd1 : blk.nodes.tail = blk.nodes.drop 1 := by cases blk.nodes <;> rfl
          have key : ∀ r, search_block
              (g.nodes ++ [⟨true, false, false, ts.foldl meet bn.bottom_type, region :: bases⟩])
              blk.end_idx bases 1 (blk.nodes.drop 1) = some r →
              ∃ pre, (∀ x ∈ pre, PassedOver
                (g.nodes ++ [⟨true, false, false, ts.foldl meet bn.bottom_type, region :: bases⟩])
                bases x) ∧ _ := fun r hs => search_block_spec _ _ _ _ _ r hs
          split at h
          · cases h
          · rename_i i hs
            try rw [hd1] at hs
            obtain ⟨pre, hpre, hcase⟩ := key _ hs
            simp only [Res.ok.injEq, Prod.mk.injEq] at h
            obtain ⟨h1, h2⟩ := h
            subst h1 h2
            refine ⟨ts.foldl meet bn.bottom_type, bi, blk, pre, rfl, hblk, rfl, rfl, hpre, ?_⟩
            rcases hcase with ⟨phi, post, pn, e1, _⟩ | ⟨x, post, pn, e1, e2, e3, e4, e5⟩ | ⟨e1, _⟩
            · cases e1
            · cases e1
              exact Or.inr (Or.inl ⟨x, post, pn, e2, e3, e4, e5, rfl, rfl⟩)
            · cases e1
          · rename_i phi hs
            try rw [hd1] at hs
            obtain ⟨pre, hpre, hcase⟩ := key _ hs
            simp only [Res.ok.injEq, Prod.mk.injEq] at h
            obtain ⟨h1, h2⟩ := h
            subst h1 h2
            refine ⟨ts.foldl meet bn.bottom_type, bi, blk, pre, rfl, hblk, rfl, rfl, hpre, ?_⟩
            rcases hcase with ⟨phi', post, pn, e1, e2, e3, e4, e5, e6⟩ | ⟨x, post, pn, e1, _⟩ |
              ⟨e1, _⟩
            · cases e1
              exact Or.inl ⟨post, pn, e2, e3, e4, e5, e6, rfl⟩
            · cases e1
            · cases e1
          · rename_i hs
            try rw [hd1] at hs
            obtain ⟨pre, hpre, hcase⟩ := key _ hs
            simp only [Res.ok.injEq, Prod.mk.injEq] at h
            obtain ⟨h1, h2⟩ := h
            subst h1 h2
            refine ⟨ts.foldl meet bn.bottom_type, bi, blk, pre, rfl, hblk, rfl, rfl, hpre, ?_⟩
            rcases hcase with ⟨phi', post, pn, e1, _⟩ | ⟨x, post, pn, e1, _⟩ | ⟨_, post, e2, e3⟩
            · cases e1
            · cases e1
            · exact Or.inr (Or.inr ⟨post, e2, e3, rfl, rfl⟩)

/-- Claim C23, amended. A completed call of `find_derived_base` on a derived
phi `D` first resolves inputs of `D` by completed calls, which lead to a state
`g3`; afterwards the memo holds a base for every input and `B` for `D`. If all
these bases are one and the same, that base is returned and the state is `g3`
with the new memo entry: the call itself adds no node. If they differ, a phi
with the region of `D` and the bases as inputs is created; the search passes
over the leading phis of the block of `D` that do not match it and either
finds a phi that matches (the same input in every place, or two constants),
which is returned, with the blocks left as in `g3`, or reaches the first node
that is no phi, where the created phi is inserted and returned, or runs past
the end node. -/
theorem C23_base_of_derived_phi (meet : NodeType → NodeType → NodeType) (fuel : Nat)
    (g : Graph) (D : Nat) (d : Node) (region in1 B : Nat) (g' : Graph)
    (hm : map_find D g.derived_base = none) (hd : g.nodes[D]? = some d) (hp : d.phi_path)
    (hreg : d.ins[0]? = some region) (hin1 : d.ins[1]? = some in1)
    (h : find_derived_base meet (fuel + 1) g D = .ok (B, g')) :
    ∃ (g3 : Graph) (L bases : List Nat),
      CallSeq (find_derived_base meet fuel) L g g3 ∧ (∀ y ∈ L, y ∈ d.ins.drop 1) ∧
      List.Forall₂ (fun y b => map_find y g'.derived_base = some b) (d.ins.drop 1) bases ∧
      map_find D g'.derived_base = some B ∧
      (((∀ b ∈ bases, b = B) ∧ g' = g3.memoize D B) ∨
       ((∃ b1 ∈ bases, ∃ b2 ∈ bases, b1 ≠ b2) ∧
        ∃ t bi blk pre, map_find D g3.node_to_block = some bi ∧ g3.blocks[bi]? = some blk ∧
          g'.nodes = with_base_phi g3 t region bases ∧
          (∀ x ∈ pre, PassedOver g'.nodes bases x) ∧
          ((∃ post pn, blk.nodes.drop 1 = pre ++ B :: post ∧ 1 + pre.length ≤ blk.end_idx ∧
              g'.nodes[B]? = some pn ∧ pn.is_Phi = true ∧
              SameUpToConstants g'.nodes (pn.ins.drop 1) bases ∧ g'.blocks = g3.blocks) ∨
           (∃ x post pn, blk.nodes.drop 1 = pre ++ x :: post ∧ 1 + pre.length ≤ blk.end_idx ∧
              g'.nodes[x]? = some pn ∧ pn.is_Phi = false ∧ B = g3.nodes.length ∧
              g'.blocks = g3.blocks.set bi (blk.insert_node B (1 + pre.length))) ∨
           (∃ post, blk.nodes.drop 1 = pre ++ post ∧ blk.end_idx < 1 + pre.length ∧
              B = g3.nodes.length ∧ g'.blocks = g3.blocks)))) := by
  have hmemoB := find_derived_base_memoized meet (fuel + 1) g D B g' h
  have hlt : 1 < d.ins.length := by
    by_contra hge
    rw [List.getElem?_eq_none (by omega)] at hin1
    cases hin1
  have hdrop : d.ins.drop 1 = in1 :: d.ins.drop 2 := by
    rw [List.getElem?_eq_getElem hlt] at hin1
    cases hin1
    exact List.drop_eq_getElem_cons hlt
  rw [find_derived_base_phi_step meet g D d region in1 hm hd hp hreg hin1 fuel] at h
  cases h1 : find_derived_base meet fuel g in1 with
  | fatal => simp [h1] at h
  | out_of_fuel => simp [h1] at h
  | ok r1 =>
    obtain ⟨base, g1⟩ := r1
    simp only [h1] at h
    have hmemo1 := find_derived_base_memoized meet fuel g in1 base g1 h1
    have hseq1 : CallSeq (find_derived_base meet fuel) [in1] g g1 := .cons h1 (.nil g1)
    cases h2 : phi_scan (find_derived_base meet fuel) base (d.ins.drop 2) g1 with
    | fatal => simp [h2] at h
    | out_of_fuel => simp [h2] at h
    | ok r2 =>
      obtain ⟨flag, g2⟩ := r2
      obtain ⟨called, hseq2, hsub2, _⟩ := phi_scan_calls _ base _ _ _ _ h2
      obtain ⟨hext2, hall, hsome⟩ := phi_scan_memo meet fuel base _ _ _ _ h2
      have hseq12 := hseq1.append hseq2
      have hL12 : ∀ y ∈ [in1] ++ called, y ∈ d.ins.drop 1 := by
        intro y hy
        rw [hdrop]
        rcases List.mem_append.mp hy with e | e
        · simp only [List.mem_singleton] at e
          subst e
          exact List.mem_cons_self _ _
        · exact List.mem_cons_of_mem _ (hsub2 y e)
      cases flag with
      | true =>
        simp only [h2, Res.ok.injEq, Prod.mk.injEq] at h
        obtain ⟨e1, e2⟩ := h
        subst e1
        have hin : ∀ y ∈ d.ins.drop 1, map_find y g'.derived_base = some base := by
          intro y hy
          rw [hdrop] at hy
          rw [← e2]
          apply (Ext.ext_memoize g2 D base).memo
          rcases List.mem_cons.mp hy with e | e
          · subst e; exact hext2.memo _ _ hmemo1
          · exact hall rfl y e
        refine ⟨g2, [in1] ++ called, (d.ins.drop 1).map (fun _ => base), hseq12, hL12,
          forall₂_const _ base _ hin, hmemoB, Or.inl ⟨?_, e2.symm⟩⟩
        intro b hb
        obtain ⟨_, _, rfl⟩ := List.mem_map.mp hb
        rfl
      | false =>
        simp only [h2] at h
        have hd1 : d.ins.tail = d.ins.drop 1 := by cases d.ins <;> rfl
        try rw [hd1] at h
        cases h3 : phi_bases (find_derived_base meet fuel) (d.ins.drop 1) g2 with
        | fatal => rw [h3] at h; cases h
        | out_of_fuel => rw [h3] at h; cases h
        | ok r3 =>
          obtain ⟨bases, g3⟩ := r3
          rw [h3] at h
          simp only at h
          have hseq3 := phi_bases_calls _ _ _ _ _ h3
          obtain ⟨hext3, hf3⟩ := phi_bases_memo meet fuel _ _ _ _ h3
          obtain ⟨t, bi, blk, pre, hbi, hblk, hnodes, hmemo', hpre, hcase⟩ :=
            make_base_phi_spec meet g3 D region base bases B g' h
          have hpres : ∀ k v, map_find k g3.derived_base = some v →
              map_find k g'.derived_base = some v := by
            intro k v hk
            rw [hmemo']
            exact map_find_insert_of_some D B hk
          have hf' : List.Forall₂ (fun y b => map_find y g'.derived_base = some b)
              (d.ins.drop 1) bases := hf3.imp (fun {y b} hyb => hpres y b hyb)
          obtain ⟨y, hy, b, hbne, hyb⟩ := hsome rfl
          have hdiff : ∃ b1 ∈ bases, ∃ b2 ∈ bases, b1 ≠ b2 := by
            rw [hdrop] at hf3
            cases hf3 with
            | cons hhead htail =>
              rename_i b0 bs
              have hb0 : b0 = base := by
                have := hext3.memo _ _ (hext2.memo _ _ hmemo1)
                rw [this] at hhead
                exact (Option.some.inj hhead).symm
              obtain ⟨b', hb'mem, hb'⟩ : ∃ b' ∈ bs, map_find y g3.derived_base = some b' := by
                have key : ∀ (ys bs : List Nat),
                    List.Forall₂ (fun y b => map_find y g3.derived_base = some b) ys bs →
                    y ∈ ys → ∃ b' ∈ bs, map_find y g3.derived_base = some b' := by
                  intro ys bs hfa
                  induction hfa with
                  | nil => intro hmem; simp at hmem
                  | cons hh _ ih =>
                    intro hmem
                    rcases List.mem_cons.mp hmem with e | e
                    · subst e; exact ⟨_, List.mem_cons_self _ _, hh⟩
                    · obtain ⟨b', hm1, hm2⟩ := ih e
                      exact ⟨b', List.mem_cons_of_mem _ hm1, hm2⟩
                exact key _ _ htail hy
              have hb'b : b' = b := by
                have := hext3.memo _ _ hyb
                rw [this] at hb'
                exact (Option.some.inj hb').symm
              refine ⟨b0, List.mem_cons_self _ _, b', List.mem_cons_of_mem _ hb'mem, ?_⟩
              rw [hb0, hb'b]
              exact fun e => hbne e.symm
          refine ⟨g3, ([in1] ++ called) ++ d.ins.drop 1, bases, hseq12.append hseq3, ?_, hf',
            hmemoB, Or.inr ⟨hdiff, t, bi, blk, pre, hbi, hblk, hnodes, hpre, hcase⟩⟩
          intro z hz
          rcases List.mem_append.mp hz with e | e
          · exact hL12 z e
          · exact e

/-- Witness of the C23 theorem: the phi of `merge_graph` (node 3), whose inputs
have the bases 1 and 2; the created phi, node 8, is inserted behind the phi. -/
theorem C23_witness :
    ∃ (g3 : Graph) (L bases : List Nat),
      CallSeq (find_derived_base sample_meet 2) L merge_graph g3 ∧
      (∀ y ∈ L, y ∈ (Node.mk true false false (.ptr 16) [0, 4, 5]).ins.drop 1) ∧
      List.Forall₂ (fun y b => map_find y merge_graph_done.derived_base = some b)
        ((Node.mk true false false (.ptr 16) [0, 4, 5]).ins.drop 1) bases ∧
      map_find 3 merge_graph_done.derived_base = some 8 ∧
      (((∀ b ∈ bases, b = 8) ∧ merge_graph_done = g3.memoize 3 8) ∨
       ((∃ b1 ∈ bases, ∃ b2 ∈ bases, b1 ≠ b2) ∧
        ∃ t bi blk pre, map_find 3 g3.node_to_block = some bi ∧ g3.blocks[bi]? = some blk ∧
          merge_graph_done.nodes = with_base_phi g3 t 0 bases ∧
          (∀ x ∈ pre, PassedOver merge_graph_done.nodes bases x) ∧
          ((∃ post pn, blk.nodes.drop 1 = pre ++ 8 :: post ∧ 1 + pre.length ≤ blk.end_idx ∧
              merge_graph_done.nodes[8]? = some pn ∧ pn.is_Phi = true ∧
              SameUpToConstants merge_graph_done.nodes (pn.ins.drop 1) bases ∧
              merge_graph_done.blocks = g3.blocks) ∨
           (∃ x post pn, blk.nodes.drop 1 = pre ++ x :: post ∧ 1 + pre.length ≤ blk.end_idx ∧
              merge_graph_done.nodes[x]? = some pn ∧ pn.is_Phi = false ∧ 8 = g3.nodes.length ∧
              merge_graph_done.blocks = g3.blocks.set bi (blk.insert_node 8 (1 + pre.length))) ∨
           (∃ post, blk.nodes.drop 1 = pre ++ post ∧ blk.end_idx < 1 + pre.length ∧
              8 = g3.nodes.length ∧ merge_graph_done.blocks = g3.blocks)))) :=
  C23_base_of_derived_phi sample_meet 2 merge_graph 3 ⟨true, false, false, .ptr 16, [0, 4, 5]⟩
    0 4 8 merge_graph_done (by decide) (by decide) (by decide) (by decide) (by decide)
    (by decide)

/-- Claim C23 fails as stated, in two places. In `null_merge_graph` the inputs
of the derived phi (node 5) have the bases 2 and 3, and no phi of the block has
these inputs; yet the call returns the phi node 4, whose first input is
node 1, another null constant than the base of the first input, and inserts
nothing. In `nested_merge_graph` both inputs of the derived phi (node 9) have
one and the same base, node 11, which is returned; yet the call has added
node 11 to block 1, while resolving the inputs. -/
theorem C23_counterexample :
    (find_derived_base sample_meet 2 null_merge_graph 5 = .ok (4, null_merge_done) ∧
        map_find 6 null_merge_done.derived_base = some 2 ∧
        map_find 7 null_merge_done.derived_base = some 3 ∧
        null_merge_done.nodes[4]? = some ⟨true, false, false, .ptr 0, [0, 1, 3]⟩ ∧
        null_merge_graph.blocks[1]? = some ⟨[0, 4, 5, 8], 0⟩ ∧
        null_merge_done.blocks = null_merge_graph.blocks) ∧
      (find_derived_base sample_meet 3 nested_merge_graph 9 = .ok (11, nested_merge_done) ∧
        map_find 3 nested_merge_done.derived_base = some 11 ∧
        nested_merge_graph.nodes[9]? = some ⟨true, false, false, .ptr 16, [8, 3, 3]⟩ ∧
        nested_merge_graph.blocks[1]? = some ⟨[0, 3, 6], 0⟩ ∧
        nested_merge_done.blocks[1]? = some ⟨[0, 3, 11, 6], 0⟩) := by
  decide

end Selector
